import Mathlib

/-!
# MurmurHash2 family: a shallow embedding of `src/murmurhash/MurmurHash2.cpp`

Modelling conventions.

* A byte (`unsigned char`, `uint8_t`) is a `Fin 256`.
* A `uint32_t` / `uint64_t` value is a natural number; every C operation that
  can leave the word range is followed by an explicit `% 2^32` / `% 2^64`
  (`u32`, `u64`).  Xor, or and right shift of in-range words need no reduction.
* The C `int len` is a natural number (the interface requires `len ≥ 0`).
* A pointer into the caller's buffer is the list of the readable bytes from the
  pointed-to address up to the end of the buffer: `data[i]` is `data[i]?`
  (`none` when the byte is outside the buffer), `data += n` is `data.drop n`.
  Every function therefore returns an `Option`; `none` means that a byte outside
  the buffer was read.
* The host byte order is a parameter (`ByteOrder`); it decides what a native
  word load (`*(uint32_t*)data`, `*data++` on a word pointer, `p[i]`) returns
  and which definition of `BYTESWAP32` / `BYTESWAP64` the preprocessor selects.
* `while (len >= 4) { ...; len -= 4; }` is a recursion on `len` by the pattern
  `len + 4`; a `switch` with fall-through is a chain of entry points, one per
  `case` label, each continuing into the next label.
-/

namespace Murmur

/-- An octet of the input buffer. -/
abbrev Byte := Fin 256

/-- Byte order of the host's native word loads. -/
inductive ByteOrder where
  | little
  | big
deriving DecidableEq, Repr

/-- Truncation to `uint32_t`. -/
def u32 (x : Nat) : Nat := x % 2 ^ 32

/-- Truncation to `uint64_t`. -/
def u64 (x : Nat) : Nat := x % 2 ^ 64

/-- Native load `*(uint32_t*)data`: four bytes, combined in host order. -/
def load32 (e : ByteOrder) (data : List Byte) : Option Nat := do
  let b0 ← data[0]?
  let b1 ← data[1]?
  let b2 ← data[2]?
  let b3 ← data[3]?
  match e with
  | .little => pure (b0.val + 256 * b1.val + 65536 * b2.val + 16777216 * b3.val)
  | .big => pure (b3.val + 256 * b2.val + 65536 * b1.val + 16777216 * b0.val)

/-- Native load `*(uint64_t*)data`: eight bytes, combined in host order. -/
def load64 (e : ByteOrder) (data : List Byte) : Option Nat := do
  let b0 ← data[0]?
  let b1 ← data[1]?
  let b2 ← data[2]?
  let b3 ← data[3]?
  let b4 ← data[4]?
  let b5 ← data[5]?
  let b6 ← data[6]?
  let b7 ← data[7]?
  match e with
  | .little =>
    pure (b0.val + 256 * (b1.val + 256 * (b2.val + 256 * (b3.val + 256 * (b4.val
      + 256 * (b5.val + 256 * (b6.val + 256 * b7.val)))))))
  | .big =>
    pure (b7.val + 256 * (b6.val + 256 * (b5.val + 256 * (b4.val + 256 * (b3.val
      + 256 * (b2.val + 256 * (b1.val + 256 * b0.val)))))))

/-! ## Byte-swap macros (lines 42-82) -/

/-- The last-resort `BYTESWAP32` macro (lines 67-70), on a `uint32_t`. -/
def BYTESWAP32_lastResort (x : Nat) : Nat :=
  u32 ((x &&& 0xFF) <<< 24)
    ||| ((x >>> 24) &&& 0xFF)
    ||| u32 ((x &&& 0x0000FF00) <<< 8)
    ||| ((x &&& 0x00FF0000) >>> 8)

/-- The last-resort `BYTESWAP64` macro (lines 73-81), on a `uint64_t`. -/
def BYTESWAP64_lastResort (x : Nat) : Nat :=
  u64 (x <<< 56)
    ||| (u64 (x <<< 40) &&& 0x00FF000000000000)
    ||| (u64 (x <<< 24) &&& 0x0000FF0000000000)
    ||| (u64 (x <<< 8) &&& 0x000000FF00000000)
    ||| ((x >>> 8) &&& 0x00000000FF000000)
    ||| ((x >>> 24) &&& 0x0000000000FF0000)
    ||| ((x >>> 40) &&& 0x000000000000FF00)
    ||| (x >>> 56)

/-- Macro `BYTESWAP32` as selected by the preprocessor: the identity when
`__BYTE_ORDER__ == __ORDER_LITTLE_ENDIAN__`, the last-resort macro on a
big-endian host (where `__BYTE_ORDER__` is defined, so no `#elif` is taken). -/
def BYTESWAP32 (e : ByteOrder) (x : Nat) : Nat :=
  match e with
  | .little => x
  | .big => BYTESWAP32_lastResort x

/-- Macro `BYTESWAP64` as selected by the preprocessor, see `BYTESWAP32`. -/
def BYTESWAP64 (e : ByteOrder) (x : Nat) : Nat :=
  match e with
  | .little => x
  | .big => BYTESWAP64_lastResort x

/-- Function `getblock2(const uint32_t * p, int i)`: `BYTESWAP32(p[i])`. -/
def getblock2_32 (e : ByteOrder) (p : List Byte) (i : Nat) : Option Nat := do
  let w ← load32 e (p.drop (4 * i))
  pure (BYTESWAP32 e w)

/-- Function `getblock2(const uint64_t * p, int i)`: `BYTESWAP64(p[i])`, where
`bswap` is the definition of `BYTESWAP64` the preprocessor has selected. -/
def getblock2_64 (bswap : Nat → Nat) (e : ByteOrder) (p : List Byte) (i : Nat) :
    Option Nat := do
  let w ← load64 e (p.drop (8 * i))
  pure (bswap w)

/-! ## The tail switch of the 32-bit variants

The text
`switch(len) { case 3: h ^= data[2] << 16; case 2: h ^= data[1] << 8;
case 1: h ^= data[0]; h *= m; };`
occurs verbatim in `MurmurHash2` (131-137), `MurmurHash64B` (232-238, on `h2`),
`MurmurHashNeutral2` (472-478) and `MurmurHashAligned2` (569-575, 610-616). -/

/-- Label `case 1` of the tail switch: `h ^= data[0]; h *= m;`. -/
def tailSwitch.case1 (m : Nat) (data : List Byte) (h : Nat) : Option Nat := do
  let b ← data[0]?
  let h := h ^^^ b.val
  pure (u32 (h * m))

/-- Label `case 2`: `h ^= data[1] << 8;`, falling through to `case 1`. -/
def tailSwitch.case2 (m : Nat) (data : List Byte) (h : Nat) : Option Nat := do
  let b ← data[1]?
  tailSwitch.case1 m data (h ^^^ (b.val <<< 8))

/-- Label `case 3`: `h ^= data[2] << 16;`, falling through to `case 2`. -/
def tailSwitch.case3 (m : Nat) (data : List Byte) (h : Nat) : Option Nat := do
  let b ← data[2]?
  tailSwitch.case2 m data (h ^^^ (b.val <<< 16))

/-- The tail `switch(len)`; no label matches when `len` is `0` or above `3`. -/
def tailSwitch (m : Nat) (len : Nat) (data : List Byte) (h : Nat) : Option Nat :=
  match len with
  | 3 => tailSwitch.case3 m data h
  | 2 => tailSwitch.case2 m data h
  | 1 => tailSwitch.case1 m data h
  | _ => pure h

/-! ## MurmurHash2 (lines 98-147) -/

/-- The loop `while(len >= 4)` of `MurmurHash2`; returns `h`, `data`, `len`. -/
def MurmurHash2.loop (e : ByteOrder) (m r : Nat) :
    Nat → List Byte → Nat → Option (Nat × List Byte × Nat)
  | len + 4, data, h => do
    let k ← load32 e data
    let k := u32 (k * m)
    let k := k ^^^ (k >>> r)
    let k := u32 (k * m)
    let h := u32 (h * m)
    let h := h ^^^ k
    MurmurHash2.loop e m r len (data.drop 4) h
  | len, data, h => some (h, data, len)

/-- Function `uint32_t MurmurHash2 ( const void * key, int len, uint32_t seed )`. -/
def MurmurHash2 (e : ByteOrder) (key : List Byte) (len : Nat) (seed : Nat) : Option Nat := do
  let m := 0x5bd1e995
  let r := 24
  let h := seed ^^^ u32 len
  let data := key
  let (h, data, len) ← MurmurHash2.loop e m r len data h
  let h ← tailSwitch m len data h
  let h := h ^^^ (h >>> 13)
  let h := u32 (h * m)
  let h := h ^^^ (h >>> 15)
  pure h

/-! ## The tail switch of the 64-bit variants

`switch(len & 7)` of `MurmurHash64A` (180-190) and `MurmurHash64ANeutral`
(278-288), the same text in both. -/

/-- Label `case 1`: `h ^= uint64_t(data2[0]); h *= m;`. -/
def tailSwitch64.case1 (m : Nat) (data2 : List Byte) (h : Nat) : Option Nat := do
  let b ← data2[0]?
  let h := h ^^^ b.val
  pure (u64 (h * m))

/-- Label `case 2`: `h ^= uint64_t(data2[1]) << 8;`, then `case 1`. -/
def tailSwitch64.case2 (m : Nat) (data2 : List Byte) (h : Nat) : Option Nat := do
  let b ← data2[1]?
  tailSwitch64.case1 m data2 (h ^^^ (b.val <<< 8))

/-- Label `case 3`: `h ^= uint64_t(data2[2]) << 16;`, then `case 2`. -/
def tailSwitch64.case3 (m : Nat) (data2 : List Byte) (h : Nat) : Option Nat := do
  let b ← data2[2]?
  tailSwitch64.case2 m data2 (h ^^^ (b.val <<< 16))

/-- Label `case 4`: `h ^= uint64_t(data2[3]) << 24;`, then `case 3`. -/
def tailSwitch64.case4 (m : Nat) (data2 : List Byte) (h : Nat) : Option Nat := do
  let b ← data2[3]?
  tailSwitch64.case3 m data2 (h ^^^ (b.val <<< 24))

/-- Label `case 5`: `h ^= uint64_t(data2[4]) << 32;`, then `case 4`. -/
def tailSwitch64.case5 (m : Nat) (data2 : List Byte) (h : Nat) : Option Nat := do
  let b ← data2[4]?
  tailSwitch64.case4 m data2 (h ^^^ (b.val <<< 32))

/-- Label `case 6`: `h ^= uint64_t(data2[5]) << 40;`, then `case 5`. -/
def tailSwitch64.case6 (m : Nat) (data2 : List Byte) (h : Nat) : Option Nat := do
  let b ← data2[5]?
  tailSwitch64.case5 m data2 (h ^^^ (b.val <<< 40))

/-- Label `case 7`: `h ^= uint64_t(data2[6]) << 48;`, then `case 6`. -/
def tailSwitch64.case7 (m : Nat) (data2 : List Byte) (h : Nat) : Option Nat := do
  let b ← data2[6]?
  tailSwitch64.case6 m data2 (h ^^^ (b.val <<< 48))

/-- The tail `switch(len & 7)`; the argument is the switched-on value. -/
def tailSwitch64 (m : Nat) (n : Nat) (data2 : List Byte) (h : Nat) : Option Nat :=
  match n with
  | 7 => tailSwitch64.case7 m data2 h
  | 6 => tailSwitch64.case6 m data2 h
  | 5 => tailSwitch64.case5 m data2 h
  | 4 => tailSwitch64.case4 m data2 h
  | 3 => tailSwitch64.case3 m data2 h
  | 2 => tailSwitch64.case2 m data2 h
  | 1 => tailSwitch64.case1 m data2 h
  | _ => pure h

/-! ## MurmurHash64A (lines 157-197) -/

/-- The loop `for(int i = 0; i < nblocks; i++)`: the first argument counts the
iterations still to run (`nblocks - i`), the second is `i`. -/
def MurmurHash64A.loop (bswap : Nat → Nat) (e : ByteOrder) (m r : Nat) (blocks : List Byte) :
    Nat → Nat → Nat → Option Nat
  | 0, _, h => some h
  | n + 1, i, h => do
    let k ← getblock2_64 bswap e blocks i
    let k := u64 (k * m)
    let k := k ^^^ (k >>> r)
    let k := u64 (k * m)
    let h := h ^^^ k
    let h := u64 (h * m)
    MurmurHash64A.loop bswap e m r blocks n (i + 1) h

/-- Function `uint64_t MurmurHash64A ( const void * key, int len, uint64_t seed )`,
compiled with `bswap` as the selected definition of `BYTESWAP64`, on a host of
byte order `e`. -/
def MurmurHash64A.compiled (bswap : Nat → Nat) (e : ByteOrder) (key : List Byte) (len : Nat)
    (seed : Nat) : Option Nat := do
  let m := 0xc6a4a7935bd1e995
  let r := 47
  let nblocks := len / 8
  let h := seed ^^^ u64 (len * m)
  let data := key
  let blocks := data
  let h ← MurmurHash64A.loop bswap e m r blocks nblocks 0 h
  let data2 := data.drop (nblocks * 8)
  let h ← tailSwitch64 m (len &&& 7) data2 h
  let h := h ^^^ (h >>> r)
  let h := u64 (h * m)
  let h := h ^^^ (h >>> r)
  pure h

/-- The function `MurmurHash64A` on a host of byte order `e` whose compiler
predefines `__BYTE_ORDER__` (so that `BYTESWAP64 e` is the selected macro). -/
def MurmurHash64A (e : ByteOrder) (key : List Byte) (len : Nat) (seed : Nat) : Option Nat :=
  MurmurHash64A.compiled (BYTESWAP64 e) e key len seed

/-! ## MurmurHash64B (lines 201-250) -/

/-- The loop `while(len >= 8)` of `MurmurHash64B`; returns `h1`, `h2`, `data`,
`len`.  Each `*data++` on the `uint32_t` pointer is a native load followed by
an advance of four bytes. -/
def MurmurHash64B.loop (e : ByteOrder) (m r : Nat) :
    Nat → List Byte → Nat → Nat → Option (Nat × Nat × List Byte × Nat)
  | len + 8, data, h1, h2 => do
    let k1 ← load32 e data
    let data := data.drop 4
    let k1 := u32 (k1 * m)
    let k1 := k1 ^^^ (k1 >>> r)
    let k1 := u32 (k1 * m)
    let h1 := u32 (h1 * m)
    let h1 := h1 ^^^ k1
    let k2 ← load32 e data
    let data := data.drop 4
    let k2 := u32 (k2 * m)
    let k2 := k2 ^^^ (k2 >>> r)
    let k2 := u32 (k2 * m)
    let h2 := u32 (h2 * m)
    let h2 := h2 ^^^ k2
    MurmurHash64B.loop e m r len data h1 h2
  | len, data, h1, h2 => some (h1, h2, data, len)

/-- The block `if(len >= 4) { ... }` of `MurmurHash64B`. -/
def MurmurHash64B.extra (e : ByteOrder) (m r : Nat) (len : Nat) (data : List Byte)
    (h1 : Nat) : Option (Nat × List Byte × Nat) :=
  if len ≥ 4 then do
    let k1 ← load32 e data
    let data := data.drop 4
    let k1 := u32 (k1 * m)
    let k1 := k1 ^^^ (k1 >>> r)
    let k1 := u32 (k1 * m)
    let h1 := u32 (h1 * m)
    let h1 := h1 ^^^ k1
    pure (h1, data, len - 4)
  else
    pure (h1, data, len)

/-- Function `uint64_t MurmurHash64B ( const void * key, int len, uint64_t seed )`. -/
def MurmurHash64B (e : ByteOrder) (key : List Byte) (len : Nat) (seed : Nat) : Option Nat := do
  let m := 0x5bd1e995
  let r := 24
  let h1 := u32 seed ^^^ u32 len
  let h2 := u32 (seed >>> 32)
  let data := key
  let (h1, h2, data, len) ← MurmurHash64B.loop e m r len data h1 h2
  let (h1, data, len) ← MurmurHash64B.extra e m r len data h1
  let h2 ← tailSwitch m len data h2
  let h1 := h1 ^^^ (h2 >>> 18)
  let h1 := u32 (h1 * m)
  let h2 := h2 ^^^ (h1 >>> 22)
  let h2 := u32 (h2 * m)
  let h1 := h1 ^^^ (h2 >>> 17)
  let h1 := u32 (h1 * m)
  let h2 := h2 ^^^ (h1 >>> 19)
  let h2 := u32 (h2 * m)
  let h := h1
  let h := u64 (h <<< 32) ||| h2
  pure h

/-! ## MurmurHash64ANeutral (lines 254-295) -/

/-- The loop `while(data != end)` with `end = data + (len/8)` on `uint64_t`
pointers: the first argument is the number of words between `data` and `end`.
The block is read by the plain load `*data++`. -/
def MurmurHash64ANeutral.loop (e : ByteOrder) (m r : Nat) :
    Nat → List Byte → Nat → Option (Nat × List Byte)
  | 0, data, h => some (h, data)
  | n + 1, data, h => do
    let k ← load64 e data
    let data := data.drop 8
    let k := u64 (k * m)
    let k := k ^^^ (k >>> r)
    let k := u64 (k * m)
    let h := h ^^^ k
    let h := u64 (h * m)
    MurmurHash64ANeutral.loop e m r n data h

/-- Function `uint64_t MurmurHash64ANeutral ( const void * key, int len, uint64_t seed )`. -/
def MurmurHash64ANeutral (e : ByteOrder) (key : List Byte) (len : Nat) (seed : Nat) :
    Option Nat := do
  let m := 0xc6a4a7935bd1e995
  let r := 47
  let h := seed ^^^ u64 (len * m)
  let data := key
  let (h, data) ← MurmurHash64ANeutral.loop e m r (len / 8) data h
  let data2 := data
  let h ← tailSwitch64 m (len &&& 7) data2 h
  let h := h ^^^ (h >>> r)
  let h := u64 (h * m)
  let h := h ^^^ (h >>> r)
  pure h

/-! ## MurmurHash2A (lines 308-347) -/

/-- The macro `mmix(h,k)`: `{ k *= m; k ^= k >> r; k *= m; h *= m; h ^= k; }`.
It assigns to both arguments; the pair is the new `(h, k)`. -/
def mmix (m r : Nat) (h k : Nat) : Nat × Nat :=
  let k := u32 (k * m)
  let k := k ^^^ (k >>> r)
  let k := u32 (k * m)
  let h := u32 (h * m)
  let h := h ^^^ k
  (h, k)

/-- The loop `while(len >= 4)` of `MurmurHash2A`. -/
def MurmurHash2A.loop (e : ByteOrder) (m r : Nat) :
    Nat → List Byte → Nat → Option (Nat × List Byte × Nat)
  | len + 4, data, h => do
    let k ← load32 e data
    let (h, _) := mmix m r h k
    MurmurHash2A.loop e m r len (data.drop 4) h
  | len, data, h => some (h, data, len)

/-- Label `case 1` of the switch of `MurmurHash2A`: `t ^= data[0];`. -/
def MurmurHash2A.case1 (data : List Byte) (t : Nat) : Option Nat := do
  let b ← data[0]?
  pure (t ^^^ b.val)

/-- Label `case 2`: `t ^= data[1] << 8;`, then `case 1`. -/
def MurmurHash2A.case2 (data : List Byte) (t : Nat) : Option Nat := do
  let b ← data[1]?
  MurmurHash2A.case1 data (t ^^^ (b.val <<< 8))

/-- Label `case 3`: `t ^= data[2] << 16;`, then `case 2`. -/
def MurmurHash2A.case3 (data : List Byte) (t : Nat) : Option Nat := do
  let b ← data[2]?
  MurmurHash2A.case2 data (t ^^^ (b.val <<< 16))

/-- The `switch(len)` of `MurmurHash2A` collecting the tail bytes in `t`. -/
def MurmurHash2A.tail (len : Nat) (data : List Byte) (t : Nat) : Option Nat :=
  match len with
  | 3 => MurmurHash2A.case3 data t
  | 2 => MurmurHash2A.case2 data t
  | 1 => MurmurHash2A.case1 data t
  | _ => pure t

/-- Function `uint32_t MurmurHash2A ( const void * key, int len, uint32_t seed )`. -/
def MurmurHash2A (e : ByteOrder) (key : List Byte) (len : Nat) (seed : Nat) : Option Nat := do
  let m := 0x5bd1e995
  let r := 24
  let l := u32 len
  let data := key
  let h := seed
  let (h, data, len) ← MurmurHash2A.loop e m r len data h
  let t := 0
  let t ← MurmurHash2A.tail len data t
  let (h, _) := mmix m r h t
  let (h, _) := mmix m r h l
  let h := h ^^^ (h >>> 13)
  let h := u32 (h * m)
  let h := h ^^^ (h >>> 15)
  pure h

/-! ## CMurmurHash2A (lines 365-435) -/

/-- The data members of `class CMurmurHash2A`. -/
structure CMurmurHash2A where
  m_hash : Nat
  m_tail : Nat
  m_count : Nat
  m_size : Nat
deriving DecidableEq, Repr

/-- Constant `static const uint32_t m = 0x5bd1e995;`. -/
def CMurmurHash2A.m : Nat := 0x5bd1e995

/-- Constant `static const int r = 24;`. -/
def CMurmurHash2A.r : Nat := 24

/-- Function `void Begin ( uint32_t seed = 0 )`; the first argument is the object
as it was before the call. -/
def CMurmurHash2A.Begin (_self : CMurmurHash2A) (seed : Nat) : CMurmurHash2A :=
  { m_hash := seed, m_tail := 0, m_count := 0, m_size := 0 }

/-- Function `void MixTail ( const unsigned char * & data, int & len )`: the loop
`while( len && ((len<4) || m_count) )`, by recursion on `len`.  Returns the
object and the updated references `data`, `len`. -/
def CMurmurHash2A.MixTail :
    Nat → CMurmurHash2A → List Byte → Option (CMurmurHash2A × List Byte × Nat)
  | 0, self, data => some (self, data, 0)
  | len + 1, self, data =>
    if len + 1 < 4 ∨ self.m_count ≠ 0 then do
      let b ← data[0]?
      let data := data.drop 1
      let m_tail := self.m_tail ||| u32 (b.val <<< (self.m_count * 8))
      let m_count := u32 (self.m_count + 1)
      if m_count = 4 then
        let (m_hash, _) := mmix CMurmurHash2A.m CMurmurHash2A.r self.m_hash m_tail
        CMurmurHash2A.MixTail len
          { self with m_hash := m_hash, m_tail := 0, m_count := 0 } data
      else
        CMurmurHash2A.MixTail len
          { self with m_tail := m_tail, m_count := m_count } data
    else
      some (self, data, len + 1)

/-- The loop `while(len >= 4)` of `Add`. -/
def CMurmurHash2A.Add.loop (e : ByteOrder) :
    Nat → CMurmurHash2A → List Byte → Option (CMurmurHash2A × List Byte × Nat)
  | len + 4, self, data => do
    let k ← load32 e data
    let (m_hash, _) := mmix CMurmurHash2A.m CMurmurHash2A.r self.m_hash k
    CMurmurHash2A.Add.loop e len { self with m_hash := m_hash } (data.drop 4)
  | len, self, data => some (self, data, len)

/-- Function `void Add ( const unsigned char * data, int len )`. -/
def CMurmurHash2A.Add (e : ByteOrder) (self : CMurmurHash2A) (data : List Byte)
    (len : Nat) : Option CMurmurHash2A := do
  let self := { self with m_size := u32 (self.m_size + len) }
  let (self, data, len) ← CMurmurHash2A.MixTail len self data
  let (self, data, len) ← CMurmurHash2A.Add.loop e len self data
  let (self, _, _) ← CMurmurHash2A.MixTail len self data
  pure self

/-- Function `uint32_t End ( void )`: the returned digest and the object after the call
(`mmix` assigns to `m_tail` and `m_size` as well). -/
def CMurmurHash2A.End (self : CMurmurHash2A) : Nat × CMurmurHash2A :=
  let (m_hash, m_tail) := mmix CMurmurHash2A.m CMurmurHash2A.r self.m_hash self.m_tail
  let (m_hash, m_size) := mmix CMurmurHash2A.m CMurmurHash2A.r m_hash self.m_size
  let m_hash := m_hash ^^^ (m_hash >>> 13)
  let m_hash := u32 (m_hash * CMurmurHash2A.m)
  let m_hash := m_hash ^^^ (m_hash >>> 15)
  (m_hash, { self with m_hash := m_hash, m_tail := m_tail, m_size := m_size })

/-- The usage pattern of lines 357-363: `Begin(seed)`, one `Add` per part (each
with the part's own length), then `End()`; the result is the digest. -/
def CMurmurHash2A.run (e : ByteOrder) (self : CMurmurHash2A) (seed : Nat)
    (parts : List (List Byte)) : Option Nat :=
  (parts.foldlM (fun st part => CMurmurHash2A.Add e st part part.length)
    (CMurmurHash2A.Begin self seed)).map (fun st => (CMurmurHash2A.End st).1)

/-! ## MurmurHashNeutral2 (lines 443-485) -/

/-- The loop `while(len >= 4)` of `MurmurHashNeutral2`: the block is composed
from four indexed bytes.  `data[3] << 24` is an `int` that `k |=` converts to
`uint32_t`. -/
def MurmurHashNeutral2.loop (m r : Nat) :
    Nat → List Byte → Nat → Option (Nat × List Byte × Nat)
  | len + 4, data, h => do
    let b0 ← data[0]?
    let k := b0.val
    let b1 ← data[1]?
    let k := k ||| (b1.val <<< 8)
    let b2 ← data[2]?
    let k := k ||| (b2.val <<< 16)
    let b3 ← data[3]?
    let k := k ||| u32 (b3.val <<< 24)
    let k := u32 (k * m)
    let k := k ^^^ (k >>> r)
    let k := u32 (k * m)
    let h := u32 (h * m)
    let h := h ^^^ k
    MurmurHashNeutral2.loop m r len (data.drop 4) h
  | len, data, h => some (h, data, len)

/-- Function `uint32_t MurmurHashNeutral2 ( const void * key, int len, uint32_t seed )`.
The host byte order is an argument as for every other variant; the body has no
native word load to consult it. -/
def MurmurHashNeutral2 (_e : ByteOrder) (key : List Byte) (len : Nat) (seed : Nat) :
    Option Nat := do
  let m := 0x5bd1e995
  let r := 24
  let h := seed ^^^ u32 len
  let data := key
  let (h, data, len) ← MurmurHashNeutral2.loop m r len data h
  let h ← tailSwitch m len data h
  let h := h ^^^ (h >>> 13)
  let h := u32 (h * m)
  let h := h ^^^ (h >>> 15)
  pure h

/-! ## MurmurHashAligned2 (lines 495-624) -/

/-- The macro `MIX(h,k,m)`: `{ k *= m; k ^= k >> r; k *= m; h *= m; h ^= k; }`,
with `r` taken from the enclosing scope. -/
def MIX (r : Nat) (h k m : Nat) : Nat × Nat :=
  let k := u32 (k * m)
  let k := k ^^^ (k >>> r)
  let k := u32 (k * m)
  let h := u32 (h * m)
  let h := h ^^^ k
  (h, k)

/-- Pre-load switch (515-520), label `case 3`: `t |= data[0];`. -/
def MurmurHashAligned2.pre.case3 (data : List Byte) (t : Nat) : Option Nat := do
  let b ← data[0]?
  pure (t ||| b.val)

/-- Pre-load switch, label `case 2`: `t |= data[1] << 8;`, then `case 3`. -/
def MurmurHashAligned2.pre.case2 (data : List Byte) (t : Nat) : Option Nat := do
  let b ← data[1]?
  MurmurHashAligned2.pre.case3 data (t ||| (b.val <<< 8))

/-- Pre-load switch, label `case 1`: `t |= data[2] << 16;`, then `case 2`. -/
def MurmurHashAligned2.pre.case1 (data : List Byte) (t : Nat) : Option Nat := do
  let b ← data[2]?
  MurmurHashAligned2.pre.case2 data (t ||| (b.val <<< 16))

/-- The pre-load `switch(align)` (515-520). -/
def MurmurHashAligned2.pre (align : Nat) (data : List Byte) (t : Nat) : Option Nat :=
  match align with
  | 1 => MurmurHashAligned2.pre.case1 data t
  | 2 => MurmurHashAligned2.pre.case2 data t
  | 3 => MurmurHashAligned2.pre.case3 data t
  | _ => pure t

/-- The loop `while(len >= 4)` of the misaligned path (532-545); returns `h`,
`t`, `data`, `len` (`d` is reset to `0` right after the loop). -/
def MurmurHashAligned2.mixLoop (e : ByteOrder) (m r sl sr : Nat) :
    Nat → List Byte → Nat → Nat → Option (Nat × Nat × List Byte × Nat)
  | len + 4, data, h, t => do
    let d ← load32 e data
    let t := (t >>> sr) ||| u32 (d <<< sl)
    let k := t
    let (h, _) := MIX r h k m
    let t := d
    MurmurHashAligned2.mixLoop e m r sl sr len (data.drop 4) h t
  | len, data, h, t => some (h, t, data, len)

/-- Leftover switch (553-558), label `case 1`: `d |= data[0];`. -/
def MurmurHashAligned2.left.case1 (data : List Byte) (d : Nat) : Option Nat := do
  let b ← data[0]?
  pure (d ||| b.val)

/-- Leftover switch, label `case 2`: `d |= data[1] << 8;`, then `case 1`. -/
def MurmurHashAligned2.left.case2 (data : List Byte) (d : Nat) : Option Nat := do
  let b ← data[1]?
  MurmurHashAligned2.left.case1 data (d ||| (b.val <<< 8))

/-- Leftover switch, label `case 3`: `d |= data[2] << 16;`, then `case 2`. -/
def MurmurHashAligned2.left.case3 (data : List Byte) (d : Nat) : Option Nat := do
  let b ← data[2]?
  MurmurHashAligned2.left.case2 data (d ||| (b.val <<< 16))

/-- The leftover `switch(align)` (553-558). -/
def MurmurHashAligned2.left (align : Nat) (data : List Byte) (d : Nat) : Option Nat :=
  match align with
  | 3 => MurmurHashAligned2.left.case3 data d
  | 2 => MurmurHashAligned2.left.case2 data d
  | 1 => MurmurHashAligned2.left.case1 data d
  | _ => pure d

/-- Short-tail switch (579-586), label `case 0`:
`h ^= (t >> sr) | (d << sl); h *= m;`. -/
def MurmurHashAligned2.short.case0 (m sl sr t : Nat) (d h : Nat) : Nat :=
  let h := h ^^^ ((t >>> sr) ||| u32 (d <<< sl))
  u32 (h * m)

/-- Short-tail switch, label `case 1`: `d |= data[0];`, then `case 0`. -/
def MurmurHashAligned2.short.case1 (m sl sr t : Nat) (data : List Byte) (d h : Nat) :
    Option Nat := do
  let b ← data[0]?
  pure (MurmurHashAligned2.short.case0 m sl sr t (d ||| b.val) h)

/-- Short-tail switch, label `case 2`: `d |= data[1] << 8;`, then `case 1`. -/
def MurmurHashAligned2.short.case2 (m sl sr t : Nat) (data : List Byte) (d h : Nat) :
    Option Nat := do
  let b ← data[1]?
  MurmurHashAligned2.short.case1 m sl sr t data (d ||| (b.val <<< 8)) h

/-- Short-tail switch, label `case 3`: `d |= data[2] << 16;`, then `case 2`. -/
def MurmurHashAligned2.short.case3 (m sl sr t : Nat) (data : List Byte) (d h : Nat) :
    Option Nat := do
  let b ← data[2]?
  MurmurHashAligned2.short.case2 m sl sr t data (d ||| (b.val <<< 16)) h

/-- The short-tail `switch(len)` (579-586) of the branch `len < align`. -/
def MurmurHashAligned2.short (m sl sr t : Nat) (len : Nat) (data : List Byte) (d h : Nat) :
    Option Nat :=
  match len with
  | 3 => MurmurHashAligned2.short.case3 m sl sr t data d h
  | 2 => MurmurHashAligned2.short.case2 m sl sr t data d h
  | 1 => MurmurHashAligned2.short.case1 m sl sr t data d h
  | 0 => pure (MurmurHashAligned2.short.case0 m sl sr t d h)
  | _ => pure h

/-- Lines 549-587 of the misaligned path, "handle leftover data in temp
registers": `d = 0;`, then `if(len >= align)` one more block made of `t` and
`align` further bytes followed by the tail switch, `else` the short-tail switch. -/
def MurmurHashAligned2.leftover (m r sl sr align : Nat) (len : Nat) (data : List Byte)
    (h t : Nat) : Option Nat :=
  let d := 0
  if len ≥ align then do
    let d ← MurmurHashAligned2.left align data d
    let k := (t >>> sr) ||| u32 (d <<< sl)
    let (h, _) := MIX r h k m
    let data := data.drop align
    let len := len - align
    tailSwitch m len data h
  else
    MurmurHashAligned2.short m sl sr t len data d h

/-- The loop `while(len >= 4)` of the aligned path (597-605). -/
def MurmurHashAligned2.wordLoop (e : ByteOrder) (m r : Nat) :
    Nat → List Byte → Nat → Option (Nat × List Byte × Nat)
  | len + 4, data, h => do
    let k ← load32 e data
    let (h, _) := MIX r h k m
    MurmurHashAligned2.wordLoop e m r len (data.drop 4) h
  | len, data, h => some (h, data, len)

/-- Function `uint32_t MurmurHashAligned2 ( const void * key, int len, uint32_t seed )`.
`addr` is the address held by `key`, from which `align = (uint64_t)data & 3`. -/
def MurmurHashAligned2 (e : ByteOrder) (addr : Nat) (key : List Byte) (len : Nat)
    (seed : Nat) : Option Nat := do
  let m := 0x5bd1e995
  let r := 24
  let data := key
  let h := seed ^^^ u32 len
  let align := addr &&& 3
  if align ≠ 0 ∧ len ≥ 4 then
    let t := 0
    let t ← MurmurHashAligned2.pre align data t
    let t := u32 (t <<< (8 * align))
    let data := data.drop (4 - align)
    let len := len - (4 - align)
    let sl := 8 * (4 - align)
    let sr := 8 * align
    let (h, t, data, len) ← MurmurHashAligned2.mixLoop e m r sl sr len data h t
    let h ← MurmurHashAligned2.leftover m r sl sr align len data h t
    let h := h ^^^ (h >>> 13)
    let h := u32 (h * m)
    let h := h ^^^ (h >>> 15)
    pure h
  else
    let (h, data, len) ← MurmurHashAligned2.wordLoop e m r len data h
    let h ← tailSwitch m len data h
    let h := h ^^^ (h >>> 13)
    let h := u32 (h * m)
    let h := h ^^^ (h >>> 15)
    pure h

/-! ## Reference-level notions used to state and prove the properties -/

/-- Little-endian value of a byte string. -/
def leVal : List Byte → Nat
  | [] => 0
  | b :: bs => b.val + 256 * leVal bs

/-- The 32-bit word a host of byte order `e` loads from four bytes. -/
def hostWord32 (e : ByteOrder) (b0 b1 b2 b3 : Byte) : Nat :=
  match e with
  | .little => b0.val + 256 * b1.val + 65536 * b2.val + 16777216 * b3.val
  | .big => b3.val + 256 * b2.val + 65536 * b1.val + 16777216 * b0.val

/-- The words of the complete 4-byte blocks of a byte string, in order. -/
def words32 (e : ByteOrder) : List Byte → List Nat
  | b0 :: b1 :: b2 :: b3 :: rest => hostWord32 e b0 b1 b2 b3 :: words32 e rest
  | _ => []

/-- The tail bytes left after the complete 4-byte blocks. -/
def rest32 : List Byte → List Byte
  | _ :: _ :: _ :: _ :: rest => rest32 rest
  | l => l

/-- The accumulator after one block: `h *= m; h ^= k` with the scrambled `k`. -/
def mix32 (m r : Nat) (h k : Nat) : Nat := (mmix m r h k).1

/-- The final avalanche `h ^= h >> 13; h *= m; h ^= h >> 15`. -/
def avalanche32 (m : Nat) (h : Nat) : Nat :=
  let h := h ^^^ (h >>> 13)
  let h := u32 (h * m)
  h ^^^ (h >>> 15)

/-- Direct fold of the tail bytes: nothing for an empty tail, otherwise
`h := (h xor tail) * m`. -/
def tailFold32 (m : Nat) (h : Nat) (tail : List Byte) : Nat :=
  match tail with
  | [] => h
  | _ :: _ => u32 ((h ^^^ leVal tail) * m)

/-- Closed form of `MurmurHash2` on a host of byte order `e`. -/
def MurmurHash2.closed (e : ByteOrder) (key : List Byte) (seed : Nat) : Nat :=
  avalanche32 0x5bd1e995
    (tailFold32 0x5bd1e995
      ((words32 e key).foldl (mix32 0x5bd1e995 24) (seed ^^^ u32 key.length))
      (rest32 key))

/-- Closed form of `MurmurHash2A` on a host of byte order `e`. -/
def MurmurHash2A.closed (e : ByteOrder) (key : List Byte) (seed : Nat) : Nat :=
  avalanche32 0x5bd1e995
    (mix32 0x5bd1e995 24
      (mix32 0x5bd1e995 24
        ((words32 e key).foldl (mix32 0x5bd1e995 24) seed)
        (leVal (rest32 key)))
      (u32 key.length))

/-- Absorbing a byte string block by block from the accumulator `h`: the
accumulator after the complete 4-byte blocks, and the tail bytes left over. -/
def blockFold (m r : Nat) (e : ByteOrder) (h : Nat) (l : List Byte) : Nat × List Byte :=
  ((words32 e l).foldl (mix32 m r) h, rest32 l)

/-- The 64-bit word a host of byte order `e` loads from eight bytes. -/
def hostWord64 (e : ByteOrder) (b0 b1 b2 b3 b4 b5 b6 b7 : Byte) : Nat :=
  match e with
  | .little =>
    b0.val + 256 * (b1.val + 256 * (b2.val + 256 * (b3.val + 256 * (b4.val
      + 256 * (b5.val + 256 * (b6.val + 256 * b7.val))))))
  | .big =>
    b7.val + 256 * (b6.val + 256 * (b5.val + 256 * (b4.val + 256 * (b3.val
      + 256 * (b2.val + 256 * (b1.val + 256 * b0.val))))))

/-- The words of the complete 8-byte blocks of a byte string, in order. -/
def words64 (e : ByteOrder) : List Byte → List Nat
  | b0 :: b1 :: b2 :: b3 :: b4 :: b5 :: b6 :: b7 :: rest =>
    hostWord64 e b0 b1 b2 b3 b4 b5 b6 b7 :: words64 e rest
  | _ => []

/-- The tail bytes left after the complete 8-byte blocks. -/
def rest64 : List Byte → List Byte
  | _ :: _ :: _ :: _ :: _ :: _ :: _ :: _ :: rest => rest64 rest
  | l => l

/-- The 64-bit accumulator after one block:
`k *= m; k ^= k >> r; k *= m; h ^= k; h *= m;`. -/
def mix64 (m r : Nat) (h k : Nat) : Nat :=
  let k := u64 (k * m)
  let k := k ^^^ (k >>> r)
  let k := u64 (k * m)
  let h := h ^^^ k
  u64 (h * m)

/-- The final avalanche of the 64-bit variants: `h ^= h >> r; h *= m; h ^= h >> r`. -/
def avalanche64 (m r : Nat) (h : Nat) : Nat :=
  let h := h ^^^ (h >>> r)
  let h := u64 (h * m)
  h ^^^ (h >>> r)

/-- The two accumulators of `MurmurHash64B` after the complete 8-byte groups:
the first word of a group goes into `h1`, the second into `h2`. -/
def fold64B (m r : Nat) (e : ByteOrder) : List Byte → Nat → Nat → Nat × Nat
  | b0 :: b1 :: b2 :: b3 :: b4 :: b5 :: b6 :: b7 :: rest, h1, h2 =>
    fold64B m r e rest (mix32 m r h1 (hostWord32 e b0 b1 b2 b3))
      (mix32 m r h2 (hostWord32 e b4 b5 b6 b7))
  | _, h1, h2 => (h1, h2)

/-- The closing cross-mix of `MurmurHash64B` and the concatenation
`(h1 << 32) | h2`. -/
def crossMix64B (m : Nat) (h1 h2 : Nat) : Nat :=
  let h1 := h1 ^^^ (h2 >>> 18)
  let h1 := u32 (h1 * m)
  let h2 := h2 ^^^ (h1 >>> 22)
  let h2 := u32 (h2 * m)
  let h1 := h1 ^^^ (h2 >>> 17)
  let h1 := u32 (h1 * m)
  let h2 := h2 ^^^ (h1 >>> 19)
  let h2 := u32 (h2 * m)
  u64 (h1 <<< 32) ||| h2

/-- Closed form of `MurmurHash64B` on a host of byte order `e`. -/
def MurmurHash64B.closed (e : ByteOrder) (key : List Byte) (seed : Nat) : Nat :=
  let g := fold64B 0x5bd1e995 24 e key (u32 seed ^^^ u32 key.length) (u32 (seed >>> 32))
  crossMix64B 0x5bd1e995
    ((words32 e (rest64 key)).foldl (mix32 0x5bd1e995 24) g.1)
    (tailFold32 0x5bd1e995 g.2 (rest32 (rest64 key)))

/-- The object of the incremental hasher that has absorbed the blocks into
`h`, holds the pending bytes `pend` and has counted `size` bytes. -/
def CMurmurHash2A.holding (h : Nat) (pend : List Byte) (size : Nat) : CMurmurHash2A :=
  { m_hash := h, m_tail := leVal pend, m_count := pend.length, m_size := size }

/-! ## Definitions that follow the words of the specification -/

/-- Spec wording of the scrambled key of the mixing primitive at 64-bit width:
`k *= m; k ^= (k >> r); k *= m`. -/
def Spec.scramble64 (m r : Nat) (k : Nat) : Nat :=
  ((k * m % 2 ^ 64) ^^^ ((k * m % 2 ^ 64) >>> r)) * m % 2 ^ 64

/-- Spec wording of the mixing primitive at 64-bit width, section 4.1:
`k *= m; k ^= (k >> r); k *= m; h *= m; h ^= k`, that is
`(h*m mod 2^64) xor k'`. -/
def Spec.mix64 (m r : Nat) (h k : Nat) : Nat :=
  (h * m % 2 ^ 64) ^^^ Spec.scramble64 m r k

/-- Spec wording of the scrambled key of the 32-bit mix:
`k' = ((k*m) xor ((k*m) >> r)) * m`, all mod `2^32`, `m = 0x5bd1e995`, `r = 24`. -/
def Spec.scramble32 (k : Nat) : Nat :=
  ((k * 0x5bd1e995 % 2 ^ 32) ^^^ ((k * 0x5bd1e995 % 2 ^ 32) >>> 24)) * 0x5bd1e995 % 2 ^ 32

/-- Spec wording of the 32-bit mix: `mix(h,k) = (h*m) xor k'`. -/
def Spec.mix32 (h k : Nat) : Nat :=
  (h * 0x5bd1e995 % 2 ^ 32) ^^^ Spec.scramble32 k

/-- Spec wording of the avalanche: `h ^= h>>13; h *= m; h ^= h>>15`. -/
def Spec.avalanche32 (h : Nat) : Nat :=
  let h := h ^^^ (h >>> 13)
  let h := h * 0x5bd1e995 % 2 ^ 32
  h ^^^ (h >>> 15)

/-- The `i`-th 4-byte block of a byte string, as the word read in byte order `e`. -/
def Spec.block32 (e : ByteOrder) (key : List Byte) (i : Nat) : Nat :=
  hostWord32 e (key.getD (4 * i) 0) (key.getD (4 * i + 1) 0) (key.getD (4 * i + 2) 0)
    (key.getD (4 * i + 3) 0)

/-- The left fold of the 32-bit mix over the first `q` blocks, from `h`. -/
def Spec.foldBlocks32 (e : ByteOrder) (key : List Byte) (q : Nat) (h : Nat) : Nat :=
  (List.range q).foldl (fun h i => Spec.mix32 h (Spec.block32 e key i)) h

/-- The composition `b0 | b1<<8 | b2<<16 | ...` of a byte string. -/
def Spec.orBytes : List Byte → Nat
  | [] => 0
  | b :: bs => b.val ||| (Spec.orBytes bs <<< 8)

/-- The reference definition of `MurmurHash2A` in the words of the
specification: with `n = 4q + t`, `avalanche(mix(mix(H, T), n))` where `H` folds
the `q` little-endian blocks from `seed` and `T` composes the `t` tail bytes. -/
def MurmurHash2A_spec (key : List Byte) (seed : Nat) : Nat :=
  let n := key.length
  let q := n / 4
  let H := Spec.foldBlocks32 .little key q seed
  let T := Spec.orBytes (key.drop (4 * q))
  Spec.avalanche32 (Spec.mix32 (Spec.mix32 H T) n)

/-- The reference definition of `MurmurHash2` in the words of the
specification: with `n = 4q + t`, the accumulator starts at `seed xor n`, the
`q` little-endian blocks are folded with the mix, a non-empty tail is folded by
`h := (h xor (b0 | b1<<8 | b2<<16)) * m`, and the avalanche follows. -/
def MurmurHash2_spec (key : List Byte) (seed : Nat) : Nat :=
  let n := key.length
  let q := n / 4
  let t := n - 4 * q
  let h := Spec.foldBlocks32 .little key q (seed ^^^ n)
  let h := if t = 0 then h else (h ^^^ Spec.orBytes (key.drop (4 * q))) * 0x5bd1e995 % 2 ^ 32
  Spec.avalanche32 h

/-- Spec wording of the cross-mix of `MurmurHash64B`:
`h1 ^= h2>>18; h1 *= m; h2 ^= h1>>22; h2 *= m; h1 ^= h2>>17; h1 *= m;
h2 ^= h1>>19; h2 *= m`; the result is the pair `(h1, h2)`. -/
def Spec.crossMix64B (h1 h2 : Nat) : Nat × Nat :=
  let h1 := h1 ^^^ (h2 >>> 18)
  let h1 := h1 * 0x5bd1e995 % 2 ^ 32
  let h2 := h2 ^^^ (h1 >>> 22)
  let h2 := h2 * 0x5bd1e995 % 2 ^ 32
  let h1 := h1 ^^^ (h2 >>> 17)
  let h1 := h1 * 0x5bd1e995 % 2 ^ 32
  let h2 := h2 ^^^ (h1 >>> 19)
  let h2 := h2 * 0x5bd1e995 % 2 ^ 32
  (h1, h2)

/-- The reference structure of `MurmurHash64B` in the words of the
specification; the result is the pair of the final accumulators `(h1, h2)`.
The 4-byte words are those the host of byte order `e` reads. -/
def MurmurHash64B_spec (e : ByteOrder) (key : List Byte) (seed : Nat) : Nat × Nat :=
  let n := key.length
  let h1 := (seed % 2 ^ 32) ^^^ n
  let h2 := seed >>> 32
  let g := n / 8
  let acc := (List.range g).foldl
    (fun (acc : Nat × Nat) i =>
      (Spec.mix32 acc.1 (Spec.block32 e key (2 * i)),
        Spec.mix32 acc.2 (Spec.block32 e key (2 * i + 1))))
    (h1, h2)
  let h1 := acc.1
  let h2 := acc.2
  let remaining := n - 8 * g
  let h1 := if remaining ≥ 4 then Spec.mix32 h1 (Spec.block32 e key (2 * g)) else h1
  let tail := key.drop (8 * g + (if remaining ≥ 4 then 4 else 0))
  let h2 := if tail.length = 0 then h2 else (h2 ^^^ Spec.orBytes tail) * 0x5bd1e995 % 2 ^ 32
  Spec.crossMix64B h1 h2

/-- The state invariant of the incremental hasher in the words of the
specification, for the seed given to `Begin` and the bytes `B` added so far. -/
def CMurmurHash2A.Invariant (seed : Nat) (B : List Byte) (st : CMurmurHash2A) : Prop :=
  st.m_count ≤ 3
    ∧ st.m_count = B.length % 4
    ∧ st.m_size = B.length % 2 ^ 32
    ∧ st.m_tail = Spec.orBytes (B.drop (B.length - st.m_count))
    ∧ st.m_tail < 2 ^ (8 * st.m_count)
    ∧ (st.m_count = 0 → st.m_tail = 0)
    ∧ st.m_hash = Spec.foldBlocks32 .little B (B.length / 4) seed

instance CMurmurHash2A.decidableInvariant (seed : Nat) (B : List Byte) (st : CMurmurHash2A) :
    Decidable (CMurmurHash2A.Invariant seed B st) := by
  unfold CMurmurHash2A.Invariant
  infer_instance

/-- The object of the incremental hasher after `Begin(seed)` and the bytes `B`. -/
def CMurmurHash2A.absorbed (seed : Nat) (B : List Byte) : CMurmurHash2A :=
  CMurmurHash2A.holding
    (blockFold CMurmurHash2A.m CMurmurHash2A.r .little seed B).1
    (blockFold CMurmurHash2A.m CMurmurHash2A.r .little seed B).2
    (u32 B.length)

/-- Byte `i` of a word (byte `0` is the least significant). -/
def byteAt (x i : Nat) : Nat := (x >>> (8 * i)) % 256

/-! ## The preprocessor's selection of `BYTESWAP64` (lines 42-82) -/

/-- The predefined macros that lines 43-64 test.
`byteOrder` is the order named by `__BYTE_ORDER__` when `__BYTE_ORDER__` and
`__ORDER_LITTLE_ENDIAN__` are both predefined, and `none` when they are not;
`littleArch` says that one of `__i386`, `__x86_64`, `__alpha`, `__vax` is
defined; `builtinBswap64` says that `__GNUC__` or `__clang__` is defined,
`__has_builtin` is defined and `__has_builtin(__builtin_bswap64)` holds. -/
structure Predefined where
  byteOrder : Option ByteOrder
  littleArch : Bool
  builtinBswap64 : Bool
deriving DecidableEq, Repr

/-- The compiler builtin `__builtin_bswap64` (not part of the repository): the
word with the eight bytes of its argument in reverse order. -/
def bswap64_builtin (x : Nat) : Nat :=
  byteAt x 0 * 2 ^ 56 + (byteAt x 1 * 2 ^ 48 + (byteAt x 2 * 2 ^ 40
    + (byteAt x 3 * 2 ^ 32 + (byteAt x 4 * 2 ^ 24 + (byteAt x 5 * 2 ^ 16
    + (byteAt x 6 * 2 ^ 8 + byteAt x 7))))))

/-- The definition of `BYTESWAP64` that lines 43-82 select: the identity in the
branch `__BYTE_ORDER__ == __ORDER_LITTLE_ENDIAN__` and in the architecture
branch, the builtin in the GNU/clang branch, and in every other case (also when
the first `#if` is entered with another byte order) the last-resort macro of
the closing `#ifndef`. -/
def BYTESWAP64.selected (p : Predefined) (x : Nat) : Nat :=
  match p.byteOrder with
  | some .little => x
  | some .big => BYTESWAP64_lastResort x
  | none =>
    if p.littleArch then x
    else if p.builtinBswap64 then bswap64_builtin x
    else BYTESWAP64_lastResort x

/-- The function `MurmurHash64A` on a host of byte order `e` compiled under the
predefined macros `p`. -/
def MurmurHash64A.on (p : Predefined) (e : ByteOrder) (key : List Byte) (len : Nat)
    (seed : Nat) : Option Nat :=
  MurmurHash64A.compiled (BYTESWAP64.selected p) e key len seed

/-! ## Bit-level facts -/

theorem u32_of_lt {x : Nat} (h : x < 2 ^ 32) : u32 x = x := Nat.mod_eq_of_lt h

theorem u32_lt (x : Nat) : u32 x < 2 ^ 32 := Nat.mod_lt _ (by decide)

theorem u32_u32_add (a b : Nat) : u32 (u32 a + b) = u32 (a + b) := by
  simp [u32, Nat.add_mod]

theorem testBit_eq_false_of_lt {a i j : Nat} (h : a < 2 ^ i) (hij : i ≤ j) :
    a.testBit j = false :=
  Nat.testBit_lt_two_pow (Nat.lt_of_lt_of_le h (Nat.pow_le_pow_right (by decide) hij))

theorem shl_or_eq_add (c a i : Nat) (h : a < 2 ^ i) : (c <<< i) ||| a = c * 2 ^ i + a := by
  rw [Nat.shiftLeft_eq, Nat.mul_comm c, Nat.mul_add_lt_is_or h]

theorem shl_xor_eq_or (c a i : Nat) (h : a < 2 ^ i) : (c <<< i) ^^^ a = (c <<< i) ||| a := by
  apply Nat.eq_of_testBit_eq
  intro j
  rw [Nat.testBit_xor, Nat.testBit_or, Nat.testBit_shiftLeft]
  by_cases hj : i ≤ j
  · rw [testBit_eq_false_of_lt h hj]; simp
  · simp [hj]

theorem shl_xor_eq_add (c a i : Nat) (h : a < 2 ^ i) : (c <<< i) ^^^ a = c * 2 ^ i + a := by
  rw [shl_xor_eq_or c a i h, shl_or_eq_add c a i h]

/-- Two bytes xored into a word one after the other: the word xor their
little-endian value. -/
theorem xor_bytes2 (h : Nat) (b0 b1 : Byte) :
    (h ^^^ (b1.val <<< 8)) ^^^ b0.val = h ^^^ leVal [b0, b1] := by
  have h0 := b0.isLt
  rw [Nat.xor_assoc, shl_xor_eq_add _ _ 8 (by omega)]
  simp only [leVal]
  congr 1
  omega

/-- Three bytes xored into a word one after the other. -/
theorem xor_bytes3 (h : Nat) (b0 b1 b2 : Byte) :
    ((h ^^^ (b2.val <<< 16)) ^^^ (b1.val <<< 8)) ^^^ b0.val = h ^^^ leVal [b0, b1, b2] := by
  have h0 := b0.isLt
  have h1 := b1.isLt
  rw [Nat.xor_assoc, Nat.xor_assoc, shl_xor_eq_add _ _ 8 (by omega),
    shl_xor_eq_add _ _ 16 (by omega)]
  simp only [leVal]
  congr 1
  omega

/-- The shift-or composition of `MurmurHashNeutral2` is the little-endian word. -/
theorem or_bytes4 (b0 b1 b2 b3 : Byte) :
    ((b0.val ||| (b1.val <<< 8)) ||| (b2.val <<< 16)) ||| u32 (b3.val <<< 24)
      = hostWord32 .little b0 b1 b2 b3 := by
  have h0 := b0.isLt
  have h1 := b1.isLt
  have h2 := b2.isLt
  have h3 := b3.isLt
  have e3 : u32 (b3.val <<< 24) = b3.val <<< 24 := by
    apply u32_of_lt
    rw [Nat.shiftLeft_eq]
    omega
  rw [e3, Nat.or_comm b0.val, shl_or_eq_add _ _ 8 (by omega),
    Nat.or_comm _ (b2.val <<< 16), shl_or_eq_add _ _ 16 (by omega),
    Nat.or_comm _ (b3.val <<< 24), shl_or_eq_add _ _ 24 (by omega)]
  simp only [hostWord32]
  omega

theorem leVal_lt (l : List Byte) : leVal l < 256 ^ l.length := by
  induction l with
  | nil => simp [leVal]
  | cons b bs ih =>
    have hb := b.isLt
    simp only [leVal, List.length_cons, Nat.pow_succ]
    omega

/-! ## Lists in steps of four -/

theorem list_induction4 {P : List Byte → Prop}
    (short : ∀ l : List Byte, l.length < 4 → P l)
    (step : ∀ (b0 b1 b2 b3 : Byte) (rest : List Byte), P rest →
      P (b0 :: b1 :: b2 :: b3 :: rest)) :
    ∀ l, P l
  | [] => short _ (by simp)
  | [_] => short _ (by simp)
  | [_, _] => short _ (by simp)
  | [_, _, _] => short _ (by simp)
  | b0 :: b1 :: b2 :: b3 :: rest => step b0 b1 b2 b3 rest (list_induction4 short step rest)

theorem words32_short (e : ByteOrder) {l : List Byte} (h : l.length < 4) : words32 e l = [] := by
  match l, h with
  | [], _ => rfl
  | [_], _ => rfl
  | [_, _], _ => rfl
  | [_, _, _], _ => rfl

theorem rest32_short {l : List Byte} (h : l.length < 4) : rest32 l = l := by
  match l, h with
  | [], _ => rfl
  | [_], _ => rfl
  | [_, _], _ => rfl
  | [_, _, _], _ => rfl

theorem rest32_length_lt (l : List Byte) : (rest32 l).length < 4 := by
  induction l using list_induction4 with
  | short l h => rw [rest32_short h]; exact h
  | step b0 b1 b2 b3 rest ih => simpa [rest32] using ih

theorem load32_cons4 (e : ByteOrder) (b0 b1 b2 b3 : Byte) (rest : List Byte) :
    load32 e (b0 :: b1 :: b2 :: b3 :: rest) = some (hostWord32 e b0 b1 b2 b3) := by
  cases e <;> simp [load32, hostWord32]

/-! ## The block loops of the 32-bit variants -/

theorem MurmurHash2_loop_short (e : ByteOrder) (m r : Nat) {len : Nat} (hlen : len < 4)
    (data : List Byte) (h : Nat) :
    MurmurHash2.loop e m r len data h = some (h, data, len) := by
  match len, hlen with
  | 0, _ => rfl
  | 1, _ => rfl
  | 2, _ => rfl
  | 3, _ => rfl

theorem MurmurHash2_loop_eq (e : ByteOrder) (m r : Nat) (data : List Byte) :
    ∀ h, MurmurHash2.loop e m r data.length data h
      = some ((words32 e data).foldl (mix32 m r) h, rest32 data, (rest32 data).length) := by
  induction data using list_induction4 with
  | short l hl =>
    intro h
    rw [MurmurHash2_loop_short e m r hl, words32_short e hl, rest32_short hl]
    rfl
  | step b0 b1 b2 b3 rest ih =>
    intro h
    simp only [List.length_cons, MurmurHash2.loop, load32_cons4, words32, rest32, List.foldl_cons]
    simpa [mix32, mmix] using ih _

theorem MurmurHash2A_loop_short (e : ByteOrder) (m r : Nat) {len : Nat} (hlen : len < 4)
    (data : List Byte) (h : Nat) :
    MurmurHash2A.loop e m r len data h = some (h, data, len) := by
  match len, hlen with
  | 0, _ => rfl
  | 1, _ => rfl
  | 2, _ => rfl
  | 3, _ => rfl

theorem MurmurHash2A_loop_eq (e : ByteOrder) (m r : Nat) (data : List Byte) :
    ∀ h, MurmurHash2A.loop e m r data.length data h
      = some ((words32 e data).foldl (mix32 m r) h, rest32 data, (rest32 data).length) := by
  induction data using list_induction4 with
  | short l hl =>
    intro h
    rw [MurmurHash2A_loop_short e m r hl, words32_short e hl, rest32_short hl]
    rfl
  | step b0 b1 b2 b3 rest ih =>
    intro h
    simp only [List.length_cons, MurmurHash2A.loop, load32_cons4, words32, rest32,
      List.foldl_cons]
    simpa [mix32] using ih _

theorem MurmurHashNeutral2_loop_short (m r : Nat) {len : Nat} (hlen : len < 4)
    (data : List Byte) (h : Nat) :
    MurmurHashNeutral2.loop m r len data h = some (h, data, len) := by
  match len, hlen with
  | 0, _ => rfl
  | 1, _ => rfl
  | 2, _ => rfl
  | 3, _ => rfl

theorem MurmurHashNeutral2_loop_eq (m r : Nat) (data : List Byte) :
    ∀ h, MurmurHashNeutral2.loop m r data.length data h
      = some ((words32 .little data).foldl (mix32 m r) h, rest32 data,
          (rest32 data).length) := by
  induction data using list_induction4 with
  | short l hl =>
    intro h
    rw [MurmurHashNeutral2_loop_short m r hl, words32_short _ hl, rest32_short hl]
    rfl
  | step b0 b1 b2 b3 rest ih =>
    intro h
    simp only [List.length_cons, MurmurHashNeutral2.loop, words32, rest32, List.foldl_cons]
    simpa [mix32, mmix, or_bytes4] using ih _

theorem MurmurHashAligned2_wordLoop_short (e : ByteOrder) (m r : Nat) {len : Nat}
    (hlen : len < 4) (data : List Byte) (h : Nat) :
    MurmurHashAligned2.wordLoop e m r len data h = some (h, data, len) := by
  match len, hlen with
  | 0, _ => rfl
  | 1, _ => rfl
  | 2, _ => rfl
  | 3, _ => rfl

theorem MurmurHashAligned2_wordLoop_eq (e : ByteOrder) (m r : Nat) (data : List Byte) :
    ∀ h, MurmurHashAligned2.wordLoop e m r data.length data h
      = some ((words32 e data).foldl (mix32 m r) h, rest32 data, (rest32 data).length) := by
  induction data using list_induction4 with
  | short l hl =>
    intro h
    rw [MurmurHashAligned2_wordLoop_short e m r hl, words32_short e hl, rest32_short hl]
    rfl
  | step b0 b1 b2 b3 rest ih =>
    intro h
    simp only [List.length_cons, MurmurHashAligned2.wordLoop, load32_cons4, words32, rest32,
      List.foldl_cons]
    simpa [mix32, mmix, MIX] using ih _

/-! ## The tail switches of the 32-bit variants -/

theorem tailSwitch_eq (m : Nat) (l : List Byte) (hl : l.length < 4) (h : Nat) :
    tailSwitch m l.length l h = some (tailFold32 m h l) := by
  match l, hl with
  | [], _ => rfl
  | [b0], _ => simp [tailSwitch, tailSwitch.case1, tailFold32, leVal]
  | [b0, b1], _ =>
    simp only [tailSwitch, tailSwitch.case2, tailSwitch.case1, tailFold32, List.length_cons,
      List.length_nil]
    simp [xor_bytes2]
  | [b0, b1, b2], _ =>
    simp only [tailSwitch, tailSwitch.case3, tailSwitch.case2, tailSwitch.case1, tailFold32,
      List.length_cons, List.length_nil]
    simp [xor_bytes3]

theorem MurmurHash2A_tail_eq (l : List Byte) (hl : l.length < 4) :
    MurmurHash2A.tail l.length l 0 = some (leVal l) := by
  match l, hl with
  | [], _ => rfl
  | [b0], _ => simp [MurmurHash2A.tail, MurmurHash2A.case1, leVal]
  | [b0, b1], _ =>
    simp only [MurmurHash2A.tail, MurmurHash2A.case2, MurmurHash2A.case1, List.length_cons,
      List.length_nil]
    simpa using xor_bytes2 0 b0 b1
  | [b0, b1, b2], _ =>
    simp only [MurmurHash2A.tail, MurmurHash2A.case3, MurmurHash2A.case2, MurmurHash2A.case1,
      List.length_cons, List.length_nil]
    simpa using xor_bytes3 0 b0 b1 b2

/-! ## Closed forms of the one-shot 32-bit variants -/

theorem MurmurHash2_eq_closed (e : ByteOrder) (key : List Byte) (seed : Nat) :
    MurmurHash2 e key key.length seed = some (MurmurHash2.closed e key seed) := by
  simp [MurmurHash2, MurmurHash2_loop_eq, tailSwitch_eq _ _ (rest32_length_lt key),
    MurmurHash2.closed, avalanche32]

theorem MurmurHashNeutral2_eq_closed (e : ByteOrder) (key : List Byte) (seed : Nat) :
    MurmurHashNeutral2 e key key.length seed = some (MurmurHash2.closed .little key seed) := by
  simp [MurmurHashNeutral2, MurmurHashNeutral2_loop_eq, tailSwitch_eq _ _ (rest32_length_lt key),
    MurmurHash2.closed, avalanche32]

theorem MurmurHash2A_eq_closed (e : ByteOrder) (key : List Byte) (seed : Nat) :
    MurmurHash2A e key key.length seed = some (MurmurHash2A.closed e key seed) := by
  simp [MurmurHash2A, MurmurHash2A_loop_eq, MurmurHash2A_tail_eq _ (rest32_length_lt key),
    MurmurHash2A.closed, avalanche32, mix32]

/-! ## The incremental hasher -/

theorem words32_append (e : ByteOrder) (xs ys : List Byte) :
    words32 e (xs ++ ys) = words32 e xs ++ words32 e (rest32 xs ++ ys) := by
  induction xs using list_induction4 with
  | short l hl => rw [words32_short e hl, rest32_short hl]; rfl
  | step b0 b1 b2 b3 rest ih => simp [words32, rest32, ih]

theorem rest32_append (xs ys : List Byte) :
    rest32 (xs ++ ys) = rest32 (rest32 xs ++ ys) := by
  induction xs using list_induction4 with
  | short l hl => rw [rest32_short hl]
  | step b0 b1 b2 b3 rest ih => simp [rest32, ih]

theorem blockFold_short (m r : Nat) (e : ByteOrder) (h : Nat) {l : List Byte}
    (hl : l.length < 4) : blockFold m r e h l = (h, l) := by
  simp [blockFold, words32_short e hl, rest32_short hl]

/-- Absorbing `xs ++ ys` is absorbing `xs` and then, from the state reached,
the tail of `xs` followed by `ys`. -/
theorem blockFold_append (m r : Nat) (e : ByteOrder) (h : Nat) (xs ys : List Byte) :
    blockFold m r e h (xs ++ ys)
      = blockFold m r e (blockFold m r e h xs).1 ((blockFold m r e h xs).2 ++ ys) := by
  simp only [blockFold]
  rw [words32_append, List.foldl_append, ← rest32_append]

theorem blockFold_cons4 (m r : Nat) (e : ByteOrder) (h : Nat) (b0 b1 b2 b3 : Byte)
    (rest : List Byte) :
    blockFold m r e h (b0 :: b1 :: b2 :: b3 :: rest)
      = blockFold m r e (mix32 m r h (hostWord32 e b0 b1 b2 b3)) rest := by
  simp [blockFold, words32, rest32]

/-- Storing one more byte in the pending word. -/
theorem tail_push (pend : List Byte) (hp : pend.length < 4) (b : Byte) :
    leVal pend ||| u32 (b.val <<< (pend.length * 8)) = leVal (pend ++ [b]) := by
  have hb := b.isLt
  match pend, hp with
  | [], _ => simp [leVal, u32]; omega
  | [p0], _ =>
    have h0 := p0.isLt
    have e1 : u32 (b.val <<< 8) = b.val <<< 8 := by
      apply u32_of_lt; rw [Nat.shiftLeft_eq]; omega
    simp only [List.length_cons, List.length_nil, leVal, List.cons_append, List.nil_append]
    rw [show (0 + 1) * 8 = 8 by rfl, e1, Nat.or_comm, shl_or_eq_add _ _ 8 (by omega)]
    omega
  | [p0, p1], _ =>
    have h0 := p0.isLt
    have h1 := p1.isLt
    have e1 : u32 (b.val <<< 16) = b.val <<< 16 := by
      apply u32_of_lt; rw [Nat.shiftLeft_eq]; omega
    simp only [List.length_cons, List.length_nil, leVal, List.cons_append, List.nil_append]
    rw [show (0 + 1 + 1) * 8 = 16 by rfl, e1, Nat.or_comm, shl_or_eq_add _ _ 16 (by omega)]
    omega
  | [p0, p1, p2], _ =>
    have h0 := p0.isLt
    have h1 := p1.isLt
    have h2 := p2.isLt
    have e1 : u32 (b.val <<< 24) = b.val <<< 24 := by
      apply u32_of_lt; rw [Nat.shiftLeft_eq]; omega
    simp only [List.length_cons, List.length_nil, leVal, List.cons_append, List.nil_append]
    rw [show (0 + 1 + 1 + 1) * 8 = 24 by rfl, e1, Nat.or_comm, shl_or_eq_add _ _ 24 (by omega)]
    omega

theorem leVal_four (b0 b1 b2 b3 : Byte) :
    leVal [b0, b1, b2, b3] = hostWord32 .little b0 b1 b2 b3 := by
  simp only [leVal, hostWord32]
  omega

/-- One iteration of the loop of `MixTail` on an object with pending bytes. -/
theorem CMurmurHash2A_MixTail_cons (h : Nat) (pend : List Byte) (sz : Nat) (b : Byte)
    (rest : List Byte) (hp : pend.length < 4)
    (hc : rest.length + 1 < 4 ∨ pend.length ≠ 0) :
    CMurmurHash2A.MixTail (rest.length + 1) (CMurmurHash2A.holding h pend sz) (b :: rest)
      = if pend.length + 1 = 4 then
          CMurmurHash2A.MixTail rest.length
            (CMurmurHash2A.holding
              (mix32 CMurmurHash2A.m CMurmurHash2A.r h (leVal (pend ++ [b]))) [] sz) rest
        else
          CMurmurHash2A.MixTail rest.length (CMurmurHash2A.holding h (pend ++ [b]) sz) rest := by
  have hu : u32 (pend.length + 1) = pend.length + 1 := u32_of_lt (by omega)
  rw [CMurmurHash2A.MixTail]
  simp only [CMurmurHash2A.holding, List.getElem?_cons_zero, Option.bind_eq_bind,
    Option.some_bind, List.drop_succ_cons, List.drop_zero]
  rw [if_pos hc, tail_push pend hp b, hu]
  simp [mix32, leVal]

/-- What `MixTail` does to an object holding fewer than four pending bytes: it
stops with all of `data` consumed, or with no pending byte and at least four
bytes of `data` left; the bytes still to absorb (pending, then unread) are
unchanged as a block stream. -/
theorem CMurmurHash2A_MixTail_spec (data : List Byte) :
    ∀ (h : Nat) (pend : List Byte) (sz : Nat), pend.length < 4 →
      ∃ (h' : Nat) (pend' data' : List Byte),
        CMurmurHash2A.MixTail data.length (CMurmurHash2A.holding h pend sz) data
            = some (CMurmurHash2A.holding h' pend' sz, data', data'.length)
          ∧ pend'.length < 4
          ∧ (data' = [] ∨ (4 ≤ data'.length ∧ pend' = []))
          ∧ data'.length ≤ data.length
          ∧ blockFold CMurmurHash2A.m CMurmurHash2A.r .little h (pend ++ data)
              = blockFold CMurmurHash2A.m CMurmurHash2A.r .little h' (pend' ++ data') := by
  induction data with
  | nil =>
    intro h pend sz hp
    exact ⟨h, pend, [], rfl, hp, Or.inl rfl, Nat.le_refl _, rfl⟩
  | cons b rest ih =>
    intro h pend sz hp
    by_cases hc : rest.length + 1 < 4 ∨ pend.length ≠ 0
    · by_cases h4 : pend.length + 1 = 4
      · -- the pending word is completed and mixed
        obtain ⟨p0, p1, p2, rfl⟩ : ∃ p0 p1 p2, pend = [p0, p1, p2] := by
          match pend, h4 with
          | [p0, p1, p2], _ => exact ⟨p0, p1, p2, rfl⟩
        obtain ⟨h', pend', data', hrun, hp', hd', hle, hfold⟩ :=
          ih (mix32 CMurmurHash2A.m CMurmurHash2A.r h (leVal ([p0, p1, p2] ++ [b]))) [] sz
            (by simp)
        refine ⟨h', pend', data', ?_, hp', hd', Nat.le_succ_of_le hle, ?_⟩
        · rw [List.length_cons, CMurmurHash2A_MixTail_cons h _ sz b rest hp hc, if_pos h4, hrun]
        · rw [← hfold]
          simp [blockFold_cons4, leVal_four]
      · -- the byte is stored in the pending word
        obtain ⟨h', pend', data', hrun, hp', hd', hle, hfold⟩ :=
          ih h (pend ++ [b]) sz (by simp; omega)
        refine ⟨h', pend', data', ?_, hp', hd', Nat.le_succ_of_le hle, ?_⟩
        · rw [List.length_cons, CMurmurHash2A_MixTail_cons h _ sz b rest hp hc, if_neg h4, hrun]
        · rw [← hfold]
          simp
    · -- the loop condition fails at once
      have h1 : 4 ≤ (b :: rest).length := by simp only [List.length_cons]; omega
      have h2 : pend = [] := by
        apply List.eq_nil_of_length_eq_zero
        omega
      refine ⟨h, pend, b :: rest, ?_, hp, Or.inr ⟨h1, h2⟩, Nat.le_refl _, rfl⟩
      rw [List.length_cons, CMurmurHash2A.MixTail]
      simp only [CMurmurHash2A.holding]
      rw [if_neg hc]

theorem CMurmurHash2A_Add_loop_short (e : ByteOrder) {len : Nat} (hlen : len < 4)
    (self : CMurmurHash2A) (data : List Byte) :
    CMurmurHash2A.Add.loop e len self data = some (self, data, len) := by
  match len, hlen with
  | 0, _ => rfl
  | 1, _ => rfl
  | 2, _ => rfl
  | 3, _ => rfl

theorem CMurmurHash2A_Add_loop_eq (e : ByteOrder) (data : List Byte) :
    ∀ (h : Nat) (pend : List Byte) (sz : Nat),
      CMurmurHash2A.Add.loop e data.length (CMurmurHash2A.holding h pend sz) data
        = some (CMurmurHash2A.holding
            (blockFold CMurmurHash2A.m CMurmurHash2A.r e h data).1 pend sz,
            (blockFold CMurmurHash2A.m CMurmurHash2A.r e h data).2,
            (blockFold CMurmurHash2A.m CMurmurHash2A.r e h data).2.length) := by
  induction data using list_induction4 with
  | short l hl =>
    intro h pend sz
    rw [CMurmurHash2A_Add_loop_short e hl, blockFold_short _ _ _ _ hl]
  | step b0 b1 b2 b3 rest ih =>
    intro h pend sz
    rw [blockFold_cons4, ← ih]
    simp only [List.length_cons, CMurmurHash2A.Add.loop, load32_cons4, Option.bind_eq_bind,
      Option.some_bind, List.drop_succ_cons, List.drop_zero, CMurmurHash2A.holding, mix32]

/-- One `Add` on a little-endian host: the pending bytes followed by the new
data are absorbed block by block, and the length is added to the counter. -/
theorem CMurmurHash2A_Add_eq (h : Nat) (pend : List Byte) (sz : Nat) (hp : pend.length < 4)
    (part : List Byte) :
    CMurmurHash2A.Add .little (CMurmurHash2A.holding h pend sz) part part.length
      = some (CMurmurHash2A.holding
          (blockFold CMurmurHash2A.m CMurmurHash2A.r .little h (pend ++ part)).1
          (blockFold CMurmurHash2A.m CMurmurHash2A.r .little h (pend ++ part)).2
          (u32 (sz + part.length))) := by
  obtain ⟨h1, pend1, data1, hrun1, hp1, hd1, -, hfold1⟩ :=
    CMurmurHash2A_MixTail_spec part h pend (u32 (sz + part.length)) hp
  obtain ⟨h3, pend3, data3, hrun3, hp3, hd3, hle3, hfold3⟩ :=
    CMurmurHash2A_MixTail_spec
      (blockFold CMurmurHash2A.m CMurmurHash2A.r .little h1 data1).2
      (blockFold CMurmurHash2A.m CMurmurHash2A.r .little h1 data1).1 pend1
      (u32 (sz + part.length)) hp1
  have hrest : (blockFold CMurmurHash2A.m CMurmurHash2A.r .little h1 data1).2.length < 4 :=
    rest32_length_lt data1
  have hd3' : data3 = [] := by
    rcases hd3 with h0 | ⟨h4, -⟩
    · exact h0
    · omega
  subst hd3'
  have hrun : CMurmurHash2A.Add .little (CMurmurHash2A.holding h pend sz) part part.length
      = some (CMurmurHash2A.holding h3 pend3 (u32 (sz + part.length))) := by
    have h0 : ({ CMurmurHash2A.holding h pend sz with m_size := u32 (sz + part.length) }
        : CMurmurHash2A) = CMurmurHash2A.holding h pend (u32 (sz + part.length)) := rfl
    simp only [CMurmurHash2A.Add]
    rw [show (CMurmurHash2A.holding h pend sz).m_size = sz from rfl, h0, hrun1]
    simp only [Option.bind_eq_bind, Option.some_bind]
    rw [CMurmurHash2A_Add_loop_eq]
    simp only [Option.some_bind]
    rw [hrun3]
    rfl
  rw [hrun, hfold1]
  have hkey : blockFold CMurmurHash2A.m CMurmurHash2A.r .little h1 (pend1 ++ data1)
      = (h3, pend3) := by
    have e3 : blockFold CMurmurHash2A.m CMurmurHash2A.r .little h3 (pend3 ++ [])
        = (h3, pend3) := by
      rw [List.append_nil, blockFold_short _ _ _ _ hp3]
    rw [e3] at hfold3
    rw [← hfold3]
    rcases hd1 with h0 | ⟨-, h0⟩
    · subst h0
      rfl
    · subst h0
      rw [List.nil_append, List.nil_append, blockFold_short _ _ _ _ hrest]
  rw [hkey]

/-- A sequence of `Add` calls on a little-endian host absorbs the concatenation
of the parts. -/
theorem CMurmurHash2A_foldlM_Add_eq (parts : List (List Byte)) :
    ∀ (h : Nat) (pend : List Byte) (sz : Nat), pend.length < 4 → sz < 2 ^ 32 →
      parts.foldlM (fun st part => CMurmurHash2A.Add .little st part part.length)
          (CMurmurHash2A.holding h pend sz)
        = some (CMurmurHash2A.holding
            (blockFold CMurmurHash2A.m CMurmurHash2A.r .little h (pend ++ parts.flatten)).1
            (blockFold CMurmurHash2A.m CMurmurHash2A.r .little h (pend ++ parts.flatten)).2
            (u32 (sz + parts.flatten.length))) := by
  induction parts with
  | nil =>
    intro h pend sz hp hsz
    simp [blockFold_short _ _ _ _ hp, u32_of_lt hsz]
  | cons part parts ih =>
    intro h pend sz hp hsz
    rw [List.foldlM_cons, CMurmurHash2A_Add_eq h pend sz hp part]
    simp only [Option.bind_eq_bind, Option.some_bind]
    have hp' : (blockFold CMurmurHash2A.m CMurmurHash2A.r .little h (pend ++ part)).2.length
        < 4 := rest32_length_lt _
    rw [ih _ _ _ hp' (u32_lt _), List.flatten_cons, ← List.append_assoc,
      blockFold_append _ _ _ h (pend ++ part), u32_u32_add, List.length_append, Nat.add_assoc]

theorem CMurmurHash2A_End_holding (h : Nat) (pend : List Byte) (sz : Nat) :
    (CMurmurHash2A.End (CMurmurHash2A.holding h pend sz)).1
      = avalanche32 CMurmurHash2A.m
          (mix32 CMurmurHash2A.m CMurmurHash2A.r
            (mix32 CMurmurHash2A.m CMurmurHash2A.r h (leVal pend)) sz) := rfl

/-- The incremental run on a little-endian host equals the closed form of
`MurmurHash2A` on the concatenated parts. -/
theorem CMurmurHash2A_run_eq_closed (self : CMurmurHash2A) (seed : Nat)
    (parts : List (List Byte)) :
    CMurmurHash2A.run .little self seed parts
      = some (MurmurHash2A.closed .little parts.flatten seed) := by
  have hb : CMurmurHash2A.Begin self seed = CMurmurHash2A.holding seed [] 0 := rfl
  rw [CMurmurHash2A.run, hb, CMurmurHash2A_foldlM_Add_eq parts seed [] 0 (by simp) (by decide)]
  simp only [Option.map_some', CMurmurHash2A_End_holding, List.nil_append, Nat.zero_add]
  rfl

/-- C1. Chunk-boundary invariance: on a little-endian host, for every seed,
every byte sequence `key` of length below `2^31` and every list of parts whose
concatenation is `key` (parts may be empty), `Begin(seed)`, `Add(part)` for each
part in order, `End()` returns a digest, and it is the digest
`MurmurHash2A(key, len, seed)`. -/
theorem C1_chunk_boundary_invariance (self : CMurmurHash2A) (seed : Nat) (key : List Byte)
    (parts : List (List Byte)) (hparts : parts.flatten = key) (hlen : key.length < 2 ^ 31) :
    ∃ d, CMurmurHash2A.run .little self seed parts = some d
      ∧ MurmurHash2A .little key key.length seed = some d := by
  subst hparts
  exact ⟨_, CMurmurHash2A_run_eq_closed self seed parts, MurmurHash2A_eq_closed _ _ _⟩

/-- Witness for C1: the six bytes `1..6` fed as `[1]`, `[]`, `[2,3,4,5]`, `[6]`. -/
theorem C1_chunk_boundary_invariance_witness :
    ([[1], [], [2, 3, 4, 5], [6]] : List (List Byte)).flatten = [1, 2, 3, 4, 5, 6]
      ∧ ([1, 2, 3, 4, 5, 6] : List Byte).length < 2 ^ 31
      ∧ ∃ d, CMurmurHash2A.run .little ⟨9, 9, 9, 9⟩ 7 [[1], [], [2, 3, 4, 5], [6]] = some d
          ∧ MurmurHash2A .little [1, 2, 3, 4, 5, 6] ([1, 2, 3, 4, 5, 6] : List Byte).length 7
              = some d :=
  ⟨by decide, by decide,
    C1_chunk_boundary_invariance ⟨9, 9, 9, 9⟩ 7 [1, 2, 3, 4, 5, 6] [[1], [], [2, 3, 4, 5], [6]]
      (by decide) (by decide)⟩

/-! ## Byte order, reference vector, reset -/

/-- C3 (evaluation at the failing input). `MurmurHash64ANeutral` reads each
block by the plain load `*data++`: on the eight bytes `01 00 00 00 00 00 00 00`
with seed `0` it returns `15864050386245233697` on a big-endian host and
`10357027354812746030` on a little-endian host, two different digests. -/
theorem C3_neutral64_depends_on_byte_order :
    MurmurHash64ANeutral .big [1, 0, 0, 0, 0, 0, 0, 0] 8 0 = some 15864050386245233697
      ∧ MurmurHash64ANeutral .little [1, 0, 0, 0, 0, 0, 0, 0] 8 0 = some 10357027354812746030
      ∧ MurmurHash64ANeutral .big [1, 0, 0, 0, 0, 0, 0, 0] 8 0
          ≠ MurmurHash64ANeutral .little [1, 0, 0, 0, 0, 0, 0, 0] 8 0 := by
  refine ⟨by decide, by decide, by decide⟩

/-- C4. Byte-order portability of `MurmurHashNeutral2`: for every seed and every
byte sequence the digest on a host of byte order `e₁` and the digest on a host
of byte order `e₂` are the same value, the one obtained from the little-endian
composition of every 4-byte block. -/
theorem C4_neutral32_byte_order_independent (e₁ e₂ : ByteOrder) (key : List Byte)
    (seed : Nat) :
    ∃ d, MurmurHashNeutral2 e₁ key key.length seed = some d
      ∧ MurmurHashNeutral2 e₂ key key.length seed = some d
      ∧ d = MurmurHash2.closed .little key seed :=
  ⟨_, MurmurHashNeutral2_eq_closed e₁ key seed, MurmurHashNeutral2_eq_closed e₂ key seed,
    rfl⟩

/-- C5. Zero reference vector: every variant, on either byte order and at any
start address, maps the empty input with seed `0` to the digest `0`; so does
`Begin(0)` followed directly by `End()`, whatever the object held before. -/
theorem C5_zero_reference_vector (e : ByteOrder) (addr : Nat) (self : CMurmurHash2A) :
    MurmurHash2 e [] 0 0 = some 0
      ∧ MurmurHash2A e [] 0 0 = some 0
      ∧ MurmurHashNeutral2 e [] 0 0 = some 0
      ∧ MurmurHashAligned2 e addr [] 0 0 = some 0
      ∧ MurmurHash64A e [] 0 0 = some 0
      ∧ MurmurHash64B e [] 0 0 = some 0
      ∧ MurmurHash64ANeutral e [] 0 0 = some 0
      ∧ CMurmurHash2A.run e self 0 [] = some 0
      ∧ (CMurmurHash2A.End (CMurmurHash2A.Begin self 0)).1 = 0 := by
  have hend : (CMurmurHash2A.End (CMurmurHash2A.Begin self 0)).1 = 0 := by
    show (CMurmurHash2A.End ⟨0, 0, 0, 0⟩).1 = 0
    decide
  refine ⟨rfl, rfl, rfl, ?_, rfl, rfl, rfl, ?_, hend⟩
  swap
  · rw [CMurmurHash2A.run, List.foldlM_nil]
    show some (CMurmurHash2A.End (CMurmurHash2A.Begin self 0)).1 = some 0
    rw [hend]
  have hb : ¬ (addr &&& 3 ≠ 0 ∧ 0 ≥ 4) := by simp
  rw [MurmurHashAligned2]
  simp only [hb, if_false]
  rfl

/-- C6. On a little-endian host, for every seed and every byte sequence,
`MurmurHashNeutral2` and `MurmurHash2` return the same digest. -/
theorem C6_neutral32_eq_native_little_endian (key : List Byte) (seed : Nat) :
    ∃ d, MurmurHashNeutral2 .little key key.length seed = some d
      ∧ MurmurHash2 .little key key.length seed = some d :=
  ⟨_, MurmurHashNeutral2_eq_closed .little key seed, MurmurHash2_eq_closed .little key seed⟩

/-- C8. `Begin` is a full reset: from every prior object and for every seed it
produces `m_hash = seed`, `m_tail = 0`, `m_count = 0`, `m_size = 0`; hence the
result of `Begin(seed)`, any `Add` calls and `End()` is the same from any two
prior objects. -/
theorem C8_begin_is_full_reset (self self' : CMurmurHash2A) (seed : Nat) (e : ByteOrder)
    (parts : List (List Byte)) :
    CMurmurHash2A.Begin self seed = { m_hash := seed, m_tail := 0, m_count := 0, m_size := 0 }
      ∧ CMurmurHash2A.Begin (CMurmurHash2A.Begin self' seed) seed
          = CMurmurHash2A.Begin self seed
      ∧ CMurmurHash2A.run e self seed parts = CMurmurHash2A.run e self' seed parts :=
  ⟨rfl, rfl, rfl⟩

/-- C9. Independence of the 64-bit variants: on either byte order there is a
seed and a byte sequence (seed `0`, the single byte `01`) on which
`MurmurHash64A` and `MurmurHash64B` both return a digest and the two digests
differ. -/
theorem C9_hash64A_ne_hash64B (e : ByteOrder) :
    ∃ (seed : Nat) (key : List Byte) (a b : Nat),
      MurmurHash64A e key key.length seed = some a
        ∧ MurmurHash64B e key key.length seed = some b
        ∧ a ≠ b := by
  refine ⟨0, [1], 12725806677685968135, 5481640861866813560, ?_, ?_, by decide⟩
  · cases e <;> decide
  · cases e <;> decide

/-! ## The 64-bit variants -/

theorem list_induction8 {P : List Byte → Prop}
    (short : ∀ l : List Byte, l.length < 8 → P l)
    (step : ∀ (b0 b1 b2 b3 b4 b5 b6 b7 : Byte) (rest : List Byte), P rest →
      P (b0 :: b1 :: b2 :: b3 :: b4 :: b5 :: b6 :: b7 :: rest)) :
    ∀ l, P l
  | [] => short _ (by simp)
  | [_] => short _ (by simp)
  | [_, _] => short _ (by simp)
  | [_, _, _] => short _ (by simp)
  | [_, _, _, _] => short _ (by simp)
  | [_, _, _, _, _] => short _ (by simp)
  | [_, _, _, _, _, _] => short _ (by simp)
  | [_, _, _, _, _, _, _] => short _ (by simp)
  | b0 :: b1 :: b2 :: b3 :: b4 :: b5 :: b6 :: b7 :: rest =>
    step b0 b1 b2 b3 b4 b5 b6 b7 rest (list_induction8 short step rest)

theorem words64_short (e : ByteOrder) {l : List Byte} (h : l.length < 8) : words64 e l = [] := by
  match l, h with
  | [], _ => rfl
  | [_], _ => rfl
  | [_, _], _ => rfl
  | [_, _, _], _ => rfl
  | [_, _, _, _], _ => rfl
  | [_, _, _, _, _], _ => rfl
  | [_, _, _, _, _, _], _ => rfl
  | [_, _, _, _, _, _, _], _ => rfl

theorem rest64_short {l : List Byte} (h : l.length < 8) : rest64 l = l := by
  match l, h with
  | [], _ => rfl
  | [_], _ => rfl
  | [_, _], _ => rfl
  | [_, _, _], _ => rfl
  | [_, _, _, _], _ => rfl
  | [_, _, _, _, _], _ => rfl
  | [_, _, _, _, _, _], _ => rfl
  | [_, _, _, _, _, _, _], _ => rfl

theorem fold64B_short (m r : Nat) (e : ByteOrder) {l : List Byte} (h : l.length < 8)
    (h1 h2 : Nat) : fold64B m r e l h1 h2 = (h1, h2) := by
  match l, h with
  | [], _ => rfl
  | [_], _ => rfl
  | [_, _], _ => rfl
  | [_, _, _], _ => rfl
  | [_, _, _, _], _ => rfl
  | [_, _, _, _, _], _ => rfl
  | [_, _, _, _, _, _], _ => rfl
  | [_, _, _, _, _, _, _], _ => rfl

theorem rest64_length_lt (l : List Byte) : (rest64 l).length < 8 := by
  induction l using list_induction8 with
  | short l h => rw [rest64_short h]; exact h
  | step b0 b1 b2 b3 b4 b5 b6 b7 rest ih => simpa [rest64] using ih

theorem rest64_length (l : List Byte) : (rest64 l).length = l.length % 8 := by
  induction l using list_induction8 with
  | short l h => rw [rest64_short h, Nat.mod_eq_of_lt h]
  | step b0 b1 b2 b3 b4 b5 b6 b7 rest ih =>
    simp only [rest64, List.length_cons, ih]
    omega

theorem rest64_eq_drop (l : List Byte) : rest64 l = l.drop (l.length / 8 * 8) := by
  induction l using list_induction8 with
  | short l h =>
    rw [rest64_short h, Nat.div_eq_of_lt h]
    rfl
  | step b0 b1 b2 b3 b4 b5 b6 b7 rest ih =>
    have hq : (rest.length + 1 + 1 + 1 + 1 + 1 + 1 + 1 + 1) / 8 * 8
        = rest.length / 8 * 8 + 8 := by omega
    simp only [rest64, List.length_cons, hq, List.drop_succ_cons]
    exact ih

theorem land_seven (n : Nat) : n &&& 7 = n % 8 :=
  Nat.and_pow_two_sub_one_eq_mod n 3

theorem load64_cons8 (e : ByteOrder) (b0 b1 b2 b3 b4 b5 b6 b7 : Byte) (rest : List Byte) :
    load64 e (b0 :: b1 :: b2 :: b3 :: b4 :: b5 :: b6 :: b7 :: rest)
      = some (hostWord64 e b0 b1 b2 b3 b4 b5 b6 b7) := by
  cases e <;> simp [load64, hostWord64]

theorem div8_of_lt {n : Nat} (h : n < 8) : n / 8 = 0 := Nat.div_eq_of_lt h

theorem MurmurHash64ANeutral_loop_eq (e : ByteOrder) (m r : Nat) (data : List Byte) :
    ∀ h, MurmurHash64ANeutral.loop e m r (data.length / 8) data h
      = some ((words64 e data).foldl (mix64 m r) h, rest64 data) := by
  induction data using list_induction8 with
  | short l hl =>
    intro h
    rw [div8_of_lt hl, words64_short e hl, rest64_short hl]
    rfl
  | step b0 b1 b2 b3 b4 b5 b6 b7 rest ih =>
    intro h
    have hq : (rest.length + 1 + 1 + 1 + 1 + 1 + 1 + 1 + 1) / 8 = rest.length / 8 + 1 := by
      omega
    simp only [List.length_cons, hq, MurmurHash64ANeutral.loop, load64_cons8, words64, rest64,
      List.foldl_cons]
    simpa [mix64] using ih _

theorem MurmurHash64A_loop_eq (bswap : Nat → Nat) (e : ByteOrder) (m r : Nat)
    (blocks : List Byte) (data : List Byte) :
    ∀ (i h : Nat), blocks.drop (8 * i) = data →
      MurmurHash64A.loop bswap e m r blocks (data.length / 8) i h
        = some (((words64 e data).map bswap).foldl (mix64 m r) h) := by
  induction data using list_induction8 with
  | short l hl =>
    intro i h _
    rw [div8_of_lt hl, words64_short e hl]
    rfl
  | step b0 b1 b2 b3 b4 b5 b6 b7 rest ih =>
    intro i h hd
    have hq : (rest.length + 1 + 1 + 1 + 1 + 1 + 1 + 1 + 1) / 8 = rest.length / 8 + 1 := by
      omega
    have hnext : blocks.drop (8 * (i + 1)) = rest := by
      rw [show 8 * (i + 1) = 8 * i + 8 by omega, ← List.drop_drop, hd]
      rfl
    simp only [List.length_cons, hq, MurmurHash64A.loop, getblock2_64, hd, load64_cons8,
      words64, List.map_cons, List.foldl_cons]
    simpa [mix64] using ih (i + 1) _ hnext

theorem tailSwitch64_total (m : Nat) (l : List Byte) (hl : l.length < 8) (h : Nat) :
    ∃ v, tailSwitch64 m l.length l h = some v := by
  match l, hl with
  | [], _ => exact ⟨_, rfl⟩
  | [_], _ => exact ⟨_, rfl⟩
  | [_, _], _ => exact ⟨_, rfl⟩
  | [_, _, _], _ => exact ⟨_, rfl⟩
  | [_, _, _, _], _ => exact ⟨_, rfl⟩
  | [_, _, _, _, _], _ => exact ⟨_, rfl⟩
  | [_, _, _, _, _, _], _ => exact ⟨_, rfl⟩
  | [_, _, _, _, _, _, _], _ => exact ⟨_, rfl⟩

/-- Characterisation of `MurmurHash64ANeutral` as a fold over the host words of
the blocks, the tail switch and the avalanche. -/
theorem MurmurHash64ANeutral_eq (e : ByteOrder) (key : List Byte) (seed : Nat) :
    MurmurHash64ANeutral e key key.length seed
      = (tailSwitch64 0xc6a4a7935bd1e995 (rest64 key).length (rest64 key)
          ((words64 e key).foldl (mix64 0xc6a4a7935bd1e995 47)
            (seed ^^^ u64 (key.length * 0xc6a4a7935bd1e995)))).map
          (avalanche64 0xc6a4a7935bd1e995 47) := by
  rcases hx : tailSwitch64 0xc6a4a7935bd1e995 (rest64 key).length (rest64 key)
    ((words64 e key).foldl (mix64 0xc6a4a7935bd1e995 47)
      (seed ^^^ u64 (key.length * 0xc6a4a7935bd1e995))) with _ | v <;>
  · rw [rest64_length] at hx
    simp [MurmurHash64ANeutral, MurmurHash64ANeutral_loop_eq, land_seven, hx, avalanche64]

/-- Characterisation of `MurmurHash64A`, compiled with any definition of
`BYTESWAP64`, as a fold over the swapped host words of the blocks, the tail
switch and the avalanche. -/
theorem MurmurHash64A_compiled_eq (bswap : Nat → Nat) (e : ByteOrder) (key : List Byte)
    (seed : Nat) :
    MurmurHash64A.compiled bswap e key key.length seed
      = (tailSwitch64 0xc6a4a7935bd1e995 (rest64 key).length (rest64 key)
          (((words64 e key).map bswap).foldl (mix64 0xc6a4a7935bd1e995 47)
            (seed ^^^ u64 (key.length * 0xc6a4a7935bd1e995)))).map
          (avalanche64 0xc6a4a7935bd1e995 47) := by
  rcases hx : tailSwitch64 0xc6a4a7935bd1e995 (rest64 key).length (rest64 key)
    (((words64 e key).map bswap).foldl (mix64 0xc6a4a7935bd1e995 47)
      (seed ^^^ u64 (key.length * 0xc6a4a7935bd1e995))) with _ | v <;>
  · rw [rest64_length] at hx
    simp [MurmurHash64A.compiled, MurmurHash64A_loop_eq bswap e _ _ key key 0 _ rfl,
      land_seven, ← rest64_eq_drop, hx, avalanche64]

/-- Characterisation of `MurmurHash64A` as a fold over the byte-swapped host
words of the blocks, the tail switch and the avalanche. -/
theorem MurmurHash64A_eq (e : ByteOrder) (key : List Byte) (seed : Nat) :
    MurmurHash64A e key key.length seed
      = (tailSwitch64 0xc6a4a7935bd1e995 (rest64 key).length (rest64 key)
          (((words64 e key).map (BYTESWAP64 e)).foldl (mix64 0xc6a4a7935bd1e995 47)
            (seed ^^^ u64 (key.length * 0xc6a4a7935bd1e995)))).map
          (avalanche64 0xc6a4a7935bd1e995 47) :=
  MurmurHash64A_compiled_eq (BYTESWAP64 e) e key seed

theorem MurmurHash64ANeutral_total (e : ByteOrder) (key : List Byte) (seed : Nat) :
    ∃ d, MurmurHash64ANeutral e key key.length seed = some d := by
  obtain ⟨v, hv⟩ := tailSwitch64_total 0xc6a4a7935bd1e995 (rest64 key) (rest64_length_lt key)
    ((words64 e key).foldl (mix64 0xc6a4a7935bd1e995 47)
      (seed ^^^ u64 (key.length * 0xc6a4a7935bd1e995)))
  exact ⟨_, by rw [MurmurHash64ANeutral_eq, hv]; rfl⟩

theorem MurmurHash64A_total (e : ByteOrder) (key : List Byte) (seed : Nat) :
    ∃ d, MurmurHash64A e key key.length seed = some d := by
  obtain ⟨v, hv⟩ := tailSwitch64_total 0xc6a4a7935bd1e995 (rest64 key) (rest64_length_lt key)
    (((words64 e key).map (BYTESWAP64 e)).foldl (mix64 0xc6a4a7935bd1e995 47)
      (seed ^^^ u64 (key.length * 0xc6a4a7935bd1e995)))
  exact ⟨_, by rw [MurmurHash64A_eq, hv]; rfl⟩

theorem BYTESWAP64_little_map (ws : List Nat) : ws.map (BYTESWAP64 .little) = ws := by
  induction ws with
  | nil => rfl
  | cons w ws ih => simp [BYTESWAP64, ih]

/-- On a little-endian host whose compiler predefines `__BYTE_ORDER__`, for
every seed and every byte sequence, `MurmurHash64ANeutral` and `MurmurHash64A`
return the same digest. -/
theorem MurmurHash64ANeutral_eq_native_little (key : List Byte) (seed : Nat) :
    ∃ d, MurmurHash64ANeutral .little key key.length seed = some d
      ∧ MurmurHash64A .little key key.length seed = some d := by
  obtain ⟨d, hd⟩ := MurmurHash64ANeutral_total .little key seed
  refine ⟨d, hd, ?_⟩
  rw [MurmurHash64A_eq, BYTESWAP64_little_map, ← MurmurHash64ANeutral_eq, hd]

/-! ## MurmurHash64B -/

theorem MurmurHash64B_loop_short (e : ByteOrder) (m r : Nat) {len : Nat} (hlen : len < 8)
    (data : List Byte) (h1 h2 : Nat) :
    MurmurHash64B.loop e m r len data h1 h2 = some (h1, h2, data, len) := by
  interval_cases len <;> rfl

theorem MurmurHash64B_loop_eq (e : ByteOrder) (m r : Nat) (data : List Byte) :
    ∀ h1 h2, MurmurHash64B.loop e m r data.length data h1 h2
      = some ((fold64B m r e data h1 h2).1, (fold64B m r e data h1 h2).2, rest64 data,
          (rest64 data).length) := by
  induction data using list_induction8 with
  | short l hl =>
    intro h1 h2
    rw [MurmurHash64B_loop_short e m r hl, fold64B_short m r e hl, rest64_short hl]
  | step b0 b1 b2 b3 b4 b5 b6 b7 rest ih =>
    intro h1 h2
    simp only [List.length_cons, MurmurHash64B.loop, load32_cons4, fold64B, rest64,
      Option.bind_eq_bind, Option.some_bind, List.drop_succ_cons, List.drop_zero]
    simpa [mix32, mmix] using ih _ _

theorem MurmurHash64B_extra_eq (e : ByteOrder) (m r : Nat) (l : List Byte)
    (hl : l.length < 8) (h1 : Nat) :
    MurmurHash64B.extra e m r l.length l h1
      = some ((words32 e l).foldl (mix32 m r) h1, rest32 l, (rest32 l).length) := by
  by_cases h4 : l.length < 4
  · have hn : ¬ l.length ≥ 4 := by omega
    rw [MurmurHash64B.extra, if_neg hn, words32_short e h4, rest32_short h4]
    rfl
  · match l, hl, h4 with
    | [], _, h4 => exact absurd (by simp) h4
    | [_], _, h4 => exact absurd (by simp) h4
    | [_, _], _, h4 => exact absurd (by simp) h4
    | [_, _, _], _, h4 => exact absurd (by simp) h4
    | b0 :: b1 :: b2 :: b3 :: rest, hl, _ =>
      have hr : rest.length < 4 := by simp only [List.length_cons] at hl; omega
      have hp : (b0 :: b1 :: b2 :: b3 :: rest).length ≥ 4 := by simp
      rw [MurmurHash64B.extra, if_pos hp]
      simp only [load32_cons4, Option.bind_eq_bind, Option.some_bind, List.drop_succ_cons,
        List.drop_zero, words32, rest32, List.foldl_cons, words32_short e hr, rest32_short hr,
        List.foldl_nil, List.length_cons]
      simp [mix32, mmix]

theorem MurmurHash64B_eq_closed (e : ByteOrder) (key : List Byte) (seed : Nat) :
    MurmurHash64B e key key.length seed = some (MurmurHash64B.closed e key seed) := by
  simp [MurmurHash64B, MurmurHash64B_loop_eq,
    MurmurHash64B_extra_eq e _ _ (rest64 key) (rest64_length_lt key),
    tailSwitch_eq _ _ (rest32_length_lt (rest64 key)), MurmurHash64B.closed, crossMix64B]

/-! ## The misaligned path of MurmurHashAligned2 -/

theorem leVal_append (xs ys : List Byte) :
    leVal (xs ++ ys) = leVal xs + 256 ^ xs.length * leVal ys := by
  induction xs with
  | nil => simp [leVal]
  | cons b bs ih =>
    rw [List.cons_append, leVal, leVal, ih, List.length_cons, Nat.pow_succ]
    ring

theorem two_pow_eight_mul (c : Nat) : 2 ^ (8 * c) = 256 ^ c := by
  rw [Nat.pow_mul]

/-- A carried byte string and a further one shifted above it, or-ed into a word:
without truncation when both fit in four bytes. -/
theorem carry_or_fit (carry xs : List Byte) (hfit : carry.length + xs.length ≤ 4) :
    leVal carry ||| u32 (leVal xs <<< (8 * carry.length)) = leVal (carry ++ xs) := by
  have hx := leVal_lt xs
  have hc := leVal_lt carry
  have hpow : 256 ^ xs.length * 256 ^ carry.length ≤ 2 ^ 32 := by
    rw [← Nat.pow_add, show (2 : Nat) ^ 32 = 256 ^ 4 by norm_num]
    exact Nat.pow_le_pow_right (by decide) (by omega)
  have hlt : leVal xs <<< (8 * carry.length) < 2 ^ 32 := by
    rw [Nat.shiftLeft_eq, two_pow_eight_mul]
    calc leVal xs * 256 ^ carry.length
        < 256 ^ xs.length * 256 ^ carry.length :=
          Nat.mul_lt_mul_of_pos_right hx (Nat.pow_pos (by decide))
      _ ≤ 2 ^ 32 := hpow
  rw [u32_of_lt hlt, Nat.or_comm, shl_or_eq_add _ _ _ (by rw [two_pow_eight_mul]; exact hc),
    leVal_append, two_pow_eight_mul]
  ring

/-- The bytes of a word that are shifted out of the 32-bit range do not count. -/
theorem u32_shl_take (bs : List Byte) (c : Nat) (hc : c ≤ 4) :
    u32 (leVal bs <<< (8 * c)) = u32 (leVal (bs.take (4 - c)) <<< (8 * c)) := by
  have hsplit : leVal bs
      = leVal (bs.take (4 - c)) + 256 ^ (bs.take (4 - c)).length * leVal (bs.drop (4 - c)) := by
    rw [← leVal_append, List.take_append_drop]
  by_cases hlen : 4 - c ≤ bs.length
  · have htl : (bs.take (4 - c)).length = 4 - c := by simp [hlen]
    rw [hsplit, htl]
    have hp : (256 : Nat) ^ (4 - c) * 2 ^ (8 * c) = 2 ^ 32 := by
      rw [two_pow_eight_mul, ← Nat.pow_add, show 4 - c + c = 4 by omega]
      norm_num
    simp only [u32, Nat.shiftLeft_eq, Nat.add_mul]
    rw [show 256 ^ (4 - c) * leVal (bs.drop (4 - c)) * 2 ^ (8 * c)
        = 2 ^ 32 * leVal (bs.drop (4 - c)) by rw [← hp]; ring]
    exact Nat.add_mul_mod_self_left _ _ _
  · rw [List.take_of_length_le (by omega)]

/-- The word built in the loop of the misaligned path: the carried bytes
followed by the first bytes of the next aligned word. -/
theorem carry_or_word (carry bs : List Byte) (hc : carry.length ≤ 4) (hb : bs.length = 4) :
    leVal carry ||| u32 (leVal bs <<< (8 * carry.length))
      = leVal (carry ++ bs.take (4 - carry.length)) := by
  rw [u32_shl_take bs carry.length hc]
  exact carry_or_fit carry _ (by simp [hb]; omega)

/-- Shifting a word right by `a` bytes leaves its bytes from index `a` on. -/
theorem shr_leVal (bs : List Byte) (a : Nat) (ha : a ≤ bs.length) :
    leVal bs >>> (8 * a) = leVal (bs.drop a) := by
  have hsplit : leVal bs = leVal (bs.take a) + 256 ^ (bs.take a).length * leVal (bs.drop a) := by
    rw [← leVal_append, List.take_append_drop]
  have htl : (bs.take a).length = a := by simp [ha]
  have hlt := leVal_lt (bs.take a)
  rw [htl] at hsplit hlt
  rw [Nat.shiftRight_eq_div_pow, two_pow_eight_mul, hsplit,
    Nat.add_mul_div_left _ _ (Nat.pow_pos (by decide)), Nat.div_eq_of_lt hlt, Nat.zero_add]

/-- The initial value of `t`: shifted up by `a` bytes and down again. -/
theorem shl_shr_carry (carry : List Byte) (a : Nat) (h : carry.length + a ≤ 4) :
    u32 (leVal carry <<< (8 * a)) >>> (8 * a) = leVal carry := by
  have hc := leVal_lt carry
  have hlt : leVal carry <<< (8 * a) < 2 ^ 32 := by
    rw [Nat.shiftLeft_eq, two_pow_eight_mul]
    calc leVal carry * 256 ^ a
        < 256 ^ carry.length * 256 ^ a := Nat.mul_lt_mul_of_pos_right hc (Nat.pow_pos (by decide))
      _ ≤ 2 ^ 32 := by
          rw [← Nat.pow_add, show (2 : Nat) ^ 32 = 256 ^ 4 by norm_num]
          exact Nat.pow_le_pow_right (by decide) h
  rw [u32_of_lt hlt, Nat.shiftLeft_eq, Nat.shiftRight_eq_div_pow,
    Nat.mul_div_cancel _ (Nat.pow_pos (by decide))]

theorem blockFold_append4 (m r : Nat) (h : Nat) (w : List Byte) (hw : w.length = 4)
    (ys : List Byte) :
    blockFold m r .little h (w ++ ys) = blockFold m r .little (mix32 m r h (leVal w)) ys := by
  match w, hw with
  | [b0, b1, b2, b3], _ =>
    rw [leVal_four]
    exact blockFold_cons4 m r .little h b0 b1 b2 b3 ys

theorem or_bytes2 (b0 b1 : Byte) : (b1.val <<< 8) ||| b0.val = leVal [b0, b1] := by
  have h0 := b0.isLt
  rw [shl_or_eq_add _ _ 8 (by omega)]
  simp only [leVal]
  omega

theorem or_bytes3 (b0 b1 b2 : Byte) :
    ((b2.val <<< 16) ||| (b1.val <<< 8)) ||| b0.val = leVal [b0, b1, b2] := by
  have h0 := b0.isLt
  have h1 := b1.isLt
  rw [Nat.or_assoc, shl_or_eq_add _ _ 8 (by omega),
    shl_or_eq_add _ _ 16 (by omega)]
  simp only [leVal]
  omega

theorem tailFold32_append (m h : Nat) (xs ys : List Byte) (hx : 0 < xs.length) :
    tailFold32 m h (xs ++ ys) = u32 ((h ^^^ leVal (xs ++ ys)) * m) := by
  match xs, hx with
  | x :: xs, _ => rfl

/-- The pre-load switch reads the `4 - align` bytes up to the next word boundary. -/
theorem MurmurHashAligned2_pre_eq (a : Nat) (h1 : 1 ≤ a) (h3 : a ≤ 3) (key : List Byte)
    (hk : 4 ≤ key.length) :
    MurmurHashAligned2.pre a key 0 = some (leVal (key.take (4 - a))) := by
  match key, hk with
  | k0 :: k1 :: k2 :: k3 :: rest, _ =>
    obtain rfl | rfl | rfl : a = 1 ∨ a = 2 ∨ a = 3 := by omega
    · simp only [MurmurHashAligned2.pre, MurmurHashAligned2.pre.case1,
        MurmurHashAligned2.pre.case2, MurmurHashAligned2.pre.case3]
      simp [or_bytes3]
    · simp only [MurmurHashAligned2.pre, MurmurHashAligned2.pre.case2,
        MurmurHashAligned2.pre.case3]
      simp [or_bytes2]
    · simp [MurmurHashAligned2.pre, MurmurHashAligned2.pre.case3, leVal]

/-- The leftover switch reads `align` bytes. -/
theorem MurmurHashAligned2_left_eq (a : Nat) (h1 : 1 ≤ a) (h3 : a ≤ 3) (l : List Byte)
    (hl : a ≤ l.length) :
    MurmurHashAligned2.left a l 0 = some (leVal (l.take a)) := by
  obtain rfl | rfl | rfl : a = 1 ∨ a = 2 ∨ a = 3 := by omega
  · match l, hl with
    | x0 :: rest, _ => simp [MurmurHashAligned2.left, MurmurHashAligned2.left.case1, leVal]
  · match l, hl with
    | x0 :: x1 :: rest, _ =>
      simp only [MurmurHashAligned2.left, MurmurHashAligned2.left.case2,
        MurmurHashAligned2.left.case1]
      simp [or_bytes2]
  · match l, hl with
    | x0 :: x1 :: x2 :: rest, _ =>
      simp only [MurmurHashAligned2.left, MurmurHashAligned2.left.case3,
        MurmurHashAligned2.left.case2, MurmurHashAligned2.left.case1]
      simp [or_bytes3]

/-- The short-tail switch folds `t` and the remaining bytes as one tail word. -/
theorem MurmurHashAligned2_short_eq (m sl sr t : Nat) (l : List Byte) (hl : l.length < 4)
    (h : Nat) :
    MurmurHashAligned2.short m sl sr t l.length l 0 h
      = some (u32 ((h ^^^ ((t >>> sr) ||| u32 (leVal l <<< sl))) * m)) := by
  match l, hl with
  | [], _ => rfl
  | [x0], _ =>
    simp [MurmurHashAligned2.short, MurmurHashAligned2.short.case1,
      MurmurHashAligned2.short.case0, leVal]
  | [x0, x1], _ =>
    simp only [MurmurHashAligned2.short, MurmurHashAligned2.short.case2,
      MurmurHashAligned2.short.case1, MurmurHashAligned2.short.case0, List.length_cons,
      List.length_nil]
    simp [or_bytes2]
  | [x0, x1, x2], _ =>
    simp only [MurmurHashAligned2.short, MurmurHashAligned2.short.case3,
      MurmurHashAligned2.short.case2, MurmurHashAligned2.short.case1,
      MurmurHashAligned2.short.case0, List.length_cons, List.length_nil]
    simp [or_bytes3]

theorem MurmurHashAligned2_mixLoop_short (e : ByteOrder) (m r sl sr : Nat) {len : Nat}
    (hlen : len < 4) (data : List Byte) (h t : Nat) :
    MurmurHashAligned2.mixLoop e m r sl sr len data h t = some (h, t, data, len) := by
  match len, hlen with
  | 0, _ => rfl
  | 1, _ => rfl
  | 2, _ => rfl
  | 3, _ => rfl

theorem MurmurHashAligned2_mixLoop_cons4 (e : ByteOrder) (m r sl sr : Nat)
    (b0 b1 b2 b3 : Byte) (rest : List Byte) (h t : Nat) :
    MurmurHashAligned2.mixLoop e m r sl sr (rest.length + 4) (b0 :: b1 :: b2 :: b3 :: rest) h t
      = MurmurHashAligned2.mixLoop e m r sl sr rest.length rest
          (mix32 m r h ((t >>> sr) ||| u32 (hostWord32 e b0 b1 b2 b3 <<< sl)))
          (hostWord32 e b0 b1 b2 b3) := by
  simp only [MurmurHashAligned2.mixLoop, load32_cons4, Option.bind_eq_bind, Option.some_bind,
    List.drop_succ_cons, List.drop_zero, MIX, mix32, mmix]

/-- The loop of the misaligned path always runs to the tail of its data. -/
theorem MurmurHashAligned2_mixLoop_total (e : ByteOrder) (m r sl sr : Nat) (data : List Byte) :
    ∀ h t, ∃ h' t', MurmurHashAligned2.mixLoop e m r sl sr data.length data h t
      = some (h', t', rest32 data, (rest32 data).length) := by
  induction data using list_induction4 with
  | short l hl =>
    intro h t
    exact ⟨h, t, by rw [MurmurHashAligned2_mixLoop_short e m r sl sr hl, rest32_short hl]⟩
  | step b0 b1 b2 b3 rest ih =>
    intro h t
    obtain ⟨h', t', hrun⟩ := ih
      (mix32 m r h ((t >>> sr) ||| u32 (hostWord32 e b0 b1 b2 b3 <<< sl)))
      (hostWord32 e b0 b1 b2 b3)
    exact ⟨h', t', by
      rw [List.length_cons, List.length_cons, List.length_cons, List.length_cons,
        MurmurHashAligned2_mixLoop_cons4, hrun]
      rfl⟩

/-- The loop of the misaligned path on a little-endian host: while `t`, shifted
right, holds the carried bytes, the words mixed are the blocks of the carried
bytes followed by the data. -/
theorem MurmurHashAligned2_mixLoop_spec (a : Nat) (h1 : 1 ≤ a) (h3 : a ≤ 3) (m r : Nat)
    (data : List Byte) :
    ∀ (h t : Nat) (carry : List Byte), carry.length = 4 - a → t >>> (8 * a) = leVal carry →
      ∃ (h' t' : Nat) (carry' : List Byte),
        MurmurHashAligned2.mixLoop .little m r (8 * (4 - a)) (8 * a) data.length data h t
            = some (h', t', rest32 data, (rest32 data).length)
          ∧ carry'.length = 4 - a
          ∧ t' >>> (8 * a) = leVal carry'
          ∧ blockFold m r .little h (carry ++ data)
              = blockFold m r .little h' (carry' ++ rest32 data) := by
  induction data using list_induction4 with
  | short l hl =>
    intro h t carry hc ht
    exact ⟨h, t, carry,
      by rw [MurmurHashAligned2_mixLoop_short .little m r _ _ hl, rest32_short hl],
      hc, ht, by rw [rest32_short hl]⟩
  | step b0 b1 b2 b3 rest ih =>
    intro h t carry hc ht
    have hword : (t >>> (8 * a)) ||| u32 (hostWord32 .little b0 b1 b2 b3 <<< (8 * (4 - a)))
        = leVal (carry ++ [b0, b1, b2, b3].take a) := by
      rw [ht, ← leVal_four, ← hc, carry_or_word carry [b0, b1, b2, b3] (by omega) rfl, hc,
        show 4 - (4 - a) = a by omega]
    obtain ⟨h', t', carry', hrun, hc', ht', hfold⟩ :=
      ih (mix32 m r h (leVal (carry ++ [b0, b1, b2, b3].take a)))
        (hostWord32 .little b0 b1 b2 b3) ([b0, b1, b2, b3].drop a)
        (by simp)
        (by rw [← leVal_four]; exact shr_leVal _ a (by simp; omega))
    refine ⟨h', t', carry', ?_, hc', ht', ?_⟩
    · rw [List.length_cons, List.length_cons, List.length_cons, List.length_cons,
        MurmurHashAligned2_mixLoop_cons4, hword, hrun]
      rfl
    · have hlist : carry ++ b0 :: b1 :: b2 :: b3 :: rest
          = (carry ++ [b0, b1, b2, b3].take a) ++ ([b0, b1, b2, b3].drop a ++ rest) := by
        rw [List.append_assoc, ← List.append_assoc ([b0, b1, b2, b3].take a),
          List.take_append_drop]
        rfl
      have hw4 : (carry ++ [b0, b1, b2, b3].take a).length = 4 := by
        simp [hc]
        omega
      rw [hlist, blockFold_append4 m r h _ hw4, hfold]
      rfl
/-- Lines 549-587 on the tail left by the loop: the carried bytes followed by
the remaining bytes are folded exactly as `MurmurHash2` folds the end of its
input (one more block when four bytes are available, then the direct tail fold). -/
theorem MurmurHashAligned2_leftover_spec (a : Nat) (h1 : 1 ≤ a) (h3 : a ≤ 3) (m r : Nat)
    (l : List Byte) (hl : l.length < 4) (h t : Nat) (carry : List Byte)
    (hc : carry.length = 4 - a) (ht : t >>> (8 * a) = leVal carry) :
    MurmurHashAligned2.leftover m r (8 * (4 - a)) (8 * a) a l.length l h t
      = some (tailFold32 m (blockFold m r .little h (carry ++ l)).1
          (blockFold m r .little h (carry ++ l)).2) := by
  by_cases hge : l.length ≥ a
  · have hk : (t >>> (8 * a)) ||| u32 (leVal (l.take a) <<< (8 * (4 - a)))
        = leVal (carry ++ l.take a) := by
      rw [ht, ← hc]
      exact carry_or_fit carry _ (by simp; omega)
    have hw4 : (carry ++ l.take a).length = 4 := by
      simp [hc]
      omega
    have hd : (l.drop a).length < 4 := by
      simp
      omega
    have hlist : carry ++ l = (carry ++ l.take a) ++ l.drop a := by
      rw [List.append_assoc, List.take_append_drop]
    rw [hlist, blockFold_append4 m r h _ hw4, blockFold_short _ _ _ _ hd,
      MurmurHashAligned2.leftover, if_pos hge]
    simp only [MurmurHashAligned2_left_eq a h1 h3 l hge, Option.bind_eq_bind, Option.some_bind,
      hk, MIX]
    rw [show l.length - a = (l.drop a).length by simp, tailSwitch_eq m _ hd]
    rfl
  · have hfit : carry.length + l.length < 4 := by omega
    have hk : (t >>> (8 * a)) ||| u32 (leVal l <<< (8 * (4 - a))) = leVal (carry ++ l) := by
      rw [ht, ← hc]
      exact carry_or_fit carry _ (by omega)
    rw [blockFold_short _ _ _ _ (by simpa using hfit), MurmurHashAligned2.leftover,
      if_neg hge, MurmurHashAligned2_short_eq _ _ _ _ l hl, hk,
      tailFold32_append m h carry l (by omega)]

/-- Lines 549-587 always produce a value on a tail of fewer than four bytes. -/
theorem MurmurHashAligned2_leftover_total (a : Nat) (h1 : 1 ≤ a) (h3 : a ≤ 3)
    (m r sl sr : Nat) (l : List Byte) (hl : l.length < 4) (h t : Nat) :
    ∃ v, MurmurHashAligned2.leftover m r sl sr a l.length l h t = some v := by
  by_cases hge : l.length ≥ a
  · have hd : (l.drop a).length < 4 := by
      simp
      omega
    rw [MurmurHashAligned2.leftover, if_pos hge]
    simp only [MurmurHashAligned2_left_eq a h1 h3 l hge, Option.bind_eq_bind, Option.some_bind]
    rw [show l.length - a = (l.drop a).length by simp, tailSwitch_eq m _ hd]
    exact ⟨_, rfl⟩
  · exact ⟨_, by
      rw [MurmurHashAligned2.leftover, if_neg hge, MurmurHashAligned2_short_eq _ _ _ _ l hl]⟩

theorem land_three_le (addr : Nat) : addr &&& 3 ≤ 3 := Nat.and_le_right

/-- The aligned path of `MurmurHashAligned2` is `MurmurHash2`. -/
theorem MurmurHashAligned2_eq_closed_of_aligned (e : ByteOrder) (addr : Nat) (key : List Byte)
    (seed : Nat) (hcond : ¬ (addr &&& 3 ≠ 0 ∧ key.length ≥ 4)) :
    MurmurHashAligned2 e addr key key.length seed = some (MurmurHash2.closed e key seed) := by
  rw [MurmurHashAligned2]
  simp only [hcond, if_false]
  simp [MurmurHashAligned2_wordLoop_eq, tailSwitch_eq _ _ (rest32_length_lt key),
    MurmurHash2.closed, avalanche32]

/-- On a little-endian host `MurmurHashAligned2` computes the closed form of
`MurmurHash2`, whatever the start address. -/
theorem MurmurHashAligned2_eq_closed (addr : Nat) (key : List Byte) (seed : Nat) :
    MurmurHashAligned2 .little addr key key.length seed
      = some (MurmurHash2.closed .little key seed) := by
  by_cases hcond : addr &&& 3 ≠ 0 ∧ key.length ≥ 4
  · obtain ⟨ha0, hk⟩ := hcond
    have h3 := land_three_le addr
    have h1 : 1 ≤ addr &&& 3 := Nat.one_le_iff_ne_zero.mpr ha0
    have hcl : (key.take (4 - (addr &&& 3))).length = 4 - (addr &&& 3) := by
      simp
      omega
    have hdl : (key.drop (4 - (addr &&& 3))).length = key.length - (4 - (addr &&& 3)) := by
      simp
    obtain ⟨h', t', carry', hrun, hc', ht', hfold⟩ :=
      MurmurHashAligned2_mixLoop_spec (addr &&& 3) h1 h3 0x5bd1e995 24
        (key.drop (4 - (addr &&& 3))) (seed ^^^ u32 key.length)
        (u32 (leVal (key.take (4 - (addr &&& 3))) <<< (8 * (addr &&& 3))))
        (key.take (4 - (addr &&& 3))) hcl
        (shl_shr_carry _ _ (by rw [hcl]; omega))
    rw [List.take_append_drop] at hfold
    rw [MurmurHashAligned2]
    simp only [if_pos (And.intro ha0 hk), MurmurHashAligned2_pre_eq _ h1 h3 key hk,
      Option.bind_eq_bind, Option.some_bind, ← hdl, hrun,
      MurmurHashAligned2_leftover_spec _ h1 h3 _ _ _ (rest32_length_lt _) h' t' carry' hc' ht',
      ← hfold]
    rfl
  · exact MurmurHashAligned2_eq_closed_of_aligned .little addr key seed hcond

/-- Totality: `MurmurHashAligned2` returns a digest on either byte order. -/
theorem MurmurHashAligned2_total (e : ByteOrder) (addr : Nat) (key : List Byte) (seed : Nat) :
    ∃ d, MurmurHashAligned2 e addr key key.length seed = some d := by
  by_cases hcond : addr &&& 3 ≠ 0 ∧ key.length ≥ 4
  · obtain ⟨ha0, hk⟩ := hcond
    have h3 := land_three_le addr
    have h1 : 1 ≤ addr &&& 3 := Nat.one_le_iff_ne_zero.mpr ha0
    have hdl : (key.drop (4 - (addr &&& 3))).length = key.length - (4 - (addr &&& 3)) := by
      simp
    obtain ⟨h', t', hrun⟩ :=
      MurmurHashAligned2_mixLoop_total e 0x5bd1e995 24 (8 * (4 - (addr &&& 3)))
        (8 * (addr &&& 3)) (key.drop (4 - (addr &&& 3))) (seed ^^^ u32 key.length)
        (u32 (leVal (key.take (4 - (addr &&& 3))) <<< (8 * (addr &&& 3))))
    obtain ⟨v, hv⟩ :=
      MurmurHashAligned2_leftover_total (addr &&& 3) h1 h3 0x5bd1e995 24
        (8 * (4 - (addr &&& 3))) (8 * (addr &&& 3)) _
        (rest32_length_lt (key.drop (4 - (addr &&& 3)))) h' t'
    rw [MurmurHashAligned2]
    simp only [if_pos (And.intro ha0 hk), MurmurHashAligned2_pre_eq _ h1 h3 key hk,
      Option.bind_eq_bind, Option.some_bind, ← hdl, hrun, hv]
    exact ⟨_, rfl⟩
  · exact ⟨_, MurmurHashAligned2_eq_closed_of_aligned e addr key seed hcond⟩

/-- C2. Alignment equivalence: on a little-endian host, for every seed, every
byte sequence and every start address (hence every misalignment
`align = addr & 3` in `{0,1,2,3}`), `MurmurHashAligned2` returns a digest and it
is the digest `MurmurHash2` returns on the same bytes and seed; in particular it
is the same for any two start addresses. -/
theorem C2_alignment_equivalence (addr addr' : Nat) (key : List Byte) (seed : Nat) :
    ∃ d, MurmurHashAligned2 .little addr key key.length seed = some d
      ∧ MurmurHash2 .little key key.length seed = some d
      ∧ MurmurHashAligned2 .little addr' key key.length seed = some d :=
  ⟨_, MurmurHashAligned2_eq_closed addr key seed, MurmurHash2_eq_closed .little key seed,
    MurmurHashAligned2_eq_closed addr' key seed⟩

/-- C10. Totality and in-bounds reads: for every byte order, every start
address, every seed and every buffer `key` of exactly `len = key.length`
readable bytes, each one-shot variant returns a digest; as a read outside the
buffer makes the embedding return `none`, every byte read has an index below
`len`, in the misaligned path of `MurmurHashAligned2` as well. -/
theorem C10_total_and_in_bounds (e : ByteOrder) (addr : Nat) (key : List Byte) (seed : Nat) :
    (∃ d, MurmurHash2 e key key.length seed = some d)
      ∧ (∃ d, MurmurHash2A e key key.length seed = some d)
      ∧ (∃ d, MurmurHashNeutral2 e key key.length seed = some d)
      ∧ (∃ d, MurmurHashAligned2 e addr key key.length seed = some d)
      ∧ (∃ d, MurmurHash64A e key key.length seed = some d)
      ∧ (∃ d, MurmurHash64B e key key.length seed = some d)
      ∧ (∃ d, MurmurHash64ANeutral e key key.length seed = some d) :=
  ⟨⟨_, MurmurHash2_eq_closed e key seed⟩, ⟨_, MurmurHash2A_eq_closed e key seed⟩,
    ⟨_, MurmurHashNeutral2_eq_closed e key seed⟩, MurmurHashAligned2_total e addr key seed,
    MurmurHash64A_total e key seed, ⟨_, MurmurHash64B_eq_closed e key seed⟩,
    MurmurHash64ANeutral_total e key seed⟩

/-! ## The block step of the 64-bit family -/

theorem mix64_eq_xor_then_mul (m r : Nat) :
    mix64 m r = fun h k => (h ^^^ Spec.scramble64 m r k) * m % 2 ^ 64 := rfl

/-- C12 (counterexample). With `h = 0` and the block `01 00 00 00 00 00 00 00`
(`k = 1` on a little-endian host) the accumulator of `MurmurHash64A` after the
block is `13537199645396869884`, whereas `(h*m mod 2^64) xor k'` is
`1923352212695871500`: the code does not fold the block by `h *= m; h ^= k`. -/
theorem C12_block_step_counterexample :
    MurmurHash64A.loop (BYTESWAP64 .little) .little 0xc6a4a7935bd1e995 47
        [1, 0, 0, 0, 0, 0, 0, 0] 1 0 0 = some 13537199645396869884
      ∧ Spec.mix64 0xc6a4a7935bd1e995 47 0 1 = 1923352212695871500
      ∧ MurmurHash64A.loop (BYTESWAP64 .little) .little 0xc6a4a7935bd1e995 47
          [1, 0, 0, 0, 0, 0, 0, 0] 1 0 0 ≠ some (Spec.mix64 0xc6a4a7935bd1e995 47 0 1) := by
  refine ⟨by decide, by decide, by decide⟩

/-- C12 (amended). In `MurmurHash64A` and `MurmurHash64ANeutral`, with
`m = 0xc6a4a7935bd1e995` and `r = 47`, each block word `k` is folded by
`k *= m; k ^= k >> r; k *= m; h ^= k; h *= m`: the accumulator after a block is
`((h xor k') * m) mod 2^64` with `k' = ((k*m) xor ((k*m) >> r)) * m`, and the
accumulator after the block loop is the left fold of that step over the block
words (byte-swapped by `BYTESWAP64` in `MurmurHash64A`). -/
theorem C12_block_step_64 (e : ByteOrder) (key : List Byte) (h : Nat) :
    MurmurHash64A.loop (BYTESWAP64 e) e 0xc6a4a7935bd1e995 47 key (key.length / 8) 0 h
        = some (((words64 e key).map (BYTESWAP64 e)).foldl
            (fun h k => (h ^^^ Spec.scramble64 0xc6a4a7935bd1e995 47 k) * 0xc6a4a7935bd1e995
              % 2 ^ 64) h)
      ∧ (MurmurHash64ANeutral.loop e 0xc6a4a7935bd1e995 47 (key.length / 8) key h).map Prod.fst
        = some ((words64 e key).foldl
            (fun h k => (h ^^^ Spec.scramble64 0xc6a4a7935bd1e995 47 k) * 0xc6a4a7935bd1e995
              % 2 ^ 64) h) := by
  rw [← mix64_eq_xor_then_mul, MurmurHash64A_loop_eq _ e _ _ key key 0 h rfl,
    MurmurHash64ANeutral_loop_eq]
  exact ⟨rfl, rfl⟩

/-! ## Finalisation of the incremental hasher -/

/-- C19. `End` consumes the object: it stores the digest in `m_hash`, replaces
`m_tail` and `m_size` by `((k*m) xor ((k*m) >> 24)) * m` of their previous
values and leaves `m_count` unchanged; and `End` is not repeatable: after
`Begin(0)` and `Add` of the single byte `01` the first `End()` returns
`1040440789` and a second `End()` returns `2035844883`. -/
theorem C19_end_is_destructive (self : CMurmurHash2A) :
    (CMurmurHash2A.End self).2
        = { m_hash := (CMurmurHash2A.End self).1,
            m_tail := ((self.m_tail * 0x5bd1e995 % 2 ^ 32)
              ^^^ ((self.m_tail * 0x5bd1e995 % 2 ^ 32) >>> 24)) * 0x5bd1e995 % 2 ^ 32,
            m_count := self.m_count,
            m_size := ((self.m_size * 0x5bd1e995 % 2 ^ 32)
              ^^^ ((self.m_size * 0x5bd1e995 % 2 ^ 32) >>> 24)) * 0x5bd1e995 % 2 ^ 32 }
      ∧ ∃ (seed : Nat) (data : List Byte) (st : CMurmurHash2A) (d1 d2 : Nat),
          CMurmurHash2A.Add .little (CMurmurHash2A.Begin self seed) data data.length = some st
            ∧ (CMurmurHash2A.End st).1 = d1
            ∧ (CMurmurHash2A.End (CMurmurHash2A.End st).2).1 = d2
            ∧ d1 ≠ d2 := by
  refine ⟨rfl, 0, [1], ⟨0, 1, 1, 1⟩, 1040440789, 2035844883, ?_, by decide, by decide,
    by decide⟩
  show CMurmurHash2A.Add .little ⟨0, 0, 0, 0⟩ [1] 1 = some ⟨0, 1, 1, 1⟩
  decide

/-! ## The reference definitions of the 32-bit variants -/

theorem Spec_mix32_eq : Spec.mix32 = mix32 0x5bd1e995 24 := rfl

theorem Spec_avalanche32_eq : Spec.avalanche32 = avalanche32 0x5bd1e995 := rfl

theorem orBytes_eq_leVal (l : List Byte) : Spec.orBytes l = leVal l := by
  induction l with
  | nil => rfl
  | cons b bs ih =>
    have hb := b.isLt
    rw [Spec.orBytes, leVal, ih, Nat.or_comm, shl_or_eq_add _ _ 8 (by omega)]
    omega

theorem block32_cons4_zero (e : ByteOrder) (b0 b1 b2 b3 : Byte) (rest : List Byte) :
    Spec.block32 e (b0 :: b1 :: b2 :: b3 :: rest) 0 = hostWord32 e b0 b1 b2 b3 := rfl

theorem block32_cons4_succ (e : ByteOrder) (b0 b1 b2 b3 : Byte) (rest : List Byte) (i : Nat) :
    Spec.block32 e (b0 :: b1 :: b2 :: b3 :: rest) (i + 1) = Spec.block32 e rest i := by
  simp only [Spec.block32]
  rw [show 4 * (i + 1) = 4 * i + 1 + 1 + 1 + 1 by omega,
    show 4 * i + 1 + 1 + 1 + 1 + 1 = 4 * i + 1 + 1 + 1 + 1 + 1 by rfl,
    show 4 * i + 1 + 1 + 1 + 1 + 2 = 4 * i + 2 + 1 + 1 + 1 + 1 by omega,
    show 4 * i + 1 + 1 + 1 + 1 + 3 = 4 * i + 3 + 1 + 1 + 1 + 1 by omega]
  simp only [List.getD_cons_succ]

/-- The block words of a byte string are its blocks taken by index. -/
theorem words32_eq_map_block (e : ByteOrder) (key : List Byte) :
    words32 e key = (List.range (key.length / 4)).map (Spec.block32 e key) := by
  induction key using list_induction4 with
  | short l hl => rw [words32_short e hl, Nat.div_eq_of_lt hl]; rfl
  | step b0 b1 b2 b3 rest ih =>
    have hq : (b0 :: b1 :: b2 :: b3 :: rest).length / 4 = rest.length / 4 + 1 := by
      simp only [List.length_cons]
      omega
    rw [hq, List.range_succ_eq_map, List.map_cons, List.map_map, words32, ih,
      block32_cons4_zero]
    congr 1

theorem rest32_eq_drop (key : List Byte) : rest32 key = key.drop (4 * (key.length / 4)) := by
  induction key using list_induction4 with
  | short l hl => rw [rest32_short hl, Nat.div_eq_of_lt hl]; rfl
  | step b0 b1 b2 b3 rest ih =>
    have hq : 4 * ((b0 :: b1 :: b2 :: b3 :: rest).length / 4)
        = 4 * (rest.length / 4) + 1 + 1 + 1 + 1 := by
      simp only [List.length_cons]
      omega
    rw [hq]
    simp only [rest32, List.drop_succ_cons]
    exact ih

theorem rest32_length (key : List Byte) : (rest32 key).length = key.length % 4 := by
  rw [rest32_eq_drop, List.length_drop]
  omega

theorem foldl_words32_eq (e : ByteOrder) (key : List Byte) (h : Nat) :
    (words32 e key).foldl (mix32 0x5bd1e995 24) h
      = Spec.foldBlocks32 e key (key.length / 4) h := by
  rw [words32_eq_map_block, List.foldl_map, Spec.foldBlocks32, Spec_mix32_eq]

theorem mix32_u32_key (m r h k : Nat) : mix32 m r h (u32 k) = mix32 m r h k := by
  simp only [mix32, mmix, u32, Nat.mod_mul_mod]

theorem MurmurHash2A_closed_eq_spec (key : List Byte) (seed : Nat) :
    MurmurHash2A.closed .little key seed = MurmurHash2A_spec key seed := by
  rw [MurmurHash2A.closed, MurmurHash2A_spec, foldl_words32_eq, mix32_u32_key,
    rest32_eq_drop, orBytes_eq_leVal, Spec_mix32_eq, Spec_avalanche32_eq]

theorem tailFold32_eq_spec (h : Nat) (tail : List Byte) :
    tailFold32 0x5bd1e995 h tail
      = if tail.length = 0 then h else (h ^^^ Spec.orBytes tail) * 0x5bd1e995 % 2 ^ 32 := by
  cases tail with
  | nil => rfl
  | cons b bs =>
    rw [orBytes_eq_leVal]
    simp [tailFold32, u32]

theorem MurmurHash2_closed_eq_spec (key : List Byte) (seed : Nat) (hlen : key.length < 2 ^ 32) :
    MurmurHash2.closed .little key seed = MurmurHash2_spec key seed := by
  have ht : (key.drop (4 * (key.length / 4))).length = key.length - 4 * (key.length / 4) := by
    simp
  rw [MurmurHash2.closed, MurmurHash2_spec, foldl_words32_eq, u32_of_lt hlen, rest32_eq_drop,
    tailFold32_eq_spec, ht, Spec_avalanche32_eq]

/-- C11 (counterexample). On a big-endian host `MurmurHash2A` folds the block
`01 00 00 00` as the word `0x01000000`: with seed `0` it returns `1884902823`,
not the value `1017657774` of the reference definition over little-endian
blocks. -/
theorem C11_reference_counterexample_big_endian :
    MurmurHash2A .big [1, 0, 0, 0] 4 0 = some 1884902823
      ∧ MurmurHash2A_spec [1, 0, 0, 0] 0 = 1017657774
      ∧ MurmurHash2A .big [1, 0, 0, 0] 4 0 ≠ some (MurmurHash2A_spec [1, 0, 0, 0] 0) := by
  refine ⟨by decide, by decide, by decide⟩

/-- C11 (amended). On a little-endian host, for every seed and byte sequence of
length `n = 4q + t`, `MurmurHash2A` returns `avalanche(mix(mix(H, T), n))`,
where `H` is the left fold of the mix over the `q` little-endian blocks from
`seed`, `T` the composition of the `t` tail bytes (`0` for an empty tail, still
mixed) and the length is mixed last. -/
theorem C11_MurmurHash2A_reference (key : List Byte) (seed : Nat) :
    MurmurHash2A .little key key.length seed = some (MurmurHash2A_spec key seed) := by
  rw [MurmurHash2A_eq_closed, MurmurHash2A_closed_eq_spec]

/-- C13. On a little-endian host, for every seed and byte sequence of length
`n = 4q + t` (an `int`, so below `2^31`), `MurmurHash2` returns the reference
value: start at `seed xor n`, fold the `q` little-endian blocks with the mix,
fold a non-empty tail by `h := (h xor (b0 | b1<<8 | b2<<16)) * m`, avalanche. -/
theorem C13_MurmurHash2_reference (key : List Byte) (seed : Nat)
    (hlen : key.length < 2 ^ 31) :
    MurmurHash2 .little key key.length seed = some (MurmurHash2_spec key seed) := by
  rw [MurmurHash2_eq_closed, MurmurHash2_closed_eq_spec key seed (by omega)]

/-- Witness for C13: the seven bytes `1..7` with seed `1`. -/
theorem C13_MurmurHash2_reference_witness :
    ([1, 2, 3, 4, 5, 6, 7] : List Byte).length < 2 ^ 31
      ∧ MurmurHash2 .little [1, 2, 3, 4, 5, 6, 7] ([1, 2, 3, 4, 5, 6, 7] : List Byte).length 1
          = some (MurmurHash2_spec [1, 2, 3, 4, 5, 6, 7] 1) :=
  ⟨by decide, C13_MurmurHash2_reference [1, 2, 3, 4, 5, 6, 7] 1 (by decide)⟩

/-! ## The structure of MurmurHash64B -/

/-- The two accumulators after the 8-byte groups, with the words taken by index. -/
theorem fold64B_eq_foldl_range (e : ByteOrder) (key : List Byte) :
    ∀ h1 h2, fold64B 0x5bd1e995 24 e key h1 h2
      = (List.range (key.length / 8)).foldl
          (fun (acc : Nat × Nat) i =>
            (Spec.mix32 acc.1 (Spec.block32 e key (2 * i)),
              Spec.mix32 acc.2 (Spec.block32 e key (2 * i + 1))))
          (h1, h2) := by
  induction key using list_induction8 with
  | short l hl =>
    intro h1 h2
    rw [fold64B_short _ _ e hl, Nat.div_eq_of_lt hl]
    rfl
  | step b0 b1 b2 b3 b4 b5 b6 b7 rest ih =>
    intro h1 h2
    have hq : (b0 :: b1 :: b2 :: b3 :: b4 :: b5 :: b6 :: b7 :: rest).length / 8
        = rest.length / 8 + 1 := by
      simp only [List.length_cons]
      omega
    rw [hq, List.range_succ_eq_map, List.foldl_cons, List.foldl_map, fold64B, ih]
    rfl

theorem getD_drop (l : List Byte) (n i : Nat) : (l.drop n).getD i 0 = l.getD (n + i) 0 := by
  simp [List.getD_eq_getElem?_getD, List.getElem?_drop]

theorem block32_drop8 (e : ByteOrder) (key : List Byte) (g : Nat) :
    Spec.block32 e (key.drop (8 * g)) 0 = Spec.block32 e key (2 * g) := by
  simp only [Spec.block32, getD_drop]
  rw [show 8 * g + 4 * 0 = 4 * (2 * g) by omega,
    show 8 * g + (4 * 0 + 1) = 4 * (2 * g) + 1 by omega,
    show 8 * g + (4 * 0 + 2) = 4 * (2 * g) + 2 by omega,
    show 8 * g + (4 * 0 + 3) = 4 * (2 * g) + 3 by omega]

/-- The trailing 4-byte group of `MurmurHash64B`, by index. -/
theorem foldl_words32_rest64 (e : ByteOrder) (key : List Byte) (h : Nat) :
    (words32 e (rest64 key)).foldl (mix32 0x5bd1e995 24) h
      = if key.length - 8 * (key.length / 8) ≥ 4 then
          Spec.mix32 h (Spec.block32 e key (2 * (key.length / 8)))
        else h := by
  have hl := rest64_length key
  have hlt := rest64_length_lt key
  rw [foldl_words32_eq, Spec.foldBlocks32]
  by_cases h4 : key.length - 8 * (key.length / 8) ≥ 4
  · have hq : (rest64 key).length / 4 = 1 := by omega
    rw [hq, if_pos h4, rest64_eq_drop, Nat.mul_comm (key.length / 8) 8]
    rw [show List.range 1 = [0] from rfl]
    simp only [List.foldl_cons, List.foldl_nil, block32_drop8]
  · have hq : (rest64 key).length / 4 = 0 := by omega
    rw [hq, if_neg h4]
    rfl

theorem rest32_rest64 (key : List Byte) :
    rest32 (rest64 key)
      = key.drop (8 * (key.length / 8)
          + (if key.length - 8 * (key.length / 8) ≥ 4 then 4 else 0)) := by
  have hl := rest64_length key
  rw [rest32_eq_drop, rest64_eq_drop, List.drop_drop, ← rest64_eq_drop, hl]
  congr 1
  split <;> omega

theorem u64_shl32 (a : Nat) : u64 ((a % 2 ^ 32) <<< 32) = (a % 2 ^ 32) <<< 32 := by
  have h := Nat.mod_lt a (show 2 ^ 32 > 0 by decide)
  rw [u64, Nat.mod_eq_of_lt]
  rw [Nat.shiftLeft_eq]
  omega

theorem crossMix64B_eq (h1 h2 : Nat) :
    crossMix64B 0x5bd1e995 h1 h2
      = ((Spec.crossMix64B h1 h2).1 <<< 32) ||| (Spec.crossMix64B h1 h2).2 := by
  simp only [crossMix64B, Spec.crossMix64B, u32, u64_shl32]

theorem Spec_crossMix64B_snd_lt (h1 h2 : Nat) : (Spec.crossMix64B h1 h2).2 < 2 ^ 32 := by
  simp only [Spec.crossMix64B]
  exact Nat.mod_lt _ (by decide)

theorem shl32_or_split (c1 c2 : Nat) (h2 : c2 < 2 ^ 32) :
    ((c1 <<< 32) ||| c2) / 2 ^ 32 = c1 ∧ ((c1 <<< 32) ||| c2) % 2 ^ 32 = c2 := by
  rw [shl_or_eq_add _ _ 32 h2]
  omega

theorem MurmurHash64B_closed_eq_spec (e : ByteOrder) (key : List Byte) (seed : Nat)
    (hseed : seed < 2 ^ 64) (hlen : key.length < 2 ^ 32) :
    MurmurHash64B.closed e key seed
      = ((MurmurHash64B_spec e key seed).1 <<< 32) ||| (MurmurHash64B_spec e key seed).2 := by
  have hhi : u32 (seed >>> 32) = seed >>> 32 := by
    apply u32_of_lt
    rw [Nat.shiftRight_eq_div_pow]
    omega
  rw [MurmurHash64B.closed, crossMix64B_eq]
  simp only [MurmurHash64B_spec, fold64B_eq_foldl_range, foldl_words32_rest64,
    tailFold32_eq_spec, rest32_rest64, hhi, u32_of_lt hlen]
  rfl

/-- C14. The structure of `MurmurHash64B`: for every 64-bit seed and byte
sequence of `int` length `n`, on either byte order, the digest is
`(h1 << 32) | h2` for the two accumulators of the reference structure (`h1` from
`low32(seed) xor n`, `h2` from `high32(seed)`, first word of each 8-byte group
into `h1`, second into `h2`, one more word into `h1` when four bytes remain, the
0-3 tail bytes folded into `h2` with `h2 *= m` only for a non-empty tail, then
the cross-mix); its high 32 bits are the final `h1`, its low 32 bits the final
`h2`. -/
theorem C14_MurmurHash64B_structure (e : ByteOrder) (key : List Byte) (seed : Nat)
    (hseed : seed < 2 ^ 64) (hlen : key.length < 2 ^ 31) :
    ∃ d, MurmurHash64B e key key.length seed = some d
      ∧ d = ((MurmurHash64B_spec e key seed).1 <<< 32) ||| (MurmurHash64B_spec e key seed).2
      ∧ d / 2 ^ 32 = (MurmurHash64B_spec e key seed).1
      ∧ d % 2 ^ 32 = (MurmurHash64B_spec e key seed).2 := by
  have hlow : (MurmurHash64B_spec e key seed).2 < 2 ^ 32 := Spec_crossMix64B_snd_lt _ _
  have hsplit := shl32_or_split (MurmurHash64B_spec e key seed).1 _ hlow
  refine ⟨((MurmurHash64B_spec e key seed).1 <<< 32) ||| (MurmurHash64B_spec e key seed).2,
    ?_, rfl, hsplit.1, hsplit.2⟩
  rw [MurmurHash64B_eq_closed, MurmurHash64B_closed_eq_spec e key seed hseed (by omega)]

/-- Witness for C14: the thirteen bytes `1..13` with seed `2^40 + 5` on a
little-endian host. -/
theorem C14_MurmurHash64B_structure_witness :
    (1099511627781 : Nat) < 2 ^ 64
      ∧ ([1, 2, 3, 4, 5, 6, 7, 8, 9, 10, 11, 12, 13] : List Byte).length < 2 ^ 31
      ∧ ∃ d, MurmurHash64B .little [1, 2, 3, 4, 5, 6, 7, 8, 9, 10, 11, 12, 13]
            ([1, 2, 3, 4, 5, 6, 7, 8, 9, 10, 11, 12, 13] : List Byte).length 1099511627781
            = some d
          ∧ d = ((MurmurHash64B_spec .little [1, 2, 3, 4, 5, 6, 7, 8, 9, 10, 11, 12, 13]
                1099511627781).1 <<< 32)
              ||| (MurmurHash64B_spec .little [1, 2, 3, 4, 5, 6, 7, 8, 9, 10, 11, 12, 13]
                1099511627781).2
          ∧ d / 2 ^ 32 = (MurmurHash64B_spec .little [1, 2, 3, 4, 5, 6, 7, 8, 9, 10, 11, 12, 13]
              1099511627781).1
          ∧ d % 2 ^ 32 = (MurmurHash64B_spec .little [1, 2, 3, 4, 5, 6, 7, 8, 9, 10, 11, 12, 13]
              1099511627781).2 :=
  ⟨by decide, by decide,
    C14_MurmurHash64B_structure .little [1, 2, 3, 4, 5, 6, 7, 8, 9, 10, 11, 12, 13]
      1099511627781 (by decide) (by decide)⟩

/-! ## The state invariant of the incremental hasher -/

theorem CMurmurHash2A_Invariant_iff (seed : Nat) (B : List Byte) (st : CMurmurHash2A) :
    CMurmurHash2A.Invariant seed B st ↔ st = CMurmurHash2A.absorbed seed B := by
  have hlen := rest32_length B
  have hlt := leVal_lt (rest32 B)
  have hdrop : B.drop (B.length - B.length % 4) = rest32 B := by
    rw [rest32_eq_drop]
    congr 1
    omega
  have hfold : Spec.foldBlocks32 .little B (B.length / 4) seed
      = (blockFold CMurmurHash2A.m CMurmurHash2A.r .little seed B).1 :=
    (foldl_words32_eq .little B seed).symm
  have hpow : 256 ^ (rest32 B).length = 2 ^ (8 * (B.length % 4)) := by
    rw [two_pow_eight_mul, hlen]
  constructor
  · rintro ⟨-, hc, hs, ht, -, -, hh⟩
    cases st with
    | mk mh mt mc ms =>
      simp only at hc hs ht hh
      subst hc hs hh
      rw [hdrop, orBytes_eq_leVal] at ht
      subst ht
      simp only [CMurmurHash2A.absorbed, CMurmurHash2A.holding, hfold, u32]
      rw [← hlen]
      rfl
  · rintro rfl
    have hcount : (CMurmurHash2A.absorbed seed B).m_count = B.length % 4 := hlen
    have htail : (CMurmurHash2A.absorbed seed B).m_tail = leVal (rest32 B) := rfl
    have hhash : (CMurmurHash2A.absorbed seed B).m_hash
        = Spec.foldBlocks32 .little B (B.length / 4) seed := hfold.symm
    refine ⟨?_, hcount, rfl, ?_, ?_, ?_, hhash⟩
    · rw [hcount]
      omega
    · rw [hcount, hdrop, orBytes_eq_leVal, htail]
    · rw [hcount, htail, ← hpow]
      exact hlt
    · intro h0
      rw [hcount] at h0
      rw [htail]
      have : rest32 B = [] := List.eq_nil_of_length_eq_zero (by omega)
      rw [this]
      rfl

theorem CMurmurHash2A_Add_absorbed (seed : Nat) (B part : List Byte) :
    CMurmurHash2A.Add .little (CMurmurHash2A.absorbed seed B) part part.length
      = some (CMurmurHash2A.absorbed seed (B ++ part)) := by
  have hp : (blockFold CMurmurHash2A.m CMurmurHash2A.r .little seed B).2.length < 4 :=
    rest32_length_lt B
  rw [CMurmurHash2A.absorbed, CMurmurHash2A_Add_eq _ _ _ hp, ← blockFold_append,
    u32_u32_add, ← List.length_append]
  rfl

theorem CMurmurHash2A_foldlM_absorbed (self : CMurmurHash2A) (seed : Nat)
    (parts : List (List Byte)) :
    parts.foldlM (fun st part => CMurmurHash2A.Add .little st part part.length)
        (CMurmurHash2A.Begin self seed)
      = some (CMurmurHash2A.absorbed seed parts.flatten) := by
  have hb : CMurmurHash2A.Begin self seed = CMurmurHash2A.holding seed [] 0 := rfl
  rw [hb, CMurmurHash2A_foldlM_Add_eq parts seed [] 0 (by simp) (by decide)]
  simp only [List.nil_append, Nat.zero_add]
  rfl

/-- C15. The incremental state invariant on a little-endian host: after
`Begin(seed)` and any sequence of `Add` calls whose concatenated data is `B` of
length `N`, the object satisfies `m_count <= 3`, `m_count = N mod 4`,
`m_size = N mod 2^32`, `m_tail` is the little-endian composition of the last
`m_count` bytes of `B` (below `2^(8*m_count)`, `0` when `m_count = 0`) and
`m_hash` is the left fold of the mix over the first `N/4` little-endian blocks
from `seed`; and every `Add` on an object satisfying the invariant for `B`
returns an object satisfying it for `B` followed by the added bytes. -/
theorem C15_incremental_invariant (self : CMurmurHash2A) (seed : Nat)
    (parts : List (List Byte)) (B : List Byte) (st : CMurmurHash2A) (part : List Byte) :
    (∃ st', parts.foldlM (fun st part => CMurmurHash2A.Add .little st part part.length)
          (CMurmurHash2A.Begin self seed) = some st'
        ∧ CMurmurHash2A.Invariant seed parts.flatten st')
      ∧ (CMurmurHash2A.Invariant seed B st →
          ∃ st', CMurmurHash2A.Add .little st part part.length = some st'
            ∧ CMurmurHash2A.Invariant seed (B ++ part) st') := by
  refine ⟨⟨_, CMurmurHash2A_foldlM_absorbed self seed parts,
    (CMurmurHash2A_Invariant_iff _ _ _).mpr rfl⟩, ?_⟩
  intro hinv
  rw [(CMurmurHash2A_Invariant_iff _ _ _).mp hinv]
  exact ⟨_, CMurmurHash2A_Add_absorbed seed B part, (CMurmurHash2A_Invariant_iff _ _ _).mpr rfl⟩

/-- Witness for C15: the object after `Begin(7)` and the five bytes `1..5`
satisfies the invariant, and `Add` of `[6, 7, 8, 9]` preserves it. -/
theorem C15_incremental_invariant_witness :
    CMurmurHash2A.Invariant 7 [1, 2, 3, 4, 5] (CMurmurHash2A.absorbed 7 [1, 2, 3, 4, 5])
      ∧ ∃ st', CMurmurHash2A.Add .little (CMurmurHash2A.absorbed 7 [1, 2, 3, 4, 5])
            [6, 7, 8, 9] ([6, 7, 8, 9] : List Byte).length = some st'
          ∧ CMurmurHash2A.Invariant 7 ([1, 2, 3, 4, 5] ++ [6, 7, 8, 9]) st' :=
  ⟨by decide,
    (C15_incremental_invariant ⟨0, 0, 0, 0⟩ 7 [] [1, 2, 3, 4, 5]
      (CMurmurHash2A.absorbed 7 [1, 2, 3, 4, 5]) [6, 7, 8, 9]).2 (by decide)⟩

/-! ## The last-resort byte-swap macros -/

theorem testBit_255 (i : Nat) : Nat.testBit 255 i = decide (i < 8) :=
  Nat.testBit_two_pow_sub_one 8 i

/-- Masking with the byte mask at bit position `k` selects the byte there. -/
theorem and_byte_mask (y k : Nat) : y &&& (255 * 2 ^ k) = (y / 2 ^ k % 256) * 2 ^ k := by
  rw [← Nat.shiftLeft_eq, ← Nat.shiftLeft_eq, ← Nat.shiftRight_eq_div_pow]
  apply Nat.eq_of_testBit_eq
  intro j
  rw [Nat.testBit_and, Nat.testBit_shiftLeft, Nat.testBit_shiftLeft, testBit_255,
    show (256 : Nat) = 2 ^ 8 from rfl, Nat.testBit_mod_two_pow, Nat.testBit_shiftRight]
  by_cases hj : k ≤ j
  · rw [show k + (j - k) = j by omega]
    simp [hj, Bool.and_comm]
  · simp [hj]

theorem and_low_byte (y : Nat) : y &&& 255 = y % 256 :=
  Nat.and_pow_two_sub_one_eq_mod y 8

theorem mul_or_eq_add (c a i : Nat) (h : a < 2 ^ i) : c * 2 ^ i ||| a = c * 2 ^ i + a := by
  rw [← shl_or_eq_add c a i h, Nat.shiftLeft_eq]

/-- Eight bytes or-ed at their positions are their sum. -/
theorem pack8_or (c0 c1 c2 c3 c4 c5 c6 c7 : Nat) (h1 : c1 < 256) (h2 : c2 < 256)
    (h3 : c3 < 256) (h4 : c4 < 256) (h5 : c5 < 256) (h6 : c6 < 256) (h7 : c7 < 256) :
    c0 * 2 ^ 56 ||| (c1 * 2 ^ 48 ||| (c2 * 2 ^ 40 ||| (c3 * 2 ^ 32 ||| (c4 * 2 ^ 24
        ||| (c5 * 2 ^ 16 ||| (c6 * 2 ^ 8 ||| c7))))))
      = c0 * 2 ^ 56 + (c1 * 2 ^ 48 + (c2 * 2 ^ 40 + (c3 * 2 ^ 32 + (c4 * 2 ^ 24
        + (c5 * 2 ^ 16 + (c6 * 2 ^ 8 + c7)))))) := by
  have e7 : c7 < 2 ^ 8 := by omega
  rw [mul_or_eq_add c6 c7 8 e7]
  have e6 : c6 * 2 ^ 8 + c7 < 2 ^ 16 := by omega
  rw [mul_or_eq_add c5 _ 16 e6]
  have e5 : c5 * 2 ^ 16 + (c6 * 2 ^ 8 + c7) < 2 ^ 24 := by omega
  rw [mul_or_eq_add c4 _ 24 e5]
  have e4 : c4 * 2 ^ 24 + (c5 * 2 ^ 16 + (c6 * 2 ^ 8 + c7)) < 2 ^ 32 := by omega
  rw [mul_or_eq_add c3 _ 32 e4]
  have e3 : c3 * 2 ^ 32 + (c4 * 2 ^ 24 + (c5 * 2 ^ 16 + (c6 * 2 ^ 8 + c7))) < 2 ^ 40 := by
    omega
  rw [mul_or_eq_add c2 _ 40 e3]
  have e2 : c2 * 2 ^ 40 + (c3 * 2 ^ 32 + (c4 * 2 ^ 24 + (c5 * 2 ^ 16 + (c6 * 2 ^ 8 + c7))))
      < 2 ^ 48 := by omega
  rw [mul_or_eq_add c1 _ 48 e2]
  have e1 : c1 * 2 ^ 48 + (c2 * 2 ^ 40 + (c3 * 2 ^ 32 + (c4 * 2 ^ 24 + (c5 * 2 ^ 16
      + (c6 * 2 ^ 8 + c7))))) < 2 ^ 56 := by omega
  rw [mul_or_eq_add c0 _ 56 e1]

theorem bswap64_term0 (x : Nat) : x * 2 ^ 56 % 2 ^ 64 = (x % 256) * 2 ^ 56 := by omega

theorem bswap64_term1 (x : Nat) :
    x * 2 ^ 40 % 2 ^ 64 / 2 ^ 48 % 256 * 2 ^ 48 = (x / 2 ^ 8 % 256) * 2 ^ 48 := by omega

theorem bswap64_term2 (x : Nat) :
    x * 2 ^ 24 % 2 ^ 64 / 2 ^ 40 % 256 * 2 ^ 40 = (x / 2 ^ 16 % 256) * 2 ^ 40 := by omega

theorem bswap64_term3 (x : Nat) :
    x * 2 ^ 8 % 2 ^ 64 / 2 ^ 32 % 256 * 2 ^ 32 = (x / 2 ^ 24 % 256) * 2 ^ 32 := by omega

theorem bswap64_term4 (x : Nat) :
    x / 2 ^ 8 / 2 ^ 24 % 256 * 2 ^ 24 = (x / 2 ^ 32 % 256) * 2 ^ 24 := by omega

theorem bswap64_term5 (x : Nat) :
    x / 2 ^ 24 / 2 ^ 16 % 256 * 2 ^ 16 = (x / 2 ^ 40 % 256) * 2 ^ 16 := by omega

theorem bswap64_term6 (x : Nat) :
    x / 2 ^ 40 / 2 ^ 8 % 256 * 2 ^ 8 = (x / 2 ^ 48 % 256) * 2 ^ 8 := by omega

/-- The last-resort `BYTESWAP64` on a 64-bit word, by the bytes of the word. -/
theorem BYTESWAP64_lastResort_eq (x : Nat) (hx : x < 2 ^ 64) :
    BYTESWAP64_lastResort x
      = (x % 256) * 2 ^ 56 + ((x / 2 ^ 8 % 256) * 2 ^ 48 + ((x / 2 ^ 16 % 256) * 2 ^ 40
        + ((x / 2 ^ 24 % 256) * 2 ^ 32 + ((x / 2 ^ 32 % 256) * 2 ^ 24
        + ((x / 2 ^ 40 % 256) * 2 ^ 16 + ((x / 2 ^ 48 % 256) * 2 ^ 8 + x / 2 ^ 56)))))) := by
  have h7 : x / 2 ^ 56 < 256 := by omega
  rw [BYTESWAP64_lastResort,
    show (0x00FF000000000000 : Nat) = 255 * 2 ^ 48 by norm_num,
    show (0x0000FF0000000000 : Nat) = 255 * 2 ^ 40 by norm_num,
    show (0x000000FF00000000 : Nat) = 255 * 2 ^ 32 by norm_num,
    show (0x00000000FF000000 : Nat) = 255 * 2 ^ 24 by norm_num,
    show (0x0000000000FF0000 : Nat) = 255 * 2 ^ 16 by norm_num,
    show (0x000000000000FF00 : Nat) = 255 * 2 ^ 8 by norm_num]
  simp only [and_byte_mask, u64, Nat.shiftLeft_eq, Nat.shiftRight_eq_div_pow]
  rw [bswap64_term0, bswap64_term1, bswap64_term2, bswap64_term3, bswap64_term4,
    bswap64_term5, bswap64_term6]
  simp only [Nat.or_assoc]
  exact pack8_or _ _ _ _ _ _ _ _ (Nat.mod_lt _ (by decide)) (Nat.mod_lt _ (by decide))
    (Nat.mod_lt _ (by decide)) (Nat.mod_lt _ (by decide)) (Nat.mod_lt _ (by decide))
    (Nat.mod_lt _ (by decide)) h7

theorem pack8_lt (c0 c1 c2 c3 c4 c5 c6 c7 : Nat) (h0 : c0 < 256) (h1 : c1 < 256)
    (h2 : c2 < 256) (h3 : c3 < 256) (h4 : c4 < 256) (h5 : c5 < 256) (h6 : c6 < 256)
    (h7 : c7 < 256) :
    c0 * 2 ^ 56 + (c1 * 2 ^ 48 + (c2 * 2 ^ 40 + (c3 * 2 ^ 32 + (c4 * 2 ^ 24
        + (c5 * 2 ^ 16 + (c6 * 2 ^ 8 + c7)))))) < 2 ^ 64 := by
  omega

/-- The bytes of eight bytes packed at their positions. -/
theorem pack8_byteAt (c0 c1 c2 c3 c4 c5 c6 c7 : Nat) (h0 : c0 < 256) (h1 : c1 < 256)
    (h2 : c2 < 256) (h3 : c3 < 256) (h4 : c4 < 256) (h5 : c5 < 256) (h6 : c6 < 256)
    (h7 : c7 < 256) (y : Nat)
    (hy : y = c0 * 2 ^ 56 + (c1 * 2 ^ 48 + (c2 * 2 ^ 40 + (c3 * 2 ^ 32 + (c4 * 2 ^ 24
        + (c5 * 2 ^ 16 + (c6 * 2 ^ 8 + c7))))))) :
    byteAt y 0 = c7 ∧ byteAt y 1 = c6 ∧ byteAt y 2 = c5 ∧ byteAt y 3 = c4
      ∧ byteAt y 4 = c3 ∧ byteAt y 5 = c2 ∧ byteAt y 6 = c1 ∧ byteAt y 7 = c0 := by
  simp only [byteAt, Nat.shiftRight_eq_div_pow]
  norm_num
  refine ⟨?_, ?_, ?_, ?_, ?_, ?_, ?_, ?_⟩ <;> omega

theorem byteAt_lt (x i : Nat) : byteAt x i < 256 := Nat.mod_lt _ (by decide)

/-- A 64-bit word is its eight bytes at their positions. -/
theorem word64_eq_bytes (x : Nat) (hx : x < 2 ^ 64) :
    x = byteAt x 7 * 2 ^ 56 + (byteAt x 6 * 2 ^ 48 + (byteAt x 5 * 2 ^ 40
      + (byteAt x 4 * 2 ^ 32 + (byteAt x 3 * 2 ^ 24 + (byteAt x 2 * 2 ^ 16
      + (byteAt x 1 * 2 ^ 8 + byteAt x 0)))))) := by
  simp only [byteAt, Nat.shiftRight_eq_div_pow]
  norm_num
  omega

/-- The last-resort `BYTESWAP64` packs the bytes of a 64-bit word in reverse. -/
theorem BYTESWAP64_lastResort_pack (x : Nat) (hx : x < 2 ^ 64) :
    BYTESWAP64_lastResort x
      = byteAt x 0 * 2 ^ 56 + (byteAt x 1 * 2 ^ 48 + (byteAt x 2 * 2 ^ 40
        + (byteAt x 3 * 2 ^ 32 + (byteAt x 4 * 2 ^ 24 + (byteAt x 5 * 2 ^ 16
        + (byteAt x 6 * 2 ^ 8 + byteAt x 7)))))) := by
  rw [BYTESWAP64_lastResort_eq x hx]
  simp only [byteAt, Nat.shiftRight_eq_div_pow]
  norm_num
  omega

theorem BYTESWAP64_lastResort_lt (x : Nat) (hx : x < 2 ^ 64) :
    BYTESWAP64_lastResort x < 2 ^ 64 := by
  rw [BYTESWAP64_lastResort_pack x hx]
  exact pack8_lt _ _ _ _ _ _ _ _ (byteAt_lt _ _) (byteAt_lt _ _) (byteAt_lt _ _)
    (byteAt_lt _ _) (byteAt_lt _ _) (byteAt_lt _ _) (byteAt_lt _ _) (byteAt_lt _ _)

theorem BYTESWAP64_lastResort_byteAt (x : Nat) (hx : x < 2 ^ 64) (i : Nat) (hi : i < 8) :
    byteAt (BYTESWAP64_lastResort x) i = byteAt x (7 - i) := by
  obtain ⟨e0, e1, e2, e3, e4, e5, e6, e7⟩ :=
    pack8_byteAt _ _ _ _ _ _ _ _ (byteAt_lt x 0) (byteAt_lt x 1) (byteAt_lt x 2)
      (byteAt_lt x 3) (byteAt_lt x 4) (byteAt_lt x 5) (byteAt_lt x 6) (byteAt_lt x 7)
      (BYTESWAP64_lastResort x) (BYTESWAP64_lastResort_pack x hx)
  interval_cases i
  · exact e0
  · exact e1
  · exact e2
  · exact e3
  · exact e4
  · exact e5
  · exact e6
  · exact e7

theorem BYTESWAP64_lastResort_involutive (x : Nat) (hx : x < 2 ^ 64) :
    BYTESWAP64_lastResort (BYTESWAP64_lastResort x) = x := by
  have hy := BYTESWAP64_lastResort_lt x hx
  rw [BYTESWAP64_lastResort_pack _ hy,
    BYTESWAP64_lastResort_byteAt x hx 0 (by decide),
    BYTESWAP64_lastResort_byteAt x hx 1 (by decide),
    BYTESWAP64_lastResort_byteAt x hx 2 (by decide),
    BYTESWAP64_lastResort_byteAt x hx 3 (by decide),
    BYTESWAP64_lastResort_byteAt x hx 4 (by decide),
    BYTESWAP64_lastResort_byteAt x hx 5 (by decide),
    BYTESWAP64_lastResort_byteAt x hx 6 (by decide),
    BYTESWAP64_lastResort_byteAt x hx 7 (by decide)]
  exact (word64_eq_bytes x hx).symm

theorem pack4_or (c0 c1 c2 c3 : Nat) (h1 : c1 < 256) (h2 : c2 < 256) (h3 : c3 < 256) :
    c0 * 2 ^ 24 ||| (c1 * 2 ^ 16 ||| (c2 * 2 ^ 8 ||| c3))
      = c0 * 2 ^ 24 + (c1 * 2 ^ 16 + (c2 * 2 ^ 8 + c3)) := by
  have e3 : c3 < 2 ^ 8 := by omega
  rw [mul_or_eq_add c2 c3 8 e3]
  have e2 : c2 * 2 ^ 8 + c3 < 2 ^ 16 := by omega
  rw [mul_or_eq_add c1 _ 16 e2]
  have e1 : c1 * 2 ^ 16 + (c2 * 2 ^ 8 + c3) < 2 ^ 24 := by omega
  rw [mul_or_eq_add c0 _ 24 e1]

theorem bswap32_term0 (x : Nat) : x % 256 * 2 ^ 24 % 2 ^ 32 = (x % 256) * 2 ^ 24 := by omega

theorem bswap32_term2 (x : Nat) :
    x / 2 ^ 8 % 256 * 2 ^ 8 * 2 ^ 8 % 2 ^ 32 = (x / 2 ^ 8 % 256) * 2 ^ 16 := by omega

theorem bswap32_term3 (x : Nat) :
    x / 2 ^ 16 % 256 * 2 ^ 16 / 2 ^ 8 = (x / 2 ^ 16 % 256) * 2 ^ 8 := by omega

/-- The last-resort `BYTESWAP32` packs the bytes of a 32-bit word in reverse. -/
theorem BYTESWAP32_lastResort_pack (x : Nat) :
    BYTESWAP32_lastResort x
      = byteAt x 0 * 2 ^ 24 + (byteAt x 1 * 2 ^ 16 + (byteAt x 2 * 2 ^ 8 + byteAt x 3)) := by
  rw [BYTESWAP32_lastResort,
    show (0x0000FF00 : Nat) = 255 * 2 ^ 8 by norm_num,
    show (0x00FF0000 : Nat) = 255 * 2 ^ 16 by norm_num,
    show (0xFF : Nat) = 255 by norm_num]
  simp only [and_byte_mask, and_low_byte, u32, Nat.shiftLeft_eq, Nat.shiftRight_eq_div_pow]
  rw [bswap32_term0, bswap32_term2, bswap32_term3, Nat.or_assoc, Nat.or_assoc,
    Nat.or_comm (x / 2 ^ 24 % 256), Nat.or_assoc,
    pack4_or _ _ _ _ (Nat.mod_lt _ (by decide)) (Nat.mod_lt _ (by decide))
      (Nat.mod_lt _ (by decide))]
  simp only [byteAt, Nat.shiftRight_eq_div_pow]
  norm_num

theorem pack4_byteAt (c0 c1 c2 c3 : Nat) (h0 : c0 < 256) (h1 : c1 < 256) (h2 : c2 < 256)
    (h3 : c3 < 256) (y : Nat)
    (hy : y = c0 * 2 ^ 24 + (c1 * 2 ^ 16 + (c2 * 2 ^ 8 + c3))) :
    byteAt y 0 = c3 ∧ byteAt y 1 = c2 ∧ byteAt y 2 = c1 ∧ byteAt y 3 = c0 := by
  simp only [byteAt, Nat.shiftRight_eq_div_pow]
  norm_num
  refine ⟨?_, ?_, ?_, ?_⟩ <;> omega

theorem word32_eq_bytes (x : Nat) (hx : x < 2 ^ 32) :
    x = byteAt x 3 * 2 ^ 24 + (byteAt x 2 * 2 ^ 16 + (byteAt x 1 * 2 ^ 8 + byteAt x 0)) := by
  simp only [byteAt, Nat.shiftRight_eq_div_pow]
  norm_num
  omega

theorem BYTESWAP32_lastResort_byteAt (x : Nat) (i : Nat) (hi : i < 4) :
    byteAt (BYTESWAP32_lastResort x) i = byteAt x (3 - i) := by
  obtain ⟨e0, e1, e2, e3⟩ :=
    pack4_byteAt _ _ _ _ (byteAt_lt x 0) (byteAt_lt x 1) (byteAt_lt x 2) (byteAt_lt x 3)
      (BYTESWAP32_lastResort x) (BYTESWAP32_lastResort_pack x)
  interval_cases i
  · exact e0
  · exact e1
  · exact e2
  · exact e3

theorem BYTESWAP32_lastResort_involutive (x : Nat) (hx : x < 2 ^ 32) :
    BYTESWAP32_lastResort (BYTESWAP32_lastResort x) = x := by
  rw [BYTESWAP32_lastResort_pack (BYTESWAP32_lastResort x),
    BYTESWAP32_lastResort_byteAt x 0 (by decide),
    BYTESWAP32_lastResort_byteAt x 1 (by decide),
    BYTESWAP32_lastResort_byteAt x 2 (by decide),
    BYTESWAP32_lastResort_byteAt x 3 (by decide)]
  exact (word32_eq_bytes x hx).symm

/-- C20. The last-resort byte-swap macros are byte reversals: for every 64-bit
`x`, byte `i` of `BYTESWAP64(x)` is byte `7-i` of `x`, and for every 32-bit `y`,
byte `j` of `BYTESWAP32(y)` is byte `3-j` of `y`; each macro is an involution
on its word size. -/
theorem C20_last_resort_byte_reversal (x y i j : Nat) (hx : x < 2 ^ 64) (hy : y < 2 ^ 32)
    (hi : i < 8) (hj : j < 4) :
    byteAt (BYTESWAP64_lastResort x) i = byteAt x (7 - i)
      ∧ BYTESWAP64_lastResort x < 2 ^ 64
      ∧ BYTESWAP64_lastResort (BYTESWAP64_lastResort x) = x
      ∧ byteAt (BYTESWAP32_lastResort y) j = byteAt y (3 - j)
      ∧ BYTESWAP32_lastResort y < 2 ^ 32
      ∧ BYTESWAP32_lastResort (BYTESWAP32_lastResort y) = y := by
  refine ⟨BYTESWAP64_lastResort_byteAt x hx i hi, BYTESWAP64_lastResort_lt x hx,
    BYTESWAP64_lastResort_involutive x hx, BYTESWAP32_lastResort_byteAt y j hj, ?_,
    BYTESWAP32_lastResort_involutive y hy⟩
  rw [BYTESWAP32_lastResort_pack]
  have h0 := byteAt_lt y 0
  have h1 := byteAt_lt y 1
  have h2 := byteAt_lt y 2
  have h3 := byteAt_lt y 3
  omega

/-- Witness for C20: `x = 0x0102030405060708`, byte `2`; `y = 0x01020304`, byte `1`. -/
theorem C20_last_resort_byte_reversal_witness :
    (0x0102030405060708 : Nat) < 2 ^ 64 ∧ (0x01020304 : Nat) < 2 ^ 32 ∧ (2 : Nat) < 8
      ∧ (1 : Nat) < 4
      ∧ byteAt (BYTESWAP64_lastResort 0x0102030405060708) 2 = byteAt 0x0102030405060708 (7 - 2)
      ∧ BYTESWAP64_lastResort 0x0102030405060708 < 2 ^ 64
      ∧ BYTESWAP64_lastResort (BYTESWAP64_lastResort 0x0102030405060708) = 0x0102030405060708
      ∧ byteAt (BYTESWAP32_lastResort 0x01020304) 1 = byteAt 0x01020304 (3 - 1)
      ∧ BYTESWAP32_lastResort 0x01020304 < 2 ^ 32
      ∧ BYTESWAP32_lastResort (BYTESWAP32_lastResort 0x01020304) = 0x01020304 :=
  ⟨by decide, by decide, by decide, by decide,
    C20_last_resort_byte_reversal 0x0102030405060708 0x01020304 2 1 (by decide) (by decide)
      (by decide) (by decide)⟩

/-! ## Host dependence of MurmurHash64A -/

theorem BYTESWAP64_selected_of_byteOrder (e : ByteOrder) (a b : Bool) :
    BYTESWAP64.selected ⟨some e, a, b⟩ = BYTESWAP64 e := by
  cases e <;> rfl

/-- With `__BYTE_ORDER__` predefined as the host's order, `MurmurHash64A.on` is
`MurmurHash64A`. -/
theorem MurmurHash64A_on_byteOrder (e : ByteOrder) (a b : Bool) (key : List Byte)
    (len seed : Nat) :
    MurmurHash64A.on ⟨some e, a, b⟩ e key len seed = MurmurHash64A e key len seed := by
  rw [MurmurHash64A.on, BYTESWAP64_selected_of_byteOrder, MurmurHash64A]

theorem hostWord64_big_pack (b0 b1 b2 b3 b4 b5 b6 b7 : Byte) :
    hostWord64 .big b0 b1 b2 b3 b4 b5 b6 b7
      = b0.val * 2 ^ 56 + (b1.val * 2 ^ 48 + (b2.val * 2 ^ 40 + (b3.val * 2 ^ 32
        + (b4.val * 2 ^ 24 + (b5.val * 2 ^ 16 + (b6.val * 2 ^ 8 + b7.val)))))) := by
  simp only [hostWord64]
  omega

theorem hostWord64_little_pack (b0 b1 b2 b3 b4 b5 b6 b7 : Byte) :
    hostWord64 .little b0 b1 b2 b3 b4 b5 b6 b7
      = b7.val * 2 ^ 56 + (b6.val * 2 ^ 48 + (b5.val * 2 ^ 40 + (b4.val * 2 ^ 32
        + (b3.val * 2 ^ 24 + (b2.val * 2 ^ 16 + (b1.val * 2 ^ 8 + b0.val)))))) := by
  simp only [hostWord64]
  omega

/-- The last-resort macro turns the word a big-endian host loads into the
word a little-endian host loads from the same bytes. -/
theorem BYTESWAP64_lastResort_hostWord (b0 b1 b2 b3 b4 b5 b6 b7 : Byte) :
    BYTESWAP64_lastResort (hostWord64 .big b0 b1 b2 b3 b4 b5 b6 b7)
      = hostWord64 .little b0 b1 b2 b3 b4 b5 b6 b7 := by
  have hp := hostWord64_big_pack b0 b1 b2 b3 b4 b5 b6 b7
  have hlt : hostWord64 .big b0 b1 b2 b3 b4 b5 b6 b7 < 2 ^ 64 := by
    rw [hp]
    exact pack8_lt _ _ _ _ _ _ _ _ b0.isLt b1.isLt b2.isLt b3.isLt b4.isLt b5.isLt b6.isLt
      b7.isLt
  obtain ⟨e0, e1, e2, e3, e4, e5, e6, e7⟩ :=
    pack8_byteAt _ _ _ _ _ _ _ _ b0.isLt b1.isLt b2.isLt b3.isLt b4.isLt b5.isLt b6.isLt
      b7.isLt _ hp
  rw [BYTESWAP64_lastResort_pack _ hlt, e0, e1, e2, e3, e4, e5, e6, e7,
    hostWord64_little_pack]

theorem words64_big_swapped (key : List Byte) :
    (words64 .big key).map (BYTESWAP64 .big) = words64 .little key := by
  induction key using list_induction8 with
  | short l hl => rw [words64_short _ hl, words64_short _ hl]; rfl
  | step b0 b1 b2 b3 b4 b5 b6 b7 rest ih =>
    rw [words64, words64, List.map_cons, ih]
    congr 1
    exact BYTESWAP64_lastResort_hostWord b0 b1 b2 b3 b4 b5 b6 b7

/-- Under a compiler that predefines `__BYTE_ORDER__`, `MurmurHash64A` returns
on a big-endian host what it returns on a little-endian host. -/
theorem MurmurHash64A_big_eq_little (key : List Byte) (seed : Nat) :
    MurmurHash64A .big key key.length seed = MurmurHash64A .little key key.length seed := by
  rw [MurmurHash64A_eq, MurmurHash64A_eq, words64_big_swapped, BYTESWAP64_little_map]

/-- C18 (evaluation at the failing input). On a little-endian host whose
compiler predefines none of the macros tested by lines 43-64, the closing
`#ifndef` selects the last-resort `BYTESWAP64`, so `getblock2` byte-reverses
the little-endian load: for the key `01 00 00 00 00 00 00 00` and seed `0`,
`MurmurHash64A` returns `15864050386245233697` there, whereas it returns
`10357027354812746030` on a big-endian and on a little-endian host whose
compiler predefines `__BYTE_ORDER__`. -/
theorem C18_hash64A_swaps_on_little_endian_without_macros :
    MurmurHash64A.on ⟨none, false, false⟩ .little [1, 0, 0, 0, 0, 0, 0, 0] 8 0
        = some 15864050386245233697
      ∧ MurmurHash64A.on ⟨some .big, false, false⟩ .big [1, 0, 0, 0, 0, 0, 0, 0] 8 0
        = some 10357027354812746030
      ∧ MurmurHash64A.on ⟨some .little, false, false⟩ .little [1, 0, 0, 0, 0, 0, 0, 0] 8 0
        = some 10357027354812746030 := by
  refine ⟨by decide, by decide, by decide⟩

/-- The definitions of `BYTESWAP64` that lines 43-55 select on a little-endian
build (`__BYTE_ORDER__ == __ORDER_LITTLE_ENDIAN__`, or one of the listed
architectures) are the NO-OP. -/
theorem BYTESWAP64_selected_noop (p : Predefined)
    (hp : p.byteOrder = some .little ∨ (p.byteOrder = none ∧ p.littleArch = true)) (x : Nat) :
    BYTESWAP64.selected p x = x := by
  rcases p with ⟨bo, la, bb⟩
  rcases hp with h | ⟨h, h2⟩
  · simp only at h; subst h; rfl
  · simp only at h h2; subst h; subst h2; rfl

/-- On a little-endian build where the preprocessor selects the NO-OP
`BYTESWAP64`, `MurmurHash64ANeutral` and `MurmurHash64A` return the same digest
for every seed and every byte sequence. -/
theorem MurmurHash64ANeutral_eq_native_on_noop (p : Predefined)
    (hp : p.byteOrder = some .little ∨ (p.byteOrder = none ∧ p.littleArch = true))
    (key : List Byte) (seed : Nat) :
    ∃ d, MurmurHash64ANeutral .little key key.length seed = some d
      ∧ MurmurHash64A.on p .little key key.length seed = some d := by
  obtain ⟨d, hd⟩ := MurmurHash64ANeutral_total .little key seed
  refine ⟨d, hd, ?_⟩
  have hid : (words64 .little key).map (BYTESWAP64.selected p) = words64 .little key := by
    rw [show BYTESWAP64.selected p = id from funext (BYTESWAP64_selected_noop p hp)]
    exact List.map_id _
  rw [MurmurHash64A.on, MurmurHash64A_compiled_eq, hid, ← MurmurHash64ANeutral_eq, hd]

/-- C7 (evaluation at the failing input). On a little-endian host whose
compiler predefines none of the macros tested by lines 43-64, the closing
`#ifndef` selects the byte-reversing last-resort `BYTESWAP64`: for the key
`01 00 00 00 00 00 00 00` and seed `0`, `MurmurHash64ANeutral` returns
`10357027354812746030` and `MurmurHash64A` returns `15864050386245233697` on
that host, two different digests on the little-endian byte order. With
`__BYTE_ORDER__` predefined as little-endian both return
`10357027354812746030`. -/
theorem C7_neutral64_ne_native_on_little_endian_without_macros :
    MurmurHash64ANeutral .little [1, 0, 0, 0, 0, 0, 0, 0] 8 0 = some 10357027354812746030
      ∧ MurmurHash64A.on ⟨none, false, false⟩ .little [1, 0, 0, 0, 0, 0, 0, 0] 8 0
        = some 15864050386245233697
      ∧ MurmurHash64ANeutral .little [1, 0, 0, 0, 0, 0, 0, 0] 8 0
        ≠ MurmurHash64A.on ⟨none, false, false⟩ .little [1, 0, 0, 0, 0, 0, 0, 0] 8 0
      ∧ MurmurHash64A.on ⟨some .little, false, false⟩ .little [1, 0, 0, 0, 0, 0, 0, 0] 8 0
        = MurmurHash64ANeutral .little [1, 0, 0, 0, 0, 0, 0, 0] 8 0 := by
  refine ⟨by decide, by decide, by decide, by decide⟩

/-! ## Invertibility of the steps applied to the accumulator -/

theorem mul32_cancel (a : Nat) (ha : a < 2 ^ 32) :
    (a * 0x5bd1e995 % 2 ^ 32) * 3852147133 % 2 ^ 32 = a := by
  rw [Nat.mod_mul_mod, Nat.mul_assoc,
    show 0x5bd1e995 * 3852147133 = 1381656390 * 2 ^ 32 + 1 by norm_num,
    Nat.mul_add, Nat.mul_one, ← Nat.mul_assoc, Nat.add_comm, Nat.add_mul_mod_self_right]
  exact Nat.mod_eq_of_lt ha

theorem mul64_cancel (a : Nat) (ha : a < 2 ^ 64) :
    (a * 0xc6a4a7935bd1e995 % 2 ^ 64) * 6879827495036328381 % 2 ^ 64 = a := by
  rw [Nat.mod_mul_mod, Nat.mul_assoc,
    show 0xc6a4a7935bd1e995 * 6879827495036328381 = 5338401661063375727 * 2 ^ 64 + 1 by
      norm_num,
    Nat.mul_add, Nat.mul_one, ← Nat.mul_assoc, Nat.add_comm, Nat.add_mul_mod_self_right]
  exact Nat.mod_eq_of_lt ha

/-- Multiplication by the odd constant `m` is injective on 32-bit words. -/
theorem mul32_injective (a b : Nat) (ha : a < 2 ^ 32) (hb : b < 2 ^ 32)
    (h : u32 (a * 0x5bd1e995) = u32 (b * 0x5bd1e995)) : a = b := by
  simp only [u32] at h
  rw [← mul32_cancel a ha, ← mul32_cancel b hb, h]

/-- Multiplication by the odd 64-bit constant `m` is injective on 64-bit words. -/
theorem mul64_injective (a b : Nat) (ha : a < 2 ^ 64) (hb : b < 2 ^ 64)
    (h : u64 (a * 0xc6a4a7935bd1e995) = u64 (b * 0xc6a4a7935bd1e995)) : a = b := by
  simp only [u64] at h
  rw [← mul64_cancel a ha, ← mul64_cancel b hb, h]

/-- The step `x ^= x >> s` is injective for a positive shift. -/
theorem xorshift_injective (s : Nat) (hs : 0 < s) (x y : Nat)
    (h : x ^^^ (x >>> s) = y ^^^ (y >>> s)) : x = y := by
  have hz : (x ^^^ y) >>> s = x ^^^ y := by
    apply Nat.eq_of_testBit_eq
    intro j
    have hj := congrArg (fun z => Nat.testBit z j) h
    simp only [Nat.testBit_xor, Nat.testBit_shiftRight] at hj ⊢
    revert hj
    cases Nat.testBit x j <;> cases Nat.testBit y j <;> cases Nat.testBit x (s + j) <;>
      cases Nat.testBit y (s + j) <;> simp
  have hzero : x ^^^ y = 0 := by
    by_contra hne
    have hpos : 0 < x ^^^ y := Nat.pos_of_ne_zero hne
    have hlt : (x ^^^ y) >>> s < x ^^^ y := by
      rw [Nat.shiftRight_eq_div_pow]
      exact Nat.div_lt_self hpos (Nat.one_lt_two_pow (by omega))
    omega
  exact Nat.xor_eq_zero.mp hzero

theorem xorshift_lt (n s x : Nat) (hx : x < 2 ^ n) : x ^^^ (x >>> s) < 2 ^ n := by
  apply Nat.xor_lt_two_pow hx
  rw [Nat.shiftRight_eq_div_pow]
  exact Nat.lt_of_le_of_lt (Nat.div_le_self _ _) hx

theorem mix32_eq_xor (h k : Nat) :
    mix32 0x5bd1e995 24 h k = u32 (h * 0x5bd1e995) ^^^ Spec.scramble32 k := rfl

theorem Spec_scramble32_lt (k : Nat) : Spec.scramble32 k < 2 ^ 32 :=
  Nat.mod_lt _ (by decide)

theorem mix32_lt (h k : Nat) : mix32 0x5bd1e995 24 h k < 2 ^ 32 := by
  rw [mix32_eq_xor]
  exact Nat.xor_lt_two_pow (u32_lt _) (Spec_scramble32_lt k)

/-- For a fixed key word the mix is injective in the accumulator. -/
theorem mix32_injective_left (h h' k : Nat) (hh : h < 2 ^ 32) (hh' : h' < 2 ^ 32)
    (heq : mix32 0x5bd1e995 24 h k = mix32 0x5bd1e995 24 h' k) : h = h' := by
  rw [mix32_eq_xor, mix32_eq_xor] at heq
  exact mul32_injective h h' hh hh' (Nat.xor_left_inj.mp heq)

theorem foldl_mix32_lt (ws : List Nat) : ∀ h, h < 2 ^ 32 →
    ws.foldl (mix32 0x5bd1e995 24) h < 2 ^ 32 := by
  induction ws with
  | nil => intro h hh; exact hh
  | cons w ws ih => intro h _; exact ih _ (mix32_lt h w)

theorem foldl_mix32_injective (ws : List Nat) : ∀ h h', h < 2 ^ 32 → h' < 2 ^ 32 →
    ws.foldl (mix32 0x5bd1e995 24) h = ws.foldl (mix32 0x5bd1e995 24) h' → h = h' := by
  induction ws with
  | nil => intro h h' _ _ heq; exact heq
  | cons w ws ih =>
    intro h h' hh hh' heq
    exact mix32_injective_left h h' w hh hh' (ih _ _ (mix32_lt h w) (mix32_lt h' w) heq)

theorem tailFold32_lt (h : Nat) (tail : List Byte) (hh : h < 2 ^ 32) :
    tailFold32 0x5bd1e995 h tail < 2 ^ 32 := by
  cases tail with
  | nil => exact hh
  | cons b bs => exact u32_lt _

theorem leVal_lt_word (tail : List Byte) (ht : tail.length < 4) : leVal tail < 2 ^ 32 := by
  have h := leVal_lt tail
  have hp : 256 ^ tail.length ≤ 256 ^ 4 := Nat.pow_le_pow_right (by decide) (by omega)
  have h4 : (256 : Nat) ^ 4 = 2 ^ 32 := by norm_num
  omega

theorem tailFold32_injective (h h' : Nat) (tail : List Byte) (ht : tail.length < 4)
    (hh : h < 2 ^ 32) (hh' : h' < 2 ^ 32)
    (heq : tailFold32 0x5bd1e995 h tail = tailFold32 0x5bd1e995 h' tail) : h = h' := by
  cases tail with
  | nil => exact heq
  | cons b bs =>
    have hl := leVal_lt_word (b :: bs) ht
    exact Nat.xor_left_inj.mp
      (mul32_injective _ _ (Nat.xor_lt_two_pow hh hl) (Nat.xor_lt_two_pow hh' hl) heq)

theorem avalanche32_lt (h : Nat) : avalanche32 0x5bd1e995 h < 2 ^ 32 :=
  xorshift_lt 32 15 _ (u32_lt _)

theorem avalanche32_injective (h h' : Nat) (hh : h < 2 ^ 32) (hh' : h' < 2 ^ 32)
    (heq : avalanche32 0x5bd1e995 h = avalanche32 0x5bd1e995 h') : h = h' := by
  have h1 := xorshift_injective 15 (by decide) _ _ heq
  have h2 := mul32_injective _ _ (xorshift_lt 32 13 h hh) (xorshift_lt 32 13 h' hh') h1
  exact xorshift_injective 13 (by decide) _ _ h2

/-! ## Seed injectivity -/

theorem MurmurHash2_closed_lt (e : ByteOrder) (key : List Byte) (seed : Nat) :
    MurmurHash2.closed e key seed < 2 ^ 32 := avalanche32_lt _

theorem MurmurHash2A_closed_lt (e : ByteOrder) (key : List Byte) (seed : Nat) :
    MurmurHash2A.closed e key seed < 2 ^ 32 := avalanche32_lt _

theorem MurmurHash2_closed_seed_injective (e : ByteOrder) (key : List Byte) (s1 s2 : Nat)
    (h1 : s1 < 2 ^ 32) (h2 : s2 < 2 ^ 32)
    (heq : MurmurHash2.closed e key s1 = MurmurHash2.closed e key s2) : s1 = s2 := by
  have hx1 : s1 ^^^ u32 key.length < 2 ^ 32 := Nat.xor_lt_two_pow h1 (u32_lt _)
  have hx2 : s2 ^^^ u32 key.length < 2 ^ 32 := Nat.xor_lt_two_pow h2 (u32_lt _)
  have hf1 := foldl_mix32_lt (words32 e key) _ hx1
  have hf2 := foldl_mix32_lt (words32 e key) _ hx2
  have ha := avalanche32_injective _ _ (tailFold32_lt _ (rest32 key) hf1)
    (tailFold32_lt _ (rest32 key) hf2) heq
  have ht := tailFold32_injective _ _ (rest32 key) (rest32_length_lt key) hf1 hf2 ha
  exact Nat.xor_left_inj.mp (foldl_mix32_injective _ _ _ hx1 hx2 ht)

theorem MurmurHash2A_closed_seed_injective (e : ByteOrder) (key : List Byte) (s1 s2 : Nat)
    (h1 : s1 < 2 ^ 32) (h2 : s2 < 2 ^ 32)
    (heq : MurmurHash2A.closed e key s1 = MurmurHash2A.closed e key s2) : s1 = s2 := by
  have hf1 := foldl_mix32_lt (words32 e key) _ h1
  have hf2 := foldl_mix32_lt (words32 e key) _ h2
  have ha := avalanche32_injective _ _ (mix32_lt _ _) (mix32_lt _ _) heq
  have hm := mix32_injective_left _ _ _ (mix32_lt _ _) (mix32_lt _ _) ha
  have hm2 := mix32_injective_left _ _ _ hf1 hf2 hm
  exact foldl_mix32_injective _ _ _ h1 h2 hm2

/-- An injective map of the numbers below `N` into themselves reaches every
number below `N`. -/
theorem surjective_on_words (N : Nat) (f : Nat → Nat) (hlt : ∀ s, f s < N)
    (hinj : ∀ s1 s2, s1 < N → s2 < N → f s1 = f s2 → s1 = s2) :
    ∀ d, d < N → ∃ s, s < N ∧ f s = d := by
  have hI : Function.Injective (fun s : Fin N => (⟨f s.val, hlt s.val⟩ : Fin N)) := by
    intro a b hab
    exact Fin.ext (hinj a.val b.val a.isLt b.isLt (congrArg Fin.val hab))
  have hS := Finite.surjective_of_injective hI
  intro d hd
  obtain ⟨s, hs⟩ := hS ⟨d, hd⟩
  exact ⟨s.val, s.isLt, congrArg Fin.val hs⟩

/-- C16. Seed injectivity: for every byte sequence, on either byte order, two
distinct 32-bit seeds give distinct digests of `MurmurHash2A` and distinct
digests of `MurmurHash2`; and for a fixed input the map from seed to digest is
a bijection of the 32-bit words: every 32-bit word is the digest of some
32-bit seed. -/
theorem C16_seed_injective (e : ByteOrder) (key : List Byte) (s1 s2 : Nat)
    (h1 : s1 < 2 ^ 32) (h2 : s2 < 2 ^ 32) (hne : s1 ≠ s2) :
    (∃ d1 d2, MurmurHash2A e key key.length s1 = some d1
        ∧ MurmurHash2A e key key.length s2 = some d2 ∧ d1 ≠ d2)
      ∧ (∃ d1 d2, MurmurHash2 e key key.length s1 = some d1
        ∧ MurmurHash2 e key key.length s2 = some d2 ∧ d1 ≠ d2)
      ∧ (∀ d, d < 2 ^ 32 → ∃ s, s < 2 ^ 32 ∧ MurmurHash2A e key key.length s = some d)
      ∧ (∀ d, d < 2 ^ 32 → ∃ s, s < 2 ^ 32 ∧ MurmurHash2 e key key.length s = some d) := by
  refine ⟨⟨_, _, MurmurHash2A_eq_closed e key s1, MurmurHash2A_eq_closed e key s2, ?_⟩,
    ⟨_, _, MurmurHash2_eq_closed e key s1, MurmurHash2_eq_closed e key s2, ?_⟩, ?_, ?_⟩
  · exact fun heq => hne (MurmurHash2A_closed_seed_injective e key s1 s2 h1 h2 heq)
  · exact fun heq => hne (MurmurHash2_closed_seed_injective e key s1 s2 h1 h2 heq)
  · intro d hd
    obtain ⟨s, hs, hfs⟩ := surjective_on_words (2 ^ 32) (MurmurHash2A.closed e key)
      (MurmurHash2A_closed_lt e key) (MurmurHash2A_closed_seed_injective e key) d hd
    exact ⟨s, hs, by rw [MurmurHash2A_eq_closed, hfs]⟩
  · intro d hd
    obtain ⟨s, hs, hfs⟩ := surjective_on_words (2 ^ 32) (MurmurHash2.closed e key)
      (MurmurHash2_closed_lt e key) (MurmurHash2_closed_seed_injective e key) d hd
    exact ⟨s, hs, by rw [MurmurHash2_eq_closed, hfs]⟩

/-- Witness for C16: the bytes `1..5` on a little-endian host with the seeds
`0` and `1`. -/
theorem C16_seed_injective_witness :
    (0 : Nat) < 2 ^ 32 ∧ (1 : Nat) < 2 ^ 32 ∧ (0 : Nat) ≠ 1
      ∧ (∃ d1 d2, MurmurHash2A .little [1, 2, 3, 4, 5] ([1, 2, 3, 4, 5] : List Byte).length 0
            = some d1
          ∧ MurmurHash2A .little [1, 2, 3, 4, 5] ([1, 2, 3, 4, 5] : List Byte).length 1
            = some d2
          ∧ d1 ≠ d2) :=
  ⟨by decide, by decide, by decide,
    (C16_seed_injective .little [1, 2, 3, 4, 5] 0 1 (by decide) (by decide) (by decide)).1⟩

/-! ## Single-block keys -/

theorem u64_lt (x : Nat) : u64 x < 2 ^ 64 := Nat.mod_lt _ (Nat.two_pow_pos 64)

/-- The key-word transformation of the 32-bit mix is injective on 32-bit words. -/
theorem Spec_scramble32_injective (k k' : Nat) (hk : k < 2 ^ 32) (hk' : k' < 2 ^ 32)
    (h : Spec.scramble32 k = Spec.scramble32 k') : k = k' := by
  have h1 := mul32_injective _ _ (xorshift_lt 32 24 _ (u32_lt (k * 0x5bd1e995)))
    (xorshift_lt 32 24 _ (u32_lt (k' * 0x5bd1e995))) h
  exact mul32_injective k k' hk hk' (xorshift_injective 24 (by decide) _ _ h1)

theorem Spec_scramble64_lt (k : Nat) : Spec.scramble64 0xc6a4a7935bd1e995 47 k < 2 ^ 64 :=
  Nat.mod_lt _ (Nat.two_pow_pos 64)

/-- The key-word transformation of the 64-bit mix is injective on 64-bit words. -/
theorem Spec_scramble64_injective (k k' : Nat) (hk : k < 2 ^ 64) (hk' : k' < 2 ^ 64)
    (h : Spec.scramble64 0xc6a4a7935bd1e995 47 k = Spec.scramble64 0xc6a4a7935bd1e995 47 k') :
    k = k' := by
  have h1 := mul64_injective _ _ (xorshift_lt 64 47 _ (u64_lt (k * 0xc6a4a7935bd1e995)))
    (xorshift_lt 64 47 _ (u64_lt (k' * 0xc6a4a7935bd1e995))) h
  exact mul64_injective k k' hk hk' (xorshift_injective 47 (by decide) _ _ h1)

theorem mix64_lt (h k : Nat) : mix64 0xc6a4a7935bd1e995 47 h k < 2 ^ 64 := u64_lt _

/-- For a fixed 64-bit accumulator the 64-bit mix is injective in the key word. -/
theorem mix64_injective_right (h k k' : Nat) (hh : h < 2 ^ 64) (hk : k < 2 ^ 64)
    (hk' : k' < 2 ^ 64)
    (heq : mix64 0xc6a4a7935bd1e995 47 h k = mix64 0xc6a4a7935bd1e995 47 h k') : k = k' := by
  have h1 := mul64_injective (h ^^^ Spec.scramble64 0xc6a4a7935bd1e995 47 k)
    (h ^^^ Spec.scramble64 0xc6a4a7935bd1e995 47 k')
    (Nat.xor_lt_two_pow hh (Spec_scramble64_lt k))
    (Nat.xor_lt_two_pow hh (Spec_scramble64_lt k')) heq
  exact Spec_scramble64_injective k k' hk hk' (Nat.xor_right_inj.mp h1)

theorem avalanche64_lt (h : Nat) : avalanche64 0xc6a4a7935bd1e995 47 h < 2 ^ 64 :=
  xorshift_lt 64 47 _ (u64_lt _)

theorem avalanche64_injective (h h' : Nat) (hh : h < 2 ^ 64) (hh' : h' < 2 ^ 64)
    (heq : avalanche64 0xc6a4a7935bd1e995 47 h = avalanche64 0xc6a4a7935bd1e995 47 h') :
    h = h' := by
  have h1 := xorshift_injective 47 (by decide) _ _ heq
  have h2 := mul64_injective _ _ (xorshift_lt 64 47 h hh) (xorshift_lt 64 47 h' hh') h1
  exact xorshift_injective 47 (by decide) _ _ h2

theorem hostWord32_lt (e : ByteOrder) (a0 a1 a2 a3 : Byte) :
    hostWord32 e a0 a1 a2 a3 < 2 ^ 32 := by
  have h0 := a0.isLt
  have h1 := a1.isLt
  have h2 := a2.isLt
  have h3 := a3.isLt
  cases e <;> simp only [hostWord32] <;> omega

/-- The word loaded from four bytes determines the bytes. -/
theorem hostWord32_injective (e : ByteOrder) (a0 a1 a2 a3 c0 c1 c2 c3 : Byte)
    (h : hostWord32 e a0 a1 a2 a3 = hostWord32 e c0 c1 c2 c3) :
    a0 = c0 ∧ a1 = c1 ∧ a2 = c2 ∧ a3 = c3 := by
  have h0 := a0.isLt
  have h1 := a1.isLt
  have h2 := a2.isLt
  have h3 := a3.isLt
  have g0 := c0.isLt
  have g1 := c1.isLt
  have g2 := c2.isLt
  have g3 := c3.isLt
  cases e <;> simp only [hostWord32] at h <;>
    refine ⟨Fin.ext ?_, Fin.ext ?_, Fin.ext ?_, Fin.ext ?_⟩ <;> omega

theorem hostWord64_lt (e : ByteOrder) (a0 a1 a2 a3 a4 a5 a6 a7 : Byte) :
    hostWord64 e a0 a1 a2 a3 a4 a5 a6 a7 < 2 ^ 64 := by
  cases e
  · rw [hostWord64_little_pack]
    exact pack8_lt _ _ _ _ _ _ _ _ a7.isLt a6.isLt a5.isLt a4.isLt a3.isLt a2.isLt a1.isLt
      a0.isLt
  · rw [hostWord64_big_pack]
    exact pack8_lt _ _ _ _ _ _ _ _ a0.isLt a1.isLt a2.isLt a3.isLt a4.isLt a5.isLt a6.isLt
      a7.isLt

/-- The word loaded from eight bytes determines the bytes. -/
theorem hostWord64_injective (e : ByteOrder) (a0 a1 a2 a3 a4 a5 a6 a7 c0 c1 c2 c3 c4 c5 c6
    c7 : Byte)
    (h : hostWord64 e a0 a1 a2 a3 a4 a5 a6 a7 = hostWord64 e c0 c1 c2 c3 c4 c5 c6 c7) :
    a0 = c0 ∧ a1 = c1 ∧ a2 = c2 ∧ a3 = c3 ∧ a4 = c4 ∧ a5 = c5 ∧ a6 = c6 ∧ a7 = c7 := by
  cases e
  · obtain ⟨p0, p1, p2, p3, p4, p5, p6, p7⟩ :=
      pack8_byteAt _ _ _ _ _ _ _ _ a7.isLt a6.isLt a5.isLt a4.isLt a3.isLt a2.isLt a1.isLt
        a0.isLt _ (hostWord64_little_pack a0 a1 a2 a3 a4 a5 a6 a7)
    obtain ⟨q0, q1, q2, q3, q4, q5, q6, q7⟩ :=
      pack8_byteAt _ _ _ _ _ _ _ _ c7.isLt c6.isLt c5.isLt c4.isLt c3.isLt c2.isLt c1.isLt
        c0.isLt _ (h.trans (hostWord64_little_pack c0 c1 c2 c3 c4 c5 c6 c7))
    exact ⟨Fin.ext (p0.symm.trans q0), Fin.ext (p1.symm.trans q1), Fin.ext (p2.symm.trans q2),
      Fin.ext (p3.symm.trans q3), Fin.ext (p4.symm.trans q4), Fin.ext (p5.symm.trans q5),
      Fin.ext (p6.symm.trans q6), Fin.ext (p7.symm.trans q7)⟩
  · obtain ⟨p0, p1, p2, p3, p4, p5, p6, p7⟩ :=
      pack8_byteAt _ _ _ _ _ _ _ _ a0.isLt a1.isLt a2.isLt a3.isLt a4.isLt a5.isLt a6.isLt
        a7.isLt _ (hostWord64_big_pack a0 a1 a2 a3 a4 a5 a6 a7)
    obtain ⟨q0, q1, q2, q3, q4, q5, q6, q7⟩ :=
      pack8_byteAt _ _ _ _ _ _ _ _ c0.isLt c1.isLt c2.isLt c3.isLt c4.isLt c5.isLt c6.isLt
        c7.isLt _ (h.trans (hostWord64_big_pack c0 c1 c2 c3 c4 c5 c6 c7))
    exact ⟨Fin.ext (p7.symm.trans q7), Fin.ext (p6.symm.trans q6), Fin.ext (p5.symm.trans q5),
      Fin.ext (p4.symm.trans q4), Fin.ext (p3.symm.trans q3), Fin.ext (p2.symm.trans q2),
      Fin.ext (p1.symm.trans q1), Fin.ext (p0.symm.trans q0)⟩

/-- A key of length 4 is one block of four bytes. -/
theorem list_length_four (key : List Byte) (hkey : key.length = 4) :
    ∃ b0 b1 b2 b3 : Byte, key = [b0, b1, b2, b3] := by
  rcases key with _ | ⟨b0, _ | ⟨b1, _ | ⟨b2, _ | ⟨b3, _ | ⟨b4, t⟩⟩⟩⟩⟩ <;> simp at hkey
  exact ⟨b0, b1, b2, b3, rfl⟩

/-- A key of length 8 is one block of eight bytes. -/
theorem list_length_eight (key : List Byte) (hkey : key.length = 8) :
    ∃ b0 b1 b2 b3 b4 b5 b6 b7 : Byte, key = [b0, b1, b2, b3, b4, b5, b6, b7] := by
  rcases key with _ | ⟨b0, _ | ⟨b1, _ | ⟨b2, _ | ⟨b3, _ | ⟨b4, _ | ⟨b5, _ | ⟨b6, _ | ⟨b7,
    _ | ⟨b8, t⟩⟩⟩⟩⟩⟩⟩⟩⟩ <;> simp at hkey
  exact ⟨b0, b1, b2, b3, b4, b5, b6, b7, rfl⟩

/-- The digest of `MurmurHash2` on a key of one block. -/
theorem MurmurHash2_block (e : ByteOrder) (a0 a1 a2 a3 : Byte) (seed : Nat) :
    MurmurHash2 e [a0, a1, a2, a3] 4 seed
      = some (avalanche32 0x5bd1e995
          (mix32 0x5bd1e995 24 (seed ^^^ u32 4) (hostWord32 e a0 a1 a2 a3))) :=
  MurmurHash2_eq_closed e [a0, a1, a2, a3] seed

/-- The digest of `MurmurHash64A` on a key of one block. -/
theorem MurmurHash64A_compiled_block (bswap : Nat → Nat) (e : ByteOrder)
    (a0 a1 a2 a3 a4 a5 a6 a7 : Byte) (seed : Nat) :
    MurmurHash64A.compiled bswap e [a0, a1, a2, a3, a4, a5, a6, a7] 8 seed
      = some (avalanche64 0xc6a4a7935bd1e995 47
          (mix64 0xc6a4a7935bd1e995 47 (seed ^^^ u64 (8 * 0xc6a4a7935bd1e995))
            (bswap (hostWord64 e a0 a1 a2 a3 a4 a5 a6 a7)))) :=
  MurmurHash64A_compiled_eq bswap e [a0, a1, a2, a3, a4, a5, a6, a7] seed

theorem MurmurHash2_block_injective (e : ByteOrder) (seed : Nat) (a b : List Byte)
    (ha : a.length = 4) (hb : b.length = 4) (hab : a ≠ b) :
    ∃ d1 d2, MurmurHash2 e a 4 seed = some d1 ∧ MurmurHash2 e b 4 seed = some d2
      ∧ d1 ≠ d2 := by
  obtain ⟨a0, a1, a2, a3, rfl⟩ := list_length_four a ha
  obtain ⟨c0, c1, c2, c3, rfl⟩ := list_length_four b hb
  refine ⟨_, _, MurmurHash2_block e a0 a1 a2 a3 seed, MurmurHash2_block e c0 c1 c2 c3 seed,
    ?_⟩
  intro heq
  have h1 := avalanche32_injective _ _ (mix32_lt _ _) (mix32_lt _ _) heq
  rw [mix32_eq_xor, mix32_eq_xor] at h1
  have h2 := Spec_scramble32_injective _ _ (hostWord32_lt e a0 a1 a2 a3)
    (hostWord32_lt e c0 c1 c2 c3) (Nat.xor_right_inj.mp h1)
  obtain ⟨e0, e1, e2, e3⟩ := hostWord32_injective e _ _ _ _ _ _ _ _ h2
  exact hab (by rw [e0, e1, e2, e3])

theorem MurmurHash64A_compiled_block_injective (bswap : Nat → Nat)
    (hlt : ∀ x, x < 2 ^ 64 → bswap x < 2 ^ 64)
    (hinj : ∀ x y, x < 2 ^ 64 → y < 2 ^ 64 → bswap x = bswap y → x = y)
    (e : ByteOrder) (seed : Nat) (hs : seed < 2 ^ 64) (a b : List Byte)
    (ha : a.length = 8) (hb : b.length = 8) (hab : a ≠ b) :
    ∃ d1 d2, MurmurHash64A.compiled bswap e a 8 seed = some d1
      ∧ MurmurHash64A.compiled bswap e b 8 seed = some d2 ∧ d1 ≠ d2 := by
  obtain ⟨a0, a1, a2, a3, a4, a5, a6, a7, rfl⟩ := list_length_eight a ha
  obtain ⟨c0, c1, c2, c3, c4, c5, c6, c7, rfl⟩ := list_length_eight b hb
  refine ⟨_, _, MurmurHash64A_compiled_block bswap e a0 a1 a2 a3 a4 a5 a6 a7 seed,
    MurmurHash64A_compiled_block bswap e c0 c1 c2 c3 c4 c5 c6 c7 seed, ?_⟩
  intro heq
  have hwa := hostWord64_lt e a0 a1 a2 a3 a4 a5 a6 a7
  have hwc := hostWord64_lt e c0 c1 c2 c3 c4 c5 c6 c7
  have h1 := avalanche64_injective _ _ (mix64_lt _ _) (mix64_lt _ _) heq
  have h2 := mix64_injective_right _ _ _ (Nat.xor_lt_two_pow hs (u64_lt _))
    (hlt _ hwa) (hlt _ hwc) h1
  have h3 := hinj _ _ hwa hwc h2
  obtain ⟨e0, e1, e2, e3, e4, e5, e6, e7⟩ :=
    hostWord64_injective e _ _ _ _ _ _ _ _ _ _ _ _ _ _ _ _ h3
  exact hab (by rw [e0, e1, e2, e3, e4, e5, e6, e7])

/-- On 64-bit words every definition of `BYTESWAP64` that the preprocessor can
select is the identity or the byte reversal of the last-resort macro. -/
theorem BYTESWAP64_selected_eq (p : Predefined) :
    (∀ x, x < 2 ^ 64 → BYTESWAP64.selected p x = x)
      ∨ (∀ x, x < 2 ^ 64 → BYTESWAP64.selected p x = BYTESWAP64_lastResort x) := by
  rcases p with ⟨_ | (_ | _), _ | _, _ | _⟩ <;>
    first
    | exact Or.inl (fun _ _ => rfl)
    | exact Or.inr (fun _ _ => rfl)
    | exact Or.inr (fun x hx => (BYTESWAP64_lastResort_pack x hx).symm)

theorem BYTESWAP64_selected_lt (p : Predefined) (x : Nat) (hx : x < 2 ^ 64) :
    BYTESWAP64.selected p x < 2 ^ 64 := by
  rcases BYTESWAP64_selected_eq p with h | h
  · rw [h x hx]; exact hx
  · rw [h x hx]; exact BYTESWAP64_lastResort_lt x hx

theorem BYTESWAP64_selected_injective (p : Predefined) (x y : Nat) (hx : x < 2 ^ 64)
    (hy : y < 2 ^ 64) (heq : BYTESWAP64.selected p x = BYTESWAP64.selected p y) : x = y := by
  rcases BYTESWAP64_selected_eq p with h | h
  · rw [h x hx, h y hy] at heq; exact heq
  · rw [h x hx, h y hy] at heq
    rw [← BYTESWAP64_lastResort_involutive x hx, ← BYTESWAP64_lastResort_involutive y hy, heq]

theorem MurmurHash64A_on_block_injective (p : Predefined) (e : ByteOrder) (seed : Nat)
    (hs : seed < 2 ^ 64) (a b : List Byte) (ha : a.length = 8) (hb : b.length = 8)
    (hab : a ≠ b) :
    ∃ d1 d2, MurmurHash64A.on p e a 8 seed = some d1
      ∧ MurmurHash64A.on p e b 8 seed = some d2 ∧ d1 ≠ d2 :=
  MurmurHash64A_compiled_block_injective (BYTESWAP64.selected p)
    (BYTESWAP64_selected_lt p) (BYTESWAP64_selected_injective p) e seed hs a b ha hb hab

theorem MurmurHash64A_block_injective (e : ByteOrder) (seed : Nat)
    (hs : seed < 2 ^ 64) (a b : List Byte) (ha : a.length = 8) (hb : b.length = 8)
    (hab : a ≠ b) :
    ∃ d1 d2, MurmurHash64A e a 8 seed = some d1
      ∧ MurmurHash64A e b 8 seed = some d2 ∧ d1 ≠ d2 := by
  have h := MurmurHash64A_on_block_injective ⟨some e, false, false⟩ e seed hs a b ha hb hab
  simp only [MurmurHash64A_on_byteOrder] at h
  exact h

/-- C17. No collisions among single-block keys: on either byte order and for
every seed, two distinct 4-byte inputs have distinct `MurmurHash2` digests; for
every 64-bit seed, two distinct 8-byte inputs have distinct `MurmurHash64A`
digests, also under every definition of `BYTESWAP64` that the preprocessor can
select. The key-word transformation `k -> ((k*m) xor ((k*m) >> r)) * m` and the
avalanche are bijections of the 32-bit words (`r = 24`, shifts 13 and 15) and
of the 64-bit words (`r = 47`): injective, and reaching every word. -/
theorem C17_single_block_keys_do_not_collide (e : ByteOrder) (seed : Nat) (a b : List Byte)
    (ha : a.length = 4) (hb : b.length = 4) (hab : a ≠ b)
    (seed64 : Nat) (hs : seed64 < 2 ^ 64) (p : Predefined) (x y : List Byte)
    (hx : x.length = 8) (hy : y.length = 8) (hxy : x ≠ y) :
    (∃ d1 d2, MurmurHash2 e a 4 seed = some d1 ∧ MurmurHash2 e b 4 seed = some d2
        ∧ d1 ≠ d2)
      ∧ (∃ d1 d2, MurmurHash64A e x 8 seed64 = some d1
        ∧ MurmurHash64A e y 8 seed64 = some d2 ∧ d1 ≠ d2)
      ∧ (∃ d1 d2, MurmurHash64A.on p e x 8 seed64 = some d1
        ∧ MurmurHash64A.on p e y 8 seed64 = some d2 ∧ d1 ≠ d2)
      ∧ (∀ k k', k < 2 ^ 32 → k' < 2 ^ 32 → Spec.scramble32 k = Spec.scramble32 k' → k = k')
      ∧ (∀ d, d < 2 ^ 32 → ∃ k, k < 2 ^ 32 ∧ Spec.scramble32 k = d)
      ∧ (∀ h h', h < 2 ^ 32 → h' < 2 ^ 32 →
          avalanche32 0x5bd1e995 h = avalanche32 0x5bd1e995 h' → h = h')
      ∧ (∀ d, d < 2 ^ 32 → ∃ h, h < 2 ^ 32 ∧ avalanche32 0x5bd1e995 h = d)
      ∧ (∀ k k', k < 2 ^ 64 → k' < 2 ^ 64 →
          Spec.scramble64 0xc6a4a7935bd1e995 47 k = Spec.scramble64 0xc6a4a7935bd1e995 47 k' →
          k = k')
      ∧ (∀ d, d < 2 ^ 64 → ∃ k, k < 2 ^ 64 ∧ Spec.scramble64 0xc6a4a7935bd1e995 47 k = d)
      ∧ (∀ h h', h < 2 ^ 64 → h' < 2 ^ 64 →
          avalanche64 0xc6a4a7935bd1e995 47 h = avalanche64 0xc6a4a7935bd1e995 47 h' → h = h')
      ∧ (∀ d, d < 2 ^ 64 → ∃ h, h < 2 ^ 64 ∧ avalanche64 0xc6a4a7935bd1e995 47 h = d) :=
  ⟨MurmurHash2_block_injective e seed a b ha hb hab,
    MurmurHash64A_block_injective e seed64 hs x y hx hy hxy,
    MurmurHash64A_on_block_injective p e seed64 hs x y hx hy hxy,
    Spec_scramble32_injective,
    surjective_on_words (2 ^ 32) Spec.scramble32 Spec_scramble32_lt Spec_scramble32_injective,
    avalanche32_injective,
    surjective_on_words (2 ^ 32) (avalanche32 0x5bd1e995) avalanche32_lt avalanche32_injective,
    Spec_scramble64_injective,
    surjective_on_words (2 ^ 64) (Spec.scramble64 0xc6a4a7935bd1e995 47) Spec_scramble64_lt
      Spec_scramble64_injective,
    avalanche64_injective,
    surjective_on_words (2 ^ 64) (avalanche64 0xc6a4a7935bd1e995 47) avalanche64_lt
      avalanche64_injective⟩

/-- Witness for C17: on a little-endian host with seed `0`, the 4-byte keys
`01 00 00 00` and `02 00 00 00`, and the 8-byte keys `01 00 00 00 00 00 00 00`
and `02 00 00 00 00 00 00 00`. -/
theorem C17_single_block_keys_do_not_collide_witness :
    ([1, 0, 0, 0] : List Byte) ≠ [2, 0, 0, 0]
      ∧ ([1, 0, 0, 0, 0, 0, 0, 0] : List Byte) ≠ [2, 0, 0, 0, 0, 0, 0, 0]
      ∧ (0 : Nat) < 2 ^ 64
      ∧ (∃ d1 d2, MurmurHash2 .little [1, 0, 0, 0] 4 0 = some d1
          ∧ MurmurHash2 .little [2, 0, 0, 0] 4 0 = some d2 ∧ d1 ≠ d2)
      ∧ (∃ d1 d2, MurmurHash64A .little [1, 0, 0, 0, 0, 0, 0, 0] 8 0 = some d1
          ∧ MurmurHash64A .little [2, 0, 0, 0, 0, 0, 0, 0] 8 0 = some d2 ∧ d1 ≠ d2) :=
  have t := C17_single_block_keys_do_not_collide .little 0 [1, 0, 0, 0] [2, 0, 0, 0] rfl rfl
    (by decide) 0 (by decide) ⟨none, false, false⟩ [1, 0, 0, 0, 0, 0, 0, 0]
    [2, 0, 0, 0, 0, 0, 0, 0] rfl rfl (by decide)
  ⟨by decide, by decide, by decide, t.1, t.2.1⟩

end Murmur
